import Mathlib

/-!
# gotube: a shallow embedding of the cipher engine, the identifier resolver, the
chunked downloader, the stream catalog and the initialization of a video, with the
properties stated about them

Conventions of the embedding.

* A Go `string` is a Lean `String`; the Go programs here only ever look at ASCII
  classes of characters, so a string is read as its list of characters.
* A Go `int` / `int64` is a Lean `Int`.  Where the Go code could leave the 64-bit
  range the place is marked in the definition.
* A Go slice `[]string` is a `List String`.  The functions that mutate a slice in
  place and hand it back are embedded as functions returning the new contents; the
  caller (`DecryptSignature`) immediately overwrites its only reference with the
  returned slice, so no alias of the old contents is ever read.
* A run-time panic (index out of range, slice bounds out of range, call of a nil
  function) is the value `none` of `Option`, or `Res.panic`.
* The standard-library functions the code calls (`regexp`, `strconv`, `strings`,
  `net/url`, `os`, `sort`) are embedded next to the code that calls them, each as far
  as that code uses it.
* The network, the file system and `encoding/json` are parameters of the functions that
  use them (`Env`, `Fetcher`, `Site`); a property holds for every such parameter unless
  it names one.
-/

namespace Gotube

/-! ## package errors -/

/-- The Go struct `errors.ExtractError`. -/
structure ExtractError where
  Caller : String
  Pattern : String
  deriving DecidableEq, Repr

/-- The error values that reach the callers modelled here. -/
inductive GoError where
  /-- An `errors.ExtractError` value. -/
  | extract (e : ExtractError)
  /-- A `*strconv.NumError` of `strconv.Atoi`, with the offending text and the reason. -/
  | num (text : String) (reason : String)
  /-- An `errors.HttpError` value. -/
  | http (StatusCode : Int)
  /-- An error of the operating system or of the network, with its message. -/
  | sys (message : String)
  /-- An `errors.VideoUnsupportedError` value. -/
  | unsupported (VideoID : String)
  /-- An `errors.RequestFailedError` value. -/
  | requestFailed (Reason : String)
  deriving DecidableEq, Repr

/-- Result of a Go call returning `(value, error)`: a value with a nil error, a
non-nil error, or a run-time panic. -/
inductive Res (α : Type) where
  | ok (a : α)
  | error (e : GoError)
  | panic
  deriving DecidableEq, Repr

/-! ## Go slice primitives -/

/-- The index expression `arr[i]` read as a value: bounds-checked. -/
def index {α : Type} (arr : List α) (i : Int) : Option α :=
  if 0 ≤ i then arr[i.toNat]? else none

/-- The assignment `arr[i] = v`: bounds-checked, then the element is replaced. -/
def assign {α : Type} (arr : List α) (i : Int) (v : α) : Option (List α) :=
  if 0 ≤ i ∧ i < arr.length then some (arr.set i.toNat v) else none

/-- Go integer remainder `a % b` (truncated towards zero). -/
def goMod (a b : Int) : Int := Int.tmod a b

/-- Go integer quotient `a / b` (truncated towards zero). -/
def goDiv (a b : Int) : Int := Int.tdiv a b

namespace decrypt

/-! ## package decrypt: the three operations of `mapFunctions` -/

/-- The loop of the closure `reverse`:
`for i, j := 0, len(arr)-1; i < j; i, j = i+1, j-1 { arr[i], arr[j] = arr[j], arr[i] }`.
The fuel bounds the number of iterations; `none` is a panic or exhausted fuel. -/
def reverseLoop : Nat → List String → Int → Int → Option (List String)
  | 0, arr, i, j => if i < j then none else some arr
  | fuel + 1, arr, i, j =>
    if i < j then do
      let x ← index arr j
      let y ← index arr i
      let arr1 ← assign arr i x
      let arr2 ← assign arr1 j y
      reverseLoop fuel arr2 (i + 1) (j - 1)
    else some arr

/-- The closure `reverse` of `mapFunctions`; the integer argument is ignored. -/
def reverse (arr : List String) (_ : Int) : Option (List String) :=
  reverseLoop arr.length arr 0 ((arr.length : Int) - 1)

/-- The closure `splice` of `mapFunctions`: `append(arr[:b], arr[b*2:]...)`.
`arr[:b]` panics unless `0 ≤ b ≤ cap(arr)` and `arr[b*2:]` unless `0 ≤ b*2 ≤ len(arr)`;
on a path without panic `b ≤ 2*b ≤ len(arr) ≤ cap(arr)`, so the capacity never
decides, and since `arr[:b]` is checked first `b*2` cannot leave the 64-bit range
before a panic.  The append writes into the spare capacity of `arr[:b]`. -/
def splice (arr : List String) (b : Int) : Option (List String) :=
  if 0 ≤ b ∧ b * 2 ≤ arr.length then
    some (arr.take b.toNat ++ arr.drop (b * 2).toNat)
  else none

/-- The closure `swap` of `mapFunctions`:
`c := arr[0]; arr[0] = arr[b%len(arr)]; arr[b] = c; return arr`. -/
def swap (arr : List String) (b : Int) : Option (List String) := do
  let c ← index arr 0
  let v ← index arr (goMod b arr.length)
  let arr1 ← assign arr 0 v
  let arr2 ← assign arr1 b c
  pure arr2

end decrypt

/-! ## The fragment of Go regular expressions used by the repository

Go's `regexp` returns, among the matches that start leftmost, the one a
backtracking search finds first.  The patterns modelled here are sequences of
single-character classes, greedy repetitions of a class, and the end-of-text
anchor; the matcher below is that backtracking search. -/

/-- One element of a pattern. -/
inductive Item where
  /-- A literal character or a character class, matching exactly one character. -/
  | one (p : Char → Bool)
  /-- A greedy repetition `c+` (`lo = 1`) or `c*` (`lo = 0`) of a class. -/
  | many (p : Char → Bool) (lo : Nat)
  /-- The anchor `$` (without the `m` flag): end of text. -/
  | eot

/-- A compiled pattern: its elements, its capturing groups as (index of the first
element, number of elements), and the source text returned by `re.String()`. -/
structure Regexp where
  items : List Item
  groups : List (Nat × Nat)
  source : String

/-- The class `\w`. -/
def isWord (c : Char) : Bool :=
  ('0' ≤ c && c ≤ '9') || ('A' ≤ c && c ≤ 'Z') || ('a' ≤ c && c ≤ 'z') || c == '_'

/-- The class `\d`. -/
def isDigit (c : Char) : Bool := '0' ≤ c && c ≤ '9'

/-- The class `\s`: tab, newline, form feed, carriage return, space. -/
def isSpace (c : Char) : Bool :=
  c == '\t' || c == '\n' || c == Char.ofNat 12 || c == '\r' || c == ' '

/-- The class `.` (without the `s` flag): any character but newline. -/
def isAny (c : Char) : Bool := c != '\n'

/-- A literal character. -/
def lit (a : Char) : Item := Item.one (fun c => c == a)

/-- The literal characters of a string, in order. -/
def lits (s : String) : List Item := s.toList.map lit

/-- Tries `f hi`, `f (hi-1)`, ..., `f lo` and returns the first success: the order
in which a greedy repetition gives characters back. -/
def firstFrom {β : Type} (f : Nat → Option β) (lo : Nat) : Nat → Option β
  | 0 => if lo = 0 then f 0 else none
  | n + 1 =>
    if n + 1 < lo then none
    else match f (n + 1) with
      | some r => some r
      | none => firstFrom f lo n

/-- Matches the pattern at the start of `cs`; on success returns the text matched by
each element. -/
def matchItems : List Item → List Char → Option (List (List Char))
  | [], _ => some []
  | Item.one p :: items, cs =>
    match cs with
    | c :: rest => if p c then (matchItems items rest).map (fun r => [c] :: r) else none
    | [] => none
  | Item.many p lo :: items, cs =>
    firstFrom (fun n => (matchItems items (cs.drop n)).map (fun r => cs.take n :: r)) lo
      (cs.takeWhile p).length
  | Item.eot :: items, cs =>
    match cs with
    | [] => (matchItems items []).map (fun r => [] :: r)
    | _ :: _ => none

/-- Leftmost match: the first start position at which the pattern matches. -/
def findMatch (items : List Item) : List Char → Option (List (List Char))
  | [] => matchItems items []
  | c :: cs =>
    match matchItems items (c :: cs) with
    | some r => some r
    | none => findMatch items cs

/-- The method `re.MatchString(s)`, also the function `regexp.MatchString`. -/
def Regexp.MatchString (re : Regexp) (s : String) : Bool :=
  (findMatch re.items s.toList).isSome

/-- The method `re.FindStringSubmatch(s)`: the empty slice when there is no match,
else the whole match followed by the text of each capturing group. -/
def Regexp.FindStringSubmatch (re : Regexp) (s : String) : List String :=
  match findMatch re.items s.toList with
  | none => []
  | some segs =>
    String.mk segs.flatten ::
      re.groups.map (fun g => String.mk ((segs.drop g.1).take g.2).flatten)

/-- The number written by a list of decimal digits. -/
def decimalValue (ds : List Char) : Int :=
  ds.foldl (fun acc c => acc * 10 + ((c.toNat : Int) - 48)) 0

/-- The function `strconv.Atoi` on a 64-bit platform: an optional sign, then decimal
digits; a `NumError` for any other text and for a value outside the `int` range. -/
def Atoi (s : String) : Except GoError Int :=
  let cs := s.toList
  let neg := cs.head? == some '-'
  let ds := if cs.head? == some '-' || cs.head? == some '+' then cs.tail else cs
  if ds.isEmpty || !ds.all isDigit then
    Except.error (GoError.num s "invalid syntax")
  else
    let n : Int := decimalValue ds
    let v := if neg then -n else n
    if v < -(2 ^ 63) ∨ 2 ^ 63 - 1 < v then Except.error (GoError.num s "value out of range")
    else Except.ok v

/-- The function `strings.Split(s, "")`: one string per character of `s`. -/
def explode (s : String) : List String := s.toList.map String.singleton

/-- The function `strings.Join(elems, "")`. -/
def joinStrings (elems : List String) : String := String.join elems

/-! ## Go string functions -/

/-- Splitting at the first occurrence of a character, as `strings.Cut(s, c)`:
`none` when the character does not occur. -/
def cut (c : Char) : List Char → Option (List Char × List Char)
  | [] => none
  | x :: xs =>
    if x == c then some ([], xs)
    else match cut c xs with
      | some (a, b) => some (x :: a, b)
      | none => none

/-- Splitting at the last occurrence of a character, as `s[:i], s[i+1:]` for
`i := strings.LastIndex(s, c)`: `none` when the character does not occur. -/
def cutLast (c : Char) : List Char → Option (List Char × List Char)
  | [] => none
  | x :: xs =>
    match cutLast c xs with
    | some (a, b) => some (x :: a, b)
    | none => if x == c then some ([], xs) else none

/-- The parts `s[:i], s[i:]` for `i := strings.Index(s, sub)`: `none` when `sub` does
not occur in `s`. -/
def findSub (sub : List Char) : List Char → Option (List Char × List Char)
  | [] => if sub.isEmpty then some ([], []) else none
  | x :: xs =>
    if sub.isPrefixOf (x :: xs) then some ([], x :: xs)
    else match findSub sub xs with
      | some (a, b) => some (x :: a, b)
      | none => none

/-- The function `strings.Contains`. -/
def Contains (s sub : String) : Bool := (findSub sub.toList s.toList).isSome

/-- The function `strings.TrimPrefix`. -/
def TrimPrefix (s pre : String) : String :=
  if pre.toList.isPrefixOf s.toList then String.mk (s.toList.drop pre.toList.length) else s

/-! ## package net/url, as far as `VideoID` uses it

The model follows the Go standard library (`url.ParseRequestURI`, `URL.Hostname`,
`URL.Query`, `Values.Get`).  Since the release 1.17 a semicolon in a query is an error.
The releases differ on the host of a URL: the later ones accept a host in square
brackets only when it is an IPv6 address as `netip.ParseAddr` reads it, and a colon
outside brackets only as the start of a port.  `parseHost` follows the later releases;
a host it accepts is accepted by the earlier ones too, with the same result.

Of the struct `URL` only the fields that `VideoID` can observe are kept, and all parse
errors are one value.  A text is read as its list of characters, and a percent-escape
`%XX` decodes to the character with code `XX`, where Go yields the byte `XX`: the two
agree below `%80`, and the code examines a decoded text for characters of ASCII only. -/

namespace url

/-- The fields of the Go struct `url.URL` kept by the model. -/
structure URL where
  Scheme : String
  Opaque : String
  Host : String
  Path : String
  RawQuery : String
  deriving DecidableEq, Repr

/-- The modes of `unescape` that parsing a request URI reaches. -/
inductive Encoding where
  | encodePath
  | encodeHost
  | encodeZone
  | encodeUserPassword
  | encodeQueryComponent
  deriving DecidableEq, Repr

/-- The function `stringContainsCTLByte`. -/
def stringContainsCTLByte (s : List Char) : Bool :=
  s.any (fun c => c.toNat < 32 || c.toNat == 127)

/-- The function `ishex`. -/
def ishex (c : Char) : Bool :=
  ('0' ≤ c && c ≤ '9') || ('a' ≤ c && c ≤ 'f') || ('A' ≤ c && c ≤ 'F')

/-- The function `unhex`. -/
def unhex (c : Char) : Nat :=
  if '0' ≤ c && c ≤ '9' then c.toNat - 48
  else if 'a' ≤ c && c ≤ 'f' then c.toNat - 97 + 10
  else if 'A' ≤ c && c ≤ 'F' then c.toNat - 65 + 10
  else 0

/-- The function `shouldEscape(c, encodeHost)`: the only mode in which `unescape`
calls it. -/
def shouldEscapeHost (c : Char) : Bool :=
  if ('a' ≤ c && c ≤ 'z') || ('A' ≤ c && c ≤ 'Z') || ('0' ≤ c && c ≤ '9') then false
  else if "!$&'()*+,;=:[]<>\"".toList.contains c then false
  else if "-_.~".toList.contains c then false
  else true

/-- The function `unescape(s, mode)`; `none` is an `EscapeError` or `InvalidHostError`. -/
def unescape (mode : Encoding) : List Char → Option (List Char)
  | [] => some []
  | c :: rest =>
    if c == '%' then
      match rest with
      | h1 :: h2 :: rest2 =>
        if !(ishex h1 && ishex h2) then none
        else if mode == Encoding.encodeHost && unhex h1 < 8 && !(h1 == '2' && h2 == '5') then none
        else if mode == Encoding.encodeZone && !(h1 == '2' && h2 == '5') &&
            unhex h1 * 16 + unhex h2 != 32 &&
            shouldEscapeHost (Char.ofNat (unhex h1 * 16 + unhex h2)) then none
        else match unescape mode rest2 with
          | some t => some (Char.ofNat (unhex h1 * 16 + unhex h2) :: t)
          | none => none
      | _ => none
    else if c == '+' then
      match unescape mode rest with
      | some t => some ((if mode == Encoding.encodeQueryComponent then ' ' else '+') :: t)
      | none => none
    else if (mode == Encoding.encodeHost || mode == Encoding.encodeZone) && c.toNat < 128 &&
        shouldEscapeHost c then none
    else match unescape mode rest with
      | some t => some (c :: t)
      | none => none

/-- The loop of `getScheme` over the bytes from position `i` on; `none` is the error
"missing protocol scheme". -/
def getSchemeLoop (rawURL : List Char) : List Char → Nat → Option (List Char × List Char)
  | [], _ => some ([], rawURL)
  | c :: cs, i =>
    if ('a' ≤ c && c ≤ 'z') || ('A' ≤ c && c ≤ 'Z') then getSchemeLoop rawURL cs (i + 1)
    else if ('0' ≤ c && c ≤ '9') || c == '+' || c == '-' || c == '.' then
      if i == 0 then some ([], rawURL) else getSchemeLoop rawURL cs (i + 1)
    else if c == ':' then
      if i == 0 then none else some (rawURL.take i, cs)
    else some ([], rawURL)

/-- The function `getScheme`. -/
def getScheme (rawURL : List Char) : Option (List Char × List Char) :=
  getSchemeLoop rawURL rawURL 0

/-- The function `validOptionalPort`. -/
def validOptionalPort (port : List Char) : Bool :=
  match port with
  | [] => true
  | c :: ds => c == ':' && ds.all (fun b => '0' ≤ b && b ≤ '9')

/-- The function `validUserinfo`. -/
def validUserinfo (s : List Char) : Bool :=
  s.all (fun r => ('A' ≤ r && r ≤ 'Z') || ('a' ≤ r && r ≤ 'z') || ('0' ≤ r && r ≤ '9') ||
    "-._:~!$&'()*+,;=%@".toList.contains r)

/-- The loop of `parseIPv4Fields` (net/netip) over the text of a dotted address: the
value and the number of digits of the current field, the number of fields closed,
whether the character is the first one, and whether the one before it was a dot. -/
def parseIPv4FieldsLoop : List Char → Nat → Nat → Nat → Bool → Bool → Bool
  | [], _, pos, _, _, _ => pos == 3
  | c :: rest, val, pos, digLen, first, afterDot =>
    if '0' ≤ c && c ≤ '9' then
      if digLen == 1 && val == 0 then false
      else if val * 10 + (c.toNat - 48) > 255 then false
      else parseIPv4FieldsLoop rest (val * 10 + (c.toNat - 48)) pos (digLen + 1) false false
    else if c == '.' then
      if first || rest.isEmpty || afterDot then false
      else if pos == 3 then false
      else parseIPv4FieldsLoop rest 0 (pos + 1) 0 false true
    else false

/-- Whether `parseIPv4Fields` accepts the text: four decimal fields of value at most
255, none empty and none with a leading zero. -/
def parseIPv4Fields (s : List Char) : Bool := parseIPv4FieldsLoop s 0 0 0 true false

/-- What `parseIPv6` (net/netip) checks once its loop is left: the text is used up, and
the 16 bytes are filled exactly when there is no `::`. -/
def parseIPv6Done (s : List Char) (i : Nat) (ellipsis : Bool) : Bool :=
  s.isEmpty && (if i < 16 then ellipsis else !ellipsis)

/-- The loop `for i < 16` of `parseIPv6` over the rest `s` of the address, with `i`
bytes filled and `ellipsis` telling whether a `::` was seen: whether the address is
accepted.  A group is one to four hexadecimal digits; a group followed by a dot starts
an embedded dotted address, which must be the last four bytes.  Every turn consumes a
character, so the length of the text is enough fuel. -/
def parseIPv6Loop : Nat → List Char → Nat → Bool → Bool
  | 0, _, _, _ => false
  | fuel + 1, s, i, ellipsis =>
    let off := (s.takeWhile ishex).length
    let rest := s.drop off
    if off > 4 then false
    else if off == 0 then false
    else if rest.head? == some '.' then
      if !ellipsis && i != 12 then false
      else if i + 4 > 16 then false
      else if !parseIPv4Fields s then false
      else parseIPv6Done [] (i + 4) ellipsis
    else if rest.isEmpty then parseIPv6Done [] (i + 2) ellipsis
    else if !(rest.head? == some ':') then false
    else if rest.length == 1 then false
    else if rest.tail.head? == some ':' then
      if ellipsis then false
      else if rest.tail.tail.isEmpty then parseIPv6Done [] (i + 2) true
      else if i + 2 < 16 then parseIPv6Loop fuel rest.tail.tail (i + 2) true
      else parseIPv6Done rest.tail.tail (i + 2) true
    else if i + 2 < 16 then parseIPv6Loop fuel rest.tail (i + 2) ellipsis
    else parseIPv6Done rest.tail (i + 2) ellipsis

/-- Whether `parseIPv6` accepts the text: the zone after the first `%` is not empty, and
the address before it is well formed. -/
def parseIPv6 (input : List Char) : Bool :=
  let split : List Char × Bool :=
    match cut '%' input with
    | some (a, zone) => (a, zone.isEmpty)
    | none => (input, false)
  if split.2 then false
  else if "::".toList.isPrefixOf split.1 then
    if (split.1.drop 2).isEmpty then true
    else parseIPv6Loop (split.1.length + 1) (split.1.drop 2) 0 true
  else parseIPv6Loop (split.1.length + 1) split.1 0 false

/-- Whether `netip.ParseAddr` returns an address that is not `Is4`: the first of the
characters `.`, `:`, `%` in the text is a colon, and `parseIPv6` accepts the text. -/
def isIPv6Literal (s : List Char) : Bool :=
  s.find? (fun c => c == '.' || c == ':' || c == '%') == some ':' && parseIPv6 s

/-- The function `parseHost`.  A host with an opening bracket is accepted when the
bracket is its first character and its only opening bracket, a valid port follows the
last closing bracket, and the text between the brackets, unescaped (the zone from `%25`
on by the rules of a zone), is an IPv6 address.  A host without a bracket is accepted
when what follows its first colon, if it has one, is a port. -/
def parseHost (host : List Char) : Option (List Char) :=
  if host.contains '[' then
    if !(host.head? == some '[') || host.tail.contains '[' then none
    else match cutLast ']' host.tail with
      | none => none
      | some (hostname, colonPort) =>
        if !validOptionalPort colonPort then none
        else
          let parts : Option (List Char) :=
            match findSub "%25".toList hostname with
            | some (h1, zone) =>
              match unescape Encoding.encodeHost h1, unescape Encoding.encodeZone zone with
              | some hostPart, some zonePart => some (hostPart ++ zonePart)
              | _, _ => none
            | none => unescape Encoding.encodeHost hostname
          match unescape Encoding.encodeHost colonPort, parts with
          | some unescapedColonPort, some unescapedHostname =>
            if isIPv6Literal unescapedHostname then
              some ('[' :: unescapedHostname ++ ']' :: unescapedColonPort)
            else none
          | _, _ => none
  else
    match cut ':' host with
    | some (_, port) =>
      if !validOptionalPort (':' :: port) then none else unescape Encoding.encodeHost host
    | none => unescape Encoding.encodeHost host

/-- The function `parseAuthority`, returning the host only. -/
def parseAuthority (authority : List Char) : Option (List Char) :=
  match cutLast '@' authority with
  | none => parseHost authority
  | some (userinfo, hostpart) =>
    match parseHost hostpart with
    | none => none
    | some host =>
      if !validUserinfo userinfo then none
      else match cut ':' userinfo with
        | none =>
          match unescape Encoding.encodeUserPassword userinfo with
          | some _ => some host
          | none => none
        | some (username, password) =>
          match unescape Encoding.encodeUserPassword username,
              unescape Encoding.encodeUserPassword password with
          | some _, some _ => some host
          | _, _ => none

/-- The function `parse(rawURL, viaRequest)` at `viaRequest = true`. -/
def parse (rawURL : List Char) : Option URL :=
  if stringContainsCTLByte rawURL then none
  else if rawURL.isEmpty then none
  else if rawURL == ['*'] then
    some { Scheme := "", Opaque := "", Host := "", Path := "*", RawQuery := "" }
  else
    match getScheme rawURL with
    | none => none
    | some (scheme0, rest0) =>
      let scheme := scheme0.map Char.toLower
      let split : List Char × List Char :=
        if rest0.getLast? == some '?' && rest0.count '?' == 1 then (rest0.dropLast, [])
        else match cut '?' rest0 with
          | some (a, b) => (a, b)
          | none => (rest0, [])
      let rest := split.1
      let rawQuery := split.2
      if !(rest.head? == some '/') then
        if !scheme.isEmpty then
          some { Scheme := String.mk scheme, Opaque := String.mk rest, Host := "", Path := "",
                 RawQuery := String.mk rawQuery }
        else none
      else if !scheme.isEmpty && "//".toList.isPrefixOf rest then
        let authRest : List Char × List Char :=
          match findSub ['/'] (rest.drop 2) with
          | some (a, b) => (a, b)
          | none => (rest.drop 2, [])
        match parseAuthority authRest.1 with
        | none => none
        | some host =>
          match unescape Encoding.encodePath authRest.2 with
          | none => none
          | some path =>
            some { Scheme := String.mk scheme, Opaque := "", Host := String.mk host,
                   Path := String.mk path, RawQuery := String.mk rawQuery }
      else
        match unescape Encoding.encodePath rest with
        | none => none
        | some path =>
          some { Scheme := String.mk scheme, Opaque := "", Host := "", Path := String.mk path,
                 RawQuery := String.mk rawQuery }

/-- The function `url.ParseRequestURI`; `none` is a non-nil error. -/
def ParseRequestURI (rawURL : String) : Option URL := parse rawURL.toList

/-- The function `splitHostPort`, returning the host only. -/
def splitHostPort (hostport : List Char) : List Char :=
  let host : List Char :=
    match cutLast ':' hostport with
    | some (h, port) => if validOptionalPort (':' :: port) then h else hostport
    | none => hostport
  if host.head? == some '[' && host.getLast? == some ']' then (host.drop 1).dropLast else host

/-- The method `URL.Hostname`. -/
def URL.Hostname (u : URL) : String := String.mk (splitHostPort u.Host.toList)

/-- The loop of `parseQuery`: the (key, value) pairs in the order they are added. -/
def parseQueryLoop : Nat → List Char → List (String × String)
  | 0, _ => []
  | fuel + 1, query =>
    if query.isEmpty then []
    else
      let split : List Char × List Char :=
        match cut '&' query with
        | some (a, b) => (a, b)
        | none => (query, [])
      let key := split.1
      let next := parseQueryLoop fuel split.2
      if key.contains ';' then next
      else if key.isEmpty then next
      else
        let kv : List Char × List Char :=
          match cut '=' key with
          | some (a, b) => (a, b)
          | none => (key, [])
        match unescape Encoding.encodeQueryComponent kv.1 with
        | none => next
        | some k =>
          match unescape Encoding.encodeQueryComponent kv.2 with
          | none => next
          | some v => (String.mk k, String.mk v) :: next

/-- The method `URL.Query`, as the list of pairs in insertion order; every turn of the
loop consumes at least one byte of the query, so its length is enough fuel. -/
def URL.Query (u : URL) : List (String × String) :=
  parseQueryLoop u.RawQuery.toList.length u.RawQuery.toList

/-- The method `Values.Get`: the first value added under the key, else "". -/
def Get (values : List (String × String)) (key : String) : String :=
  match values.find? (fun kv => kv.1 == key) with
  | some kv => kv.2
  | none => ""

end url

namespace extract

/-! ## package extract -/

/-- The class `[0-9A-Za-z_-]`. -/
def isIDChar (c : Char) : Bool :=
  ('0' ≤ c && c ≤ '9') || ('A' ≤ c && c ≤ 'Z') || ('a' ≤ c && c ≤ 'z') || c == '_' || c == '-'

/-- The pattern `([0-9A-Za-z_-]{11})$` of `VideoID`. -/
def videoIDRe : Regexp where
  items := List.replicate 11 (Item.one isIDChar) ++ [Item.eot]
  groups := [(0, 11)]
  source := "([0-9A-Za-z_-]\x7b11\x7d)$"

/-- The error value returned on the last line of `VideoID`. -/
def videoIDError : ExtractError := { Caller := "video id", Pattern := videoIDRe.source }

/-- The function `VideoID`, returning the Go pair `(string, error)`. -/
def VideoID (text : String) : String × Option ExtractError :=
  let re := videoIDRe
  match url.ParseRequestURI text with
  | none =>
    if re.MatchString text then (text, none) else ("", some videoIDError)
  | some URL =>
    if Contains URL.Hostname "youtube.com" then
      let v := url.Get URL.Query "v"
      if v != "" && re.MatchString v then (v, none) else ("", some videoIDError)
    else if Contains URL.Hostname "youtu.be" then
      let path := TrimPrefix URL.Path "/"
      if path != "" && re.MatchString path then (path, none) else ("", some videoIDError)
    else ("", some videoIDError)

/-- A video identifier: exactly 11 characters, each of the class `[0-9A-Za-z_-]`. -/
def IsVideoID (X : String) : Prop :=
  X.toList.length = 11 ∧ ∀ c ∈ X.toList, isIDChar c = true

instance (X : String) : Decidable (IsVideoID X) := by
  unfold IsVideoID; infer_instance

/-- A string ends with a video identifier. -/
def EndsWithVideoID (s : String) : Prop :=
  ∃ pre suf, s.toList = pre ++ suf ∧ suf.length = 11 ∧ ∀ c ∈ suf, isIDChar c = true

/-- A character of a name written out plainly: of the class `[0-9A-Za-z_-]`, or a
dot. -/
def isNameChar (c : Char) : Bool := isIDChar c || c == '.'

/-- A URL written out plainly, without escapes, user information, port or brackets: the
scheme, the host and the path. -/
structure PlainURL where
  scheme : List Char
  host : List Char
  path : List Char

/-- The scheme is a word of letters, the host consists of name characters, and the
path is empty or starts with a slash and consists of name characters and slashes. -/
def PlainURL.WellFormed (u : PlainURL) : Prop :=
  u.scheme ≠ [] ∧
  (∀ c ∈ u.scheme, (('a' ≤ c && c ≤ 'z') || ('A' ≤ c && c ≤ 'Z')) = true) ∧
  (∀ c ∈ u.host, isNameChar c = true) ∧
  (u.path = [] ∨ u.path.head? = some '/') ∧
  (∀ c ∈ u.path, (isNameChar c || c == '/') = true)

instance (u : PlainURL) : Decidable u.WellFormed := by
  unfold PlainURL.WellFormed; infer_instance

/-- The text `scheme://host/path` of the URL, followed by `rest`. -/
def PlainURL.text (u : PlainURL) (rest : String) : String :=
  String.mk (u.scheme ++ "://".toList ++ u.host ++ u.path ++ rest.toList)

end extract

namespace download

/-! ## package download

The collaborators of `Download` (working directory, path functions, HTTP client,
whether a file can be created) form the environment `Env`; the file system and what
the call does to the outside (requests sent, callbacks called) form the `World`.
The ten goroutines touch disjoint part files; they are run one after the other in
the order `order`, the order in which they complete. -/

/-- File contents. -/
abbrev Bytes := List Nat

/-- What `Download` reads of an `*http.Response`: the status code, the value of
`Header.Get("Content-Length")` ("" when absent), the chunks in which the body is
read, and whether reading ends in an error instead of EOF. -/
structure Response where
  StatusCode : Int
  ContentLength : String
  Body : List Bytes
  bodyError : Bool

/-- The collaborators of `Download`. -/
structure Env where
  /-- The function `os.Getwd`; `none` is an error. -/
  Getwd : Option String
  /-- The function `filepath.Abs`; `none` is an error. -/
  Abs : String → Option String
  /-- The function `filepath.Join` of two elements. -/
  Join : String → String → String
  /-- The call `client.Do(request)` for a GET of the URL with the given `Range` header
  (`none` when the header is not set); `none` is a transport error. -/
  Do : String → Option (Int × Int) → Option Response
  /-- Whether `os.Create` succeeds on the path. -/
  canCreate : String → Bool

/-- What a call does to the outside, in order. -/
inductive Event where
  | request (url : String) (range : Option (Int × Int))
  | onStart (total : Int)
  | onProgress (written : Int)
  deriving DecidableEq, Repr

/-- The file system, the events so far, and the two variables the goroutines share:
the slice `errs` and the counter `writer.written`. -/
structure World where
  files : String → Option Bytes
  events : List Event
  errs : List GoError
  written : Int

/-- Adding an event. -/
def World.emit (w : World) (e : Event) : World := { w with events := w.events ++ [e] }

/-- Writing a file: `os.Create` followed by the writes. -/
def World.setFile (w : World) (path : String) (content : Option Bytes) : World :=
  { w with files := fun p => if p = path then content else w.files p }

/-- The function `strconv.ParseInt(s, 10, 64)`: the value and whether the error is
non-nil.  A syntax error returns 0; a value out of range returns the nearest bound. -/
def ParseInt64 (s : String) : Int × Bool :=
  let cs := s.toList
  let neg := cs.head? == some '-'
  let ds := if cs.head? == some '-' || cs.head? == some '+' then cs.tail else cs
  if ds.isEmpty || !ds.all isDigit then (0, true)
  else
    let n : Int := decimalValue ds
    if !neg && 2 ^ 63 ≤ n then (2 ^ 63 - 1, true)
    else if neg && 2 ^ 63 < n then (-(2 ^ 63), true)
    else (if neg then -n else n, false)

/-- The function `os.Stat`, as its error: nil (`none`) when the file exists, else an
error for which `os.IsNotExist` holds. -/
def Stat (w : World) (path : String) : Option GoError :=
  match w.files path with
  | some _ => none
  | none => some (GoError.sys "no such file or directory")

/-- The function `os.IsExist`: whether the error reports that a file already exists.
It is false for the nil error and for the errors of `Stat`. -/
def IsExist (err : Option GoError) : Bool :=
  err == some (GoError.sys "file exists")

/-- The function `utils.HttpHead`: a GET request without headers; the value of the
header `Content-Length` on success. -/
def HttpHead (env : Env) (w : World) (u : String) : Except GoError String × World :=
  let w1 := w.emit (Event.request u none)
  match env.Do u none with
  | none => (Except.error (GoError.sys "request failed"), w1)
  | some response =>
    if response.StatusCode ≥ 300 then (Except.error (GoError.http response.StatusCode), w1)
    else (Except.ok response.ContentLength, w1)

/-- The method `Writer.Write` for each chunk read from a body: the counter grows and
`onProgress` is called when it is not nil. -/
def writeChunks (onProgress : Bool) (w : World) : List Bytes → World
  | [] => w
  | d :: rest =>
    let w1 := { w with written := w.written + d.length }
    let w2 := if onProgress then w1.emit (Event.onProgress w1.written) else w1
    writeChunks onProgress w2 rest

/-- The bounds `min`, `max` computed in the loop of `Download` for worker `i`. -/
def workerRange (total : Int) (i : Int) : Int × Int :=
  let workerNum : Int := 10
  let chunk := goDiv total workerNum
  let min := chunk * i
  let max := if i = workerNum - 1 then total else chunk * (i + 1) - 1
  (min, max)

/-- The path of the part file of worker `i`: `filename.(i+1).part` in `destdir`. -/
def partPath (env : Env) (destdir filename : String) (i : Nat) : String :=
  env.Join destdir (filename ++ "." ++ toString (i + 1) ++ ".part")

/-- The goroutine started for one worker. -/
def worker (env : Env) (dlurl : String) (onProgress : Bool) (min max : Int) (path : String)
    (w : World) : World :=
  let w1 := w.emit (Event.request dlurl (some (min, max)))
  match env.Do dlurl (some (min, max)) with
  | none => { w1 with errs := w1.errs ++ [GoError.sys "request failed"] }
  | some resp =>
    if resp.StatusCode ≥ 300 then { w1 with errs := w1.errs ++ [GoError.http resp.StatusCode] }
    else if !env.canCreate path then { w1 with errs := w1.errs ++ [GoError.sys "create failed"] }
    else
      -- `io.Copy(file, io.TeeReader(resp.Body, writer))`: what is read reaches the file,
      -- also when the copy ends in an error, and that error is dropped
      let w2 := w1.setFile path (some resp.Body.flatten)
      writeChunks onProgress w2 resp.Body

/-- Running the goroutines in the order in which they complete. -/
def runWorkers (env : Env) (dlurl destdir filename : String) (onProgress : Bool) (total : Int) :
    List Nat → World → World
  | [], w => w
  | i :: rest, w =>
    let r := workerRange total i
    runWorkers env dlurl destdir filename onProgress total rest
      (worker env dlurl onProgress r.1 r.2 (partPath env destdir filename i) w)

/-- The loop of `mergeFiles` over `paths`: the content appended to the final file so
far, the files opened so far, and the error if one occurred.  A part file is read as
it stands when the loop starts (the final path is taken to be none of the part
paths), and opening fails exactly when the file does not exist. -/
def mergeLoop (w : World) : List String → Bytes → List String →
    Bytes × List String × Option GoError
  | [], acc, opened => (acc, opened, none)
  | path :: rest, acc, opened =>
    match w.files path with
    | none => (acc, opened, some (GoError.sys "open failed"))
    | some content => mergeLoop w rest (acc ++ content) (opened ++ [path])

/-- The deferred function of `mergeFiles`: every opened file is closed and removed. -/
def removeAll (w : World) : List String → World
  | [] => w
  | path :: rest => removeAll (w.setFile path none) rest

/-- The function `mergeFiles`. -/
def mergeFiles (env : Env) (w : World) (finalpath : String) (paths : List String) :
    Option GoError × World :=
  if !env.canCreate finalpath then (some (GoError.sys "create failed"), w)
  else
    let w1 := w.setFile finalpath (some [])
    let r := mergeLoop w1 paths [] []
    let w2 := w1.setFile finalpath (some r.1)
    (r.2.2, removeAll w2 r.2.1)

/-- The function `Download`, returning the Go pair `(finalpath, err)` and the world it
leaves; `onStart` and `onProgress` say whether the callback is not nil. -/
def Download (env : Env) (order : List Nat) (w : World) (dlurl destdir filename ext : String)
    (overwrite onStart onProgress : Bool) : (String × Option GoError) × World :=
  let dir1 : Option String := if destdir = "" then env.Getwd else some destdir
  match dir1 with
  | none => (("", some (GoError.sys "getwd failed")), w)
  | some d1 =>
    match env.Abs d1 with
    | none => (("", some (GoError.sys "abs failed")), w)
    | some dir =>
      let finalpath := env.Join dir (filename ++ "." ++ ext)
      let err := Stat w finalpath
      if !overwrite && IsExist err then ((finalpath, err), w)
      else
        match HttpHead env w dlurl with
        | (Except.error e, w1) => ((finalpath, some e), w1)
        | (Except.ok clen, w1) =>
          let total : Int := if clen != "" then (ParseInt64 clen).1 else 0
          let w2 := if onStart then w1.emit (Event.onStart total) else w1
          let paths := (List.range 10).map (partPath env dir filename)
          let w3 := runWorkers env dlurl dir filename onProgress total order
            { w2 with errs := [], written := 0 }
          match w3.errs with
          | e :: _ => ((finalpath, some e), w3)
          | [] =>
            let r := mergeFiles env w3 finalpath paths
            ((finalpath, r.1), r.2)

/-! ### Names for what `Download` computes on the way -/

/-- The directory `Download` resolves `destdir` to: the working directory when it is
empty, made absolute; `none` when `os.Getwd` or `filepath.Abs` fails. -/
def destDir (env : Env) (destdir : String) : Option String :=
  match (if destdir = "" then env.Getwd else some destdir) with
  | none => none
  | some d => env.Abs d

/-- The value of `total` after the lines
`if clen != "" { total, _ = strconv.ParseInt(clen, 10, 64) }`. -/
def totalOf (clen : String) : Int := if clen != "" then (ParseInt64 clen).1 else 0

/-- The slice `paths` after the loop of `Download`: the part paths in ascending worker
index. -/
def partPaths (env : Env) (dir filename : String) : List String :=
  (List.range 10).map (partPath env dir filename)

/-- The bytes the server delivers to worker `i` for its range, which the worker writes
to its part file. -/
def partBytes (env : Env) (dlurl : String) (total : Int) (i : Nat) : Bytes :=
  match env.Do dlurl (some (workerRange total i)) with
  | some resp => resp.Body.flatten
  | none => []

/-- Whether the goroutine of worker `i` gets as far as the copy: the request succeeds,
the status is below 300 and the part file can be created. -/
def workerOk (env : Env) (dlurl : String) (total : Int) (path : String) (i : Nat) : Bool :=
  match env.Do dlurl (some (workerRange total i)) with
  | some resp => decide (resp.StatusCode < 300) && env.canCreate path
  | none => false

/-- A text that `strconv.ParseInt(s, 10, 64)` accepts up to its range: an optional
sign followed by one or more decimal digits. -/
def IsDecimal (s : String) : Bool :=
  let cs := s.toList
  let ds := if cs.head? == some '-' || cs.head? == some '+' then cs.tail else cs
  !ds.isEmpty && ds.all isDigit

/-- The world in which the barrier `group.Wait()` of `Download` returns: after the
first request answered with the header value `clen`, the call of `onStart`, and the
ten goroutines. -/
def workersWorld (env : Env) (order : List Nat) (w : World) (dlurl dir filename : String)
    (onStart onProgress : Bool) (clen : String) : World :=
  let w1 := w.emit (Event.request dlurl none)
  let w2 := if onStart then w1.emit (Event.onStart (totalOf clen)) else w1
  runWorkers env dlurl dir filename onProgress (totalOf clen) order
    { w2 with errs := [], written := 0 }

/-- The value of the header `Content-Length` in the answer to the first request ("" when
the request fails). -/
def lengthHeader (env : Env) (dlurl : String) : String :=
  match env.Do dlurl none with
  | some resp => resp.ContentLength
  | none => ""

/-- The events of a call without the progress reports. -/
def withoutProgress (events : List Event) : List Event :=
  events.filter (fun e => match e with | Event.onProgress _ => false | _ => true)

/-! ### A world for the worked examples -/

/-- A server that reports 25 bytes and answers a ranged request `min`-`max` with the
two bytes `min`, `max`; every file can be created. -/
def exampleEnv : Env where
  Getwd := some "/home"
  Abs := fun p => some p
  Join := fun a b => a ++ "/" ++ b
  Do := fun _ range =>
    match range with
    | none => some { StatusCode := 200, ContentLength := "25", Body := [], bodyError := false }
    | some (lo, hi) =>
      some { StatusCode := 206, ContentLength := "", Body := [[lo.toNat, hi.toNat]],
             bodyError := false }
  canCreate := fun _ => true

/-- A file system holding only the destination file `/d/f.mp4`, with three bytes. -/
def exampleWorld : World where
  files := fun p => if p = "/d/f.mp4" then some [7, 7, 7] else none
  events := []
  errs := []
  written := 0

/-- The server of `exampleEnv`, except that the body of the response to worker 3
(range 6-7) breaks off with a read error after its first byte. -/
def copyFailEnv : Env :=
  { exampleEnv with
    Do := fun u range =>
      if range = some (6, 7) then
        some { StatusCode := 206, ContentLength := "", Body := [[6]], bodyError := true }
      else exampleEnv.Do u range }

/-- The server of `exampleEnv`, except that it answers worker 0 (range 0-1) with the
status 500. -/
def statusFailEnv : Env :=
  { exampleEnv with
    Do := fun u range =>
      if range = some (0, 1) then
        some { StatusCode := 500, ContentLength := "", Body := [], bodyError := false }
      else exampleEnv.Do u range }

/-- A server that reports the length `99999999999999999999`, beyond the 64-bit range. -/
def hugeLengthEnv : Env :=
  { exampleEnv with
    Do := fun u range =>
      match range with
      | none => some { StatusCode := 200, ContentLength := "99999999999999999999", Body := [],
                       bodyError := false }
      | some r => exampleEnv.Do u (some r) }

/-- A server that reports the length as the text `unknown`. -/
def textLengthEnv : Env :=
  { exampleEnv with
    Do := fun u range =>
      match range with
      | none => some { StatusCode := 200, ContentLength := "unknown", Body := [],
                       bodyError := false }
      | some r => exampleEnv.Do u (some r) }

/-- An empty file system. -/
def emptyWorld : World where
  files := fun _ => none
  events := []
  errs := []
  written := 0

end download

namespace decrypt

/-! ## package decrypt: the interpreter -/

/-- The three closures a method body can be classified as. -/
inductive Op where
  | reverse
  | splice
  | swap
  deriving DecidableEq, Repr

/-- Calling the closure on a slice and an integer argument. -/
def Op.call : Op → List String → Int → Option (List String)
  | Op.reverse => decrypt.reverse
  | Op.splice => decrypt.splice
  | Op.swap => decrypt.swap

/-- The Go struct `Decryption`; a key absent from the map reads as the nil function. -/
structure Decryption where
  transformPlan : List String
  transformMap : String → Option Op

/-- The pattern of `parseFunction`, with groups `(\w+)` and `(\d+)`. -/
def parseFunctionRe : Regexp where
  items := [Item.many isWord 1, lit '.', Item.many isWord 1, lit '(', Item.one isWord, lit ',',
    Item.many isDigit 1, lit ')']
  groups := [(2, 1), (6, 1)]
  source := "\\w+\\.(\\w+)\\(\\w,(\\d+)\\)"

/-- The method `parseFunction`. -/
def Decryption.parseFunction (_ : Decryption) (jsFunc : String) : Res (String × Int) :=
  match parseFunctionRe.FindStringSubmatch jsFunc with
  | [] => Res.error (GoError.extract { Caller := "parse function", Pattern := parseFunctionRe.source })
  | [_, funcName, arg] =>
    match Atoi arg with
    | Except.error e => Res.error e
    | Except.ok funcArg => Res.ok (funcName, funcArg)
  | _ => Res.panic

/-- The loop `for _, jsFunc := range d.transformPlan` of `DecryptSignature`. -/
def Decryption.run (d : Decryption) : List String → List String → Res (List String)
  | [], sig => Res.ok sig
  | jsFunc :: rest, sig =>
    match d.parseFunction jsFunc with
    | Res.error e => Res.error e
    | Res.panic => Res.panic
    | Res.ok (funcName, args) =>
      match d.transformMap funcName with
      | none => Res.panic
      | some fn =>
        match fn.call sig args with
        | none => Res.panic
        | some sig1 => d.run rest sig1

/-- The method `DecryptSignature`. -/
def Decryption.DecryptSignature (d : Decryption) (s : String) : Res String :=
  match d.run d.transformPlan (explode s) with
  | Res.ok sig => Res.ok (joinStrings sig)
  | Res.error e => Res.error e
  | Res.panic => Res.panic

/-! ### `mapFunctions`: classifying a method body -/

/-- The key `{\w\.reverse\(\)}`. -/
def reversePattern : Regexp where
  items := lits "\x7b" ++ [Item.one isWord] ++ lits ".reverse()\x7d"
  groups := []
  source := "\x7b\\w\\.reverse\\(\\)\x7d"

/-- The key `{\w\.splice\(0,\w\)}`. -/
def splicePattern : Regexp where
  items := lits "\x7b" ++ [Item.one isWord] ++ lits ".splice(0," ++ [Item.one isWord] ++
    lits ")\x7d"
  groups := []
  source := "\x7b\\w\\.splice\\(0,\\w\\)\x7d"

/-- The common start `{var\s\w=\w\[0\];\w\[0\]=\w\[\w\%\w.length\];\w\[\w` of the
two keys bound to `swap`. -/
def swapPrefix : List Item :=
  lits "\x7bvar" ++ [Item.one isSpace, Item.one isWord] ++ lits "=" ++ [Item.one isWord] ++
    lits "[0];" ++ [Item.one isWord] ++ lits "[0]=" ++ [Item.one isWord] ++ lits "[" ++
    [Item.one isWord] ++ lits "%" ++ [Item.one isWord, Item.one isAny] ++ lits "length];" ++
    [Item.one isWord] ++ lits "[" ++ [Item.one isWord]

/-- The key `{var\s\w=\w\[0\];\w\[0\]=\w\[\w\%\w.length\];\w\[\w\]=\w}`. -/
def swapPattern : Regexp where
  items := swapPrefix ++ lits "]=" ++ [Item.one isWord] ++ lits "\x7d"
  groups := []
  source := "\x7bvar\\s\\w=\\w\\[0\\];\\w\\[0\\]=\\w\\[\\w\\%\\w.length\\];\\w\\[\\w\\]=\\w\x7d"

/-- The key `{var\s\w=\w\[0\];\w\[0\]=\w\[\w\%\w.length\];\w\[\w\%\w.length\]=\w}`. -/
def swapModPattern : Regexp where
  items := swapPrefix ++ lits "%" ++ [Item.one isWord, Item.one isAny] ++ lits "length]=" ++
    [Item.one isWord] ++ lits "\x7d"
  groups := []
  source := "\x7bvar\\s\\w=\\w\\[0\\];\\w\\[0\\]=\\w\\[\\w\\%\\w.length\\];\\w\\[\\w\\%\\w.length\\]=\\w\x7d"

/-- The entries of the map literal `mapper` of `mapFunctions`. -/
def mapper : List (Regexp × Op) :=
  [(reversePattern, Op.reverse), (splicePattern, Op.splice), (swapPattern, Op.swap),
    (swapModPattern, Op.swap)]

/-- The loop `for pattern, fn := range mapper` of `mapFunctions`, over the entries
not yet visited, with the current value of `lastPattern`. -/
def mapFunctionsLoop (jsFunc : String) : List (Regexp × Op) → String → Res Op
  | [], lastPattern =>
    Res.error (GoError.extract { Caller := "map functions", Pattern := lastPattern })
  | (pattern, fn) :: rest, _ =>
    if pattern.MatchString jsFunc then Res.ok fn
    else mapFunctionsLoop jsFunc rest pattern.source

/-- The function `mapFunctions`.  Go leaves the order in which `range` visits a map
unspecified: `order` is the order of this call, some arrangement of `mapper`. -/
def mapFunctions (order : List (Regexp × Op)) (jsFunc : String) : Res Op :=
  mapFunctionsLoop jsFunc order ""

/-! ### The reading of the transform plan used to state what `DecryptSignature` computes -/

/-- A call expression `helper.method(argVar,digits)`. -/
structure CallExpr where
  helper : List Char
  method : List Char
  argVar : Char
  digits : List Char

/-- The text of a call expression. -/
def CallExpr.text (c : CallExpr) : String :=
  String.mk (c.helper ++ '.' :: c.method ++ '(' :: c.argVar :: ',' :: c.digits ++ [')'])

/-- The method name of a call expression. -/
def CallExpr.name (c : CallExpr) : String := String.mk c.method

/-- The integer argument of a call expression. -/
def CallExpr.arg (c : CallExpr) : Int := decimalValue c.digits

/-- A call expression is well formed when helper and method are non-empty words, the
argument variable is a word character, and the digits denote a Go `int`. -/
def CallExpr.WellFormed (c : CallExpr) : Prop :=
  c.helper ≠ [] ∧ (∀ ch ∈ c.helper, isWord ch = true) ∧
  c.method ≠ [] ∧ (∀ ch ∈ c.method, isWord ch = true) ∧
  isWord c.argVar = true ∧
  c.digits ≠ [] ∧ (∀ ch ∈ c.digits, isDigit ch = true) ∧
  c.arg < 2 ^ 63

instance (c : CallExpr) : Decidable c.WellFormed := by
  unfold CallExpr.WellFormed; infer_instance

/-- Applying the operations `op_1(·, N_1)`, `op_2(·, N_2)`, ... in order to a sequence:
`none` when a step goes out of range. -/
def applySteps : List (Op × Int) → List String → Option (List String)
  | [], sig => some sig
  | (op, n) :: rest, sig =>
    match op.call sig n with
    | none => none
    | some sig1 => applySteps rest sig1

/-! ### The table and plan of the worked example -/

/-- The helper table `{f: reverse, g: range-delete, h: index-swap}`. -/
def exampleTable : String → Option Op := fun k =>
  if k = "f" then some Op.reverse
  else if k = "g" then some Op.splice
  else if k = "h" then some Op.swap
  else none

/-- The plan `[g(3), h(2)]` as call expressions on a helper object `x`, each with the
operation its method is bound to. -/
def exampleSteps : List (CallExpr × Op) :=
  [({ helper := ['x'], method := ['g'], argVar := 'a', digits := ['3'] }, Op.splice),
   ({ helper := ['x'], method := ['h'], argVar := 'a', digits := ['2'] }, Op.swap)]

/-- The cipher engine of the worked example. -/
def exampleDecryption : Decryption where
  transformPlan := ["x.g(a,3)", "x.h(a,2)"]
  transformMap := exampleTable

end decrypt

/-! ## Go library functions used by the package gotube -/

/-- The function `strings.HasPrefix`. -/
def HasPrefix (s pre : String) : Bool := pre.toList.isPrefixOf s.toList

/-- The pieces of `strings.Split(s, sep)` for a separator of one character. -/
def splitChars (sep : Char) : List Char → List (List Char)
  | [] => [[]]
  | c :: cs =>
    if c == sep then [] :: splitChars sep cs
    else match splitChars sep cs with
      | piece :: rest => (c :: piece) :: rest
      | [] => [[c]]

/-- The function `strings.Split(s, sep)` for a separator of one character. -/
def Split (s : String) (sep : Char) : List String := (splitChars sep s.toList).map String.mk

/-- The characters `strings.TrimSpace` removes: the Unicode property White_Space. -/
def isWhiteSpace (c : Char) : Bool :=
  (9 ≤ c.toNat && c.toNat ≤ 13) || c.toNat == 32 || c.toNat == 133 || c.toNat == 160 ||
  c.toNat == 5760 || (8192 ≤ c.toNat && c.toNat ≤ 8202) || c.toNat == 8232 ||
  c.toNat == 8233 || c.toNat == 8239 || c.toNat == 8287 || c.toNat == 12288

/-- The function `strings.TrimSpace`. -/
def TrimSpace (s : String) : String :=
  String.mk (((s.toList.dropWhile isWhiteSpace).reverse.dropWhile isWhiteSpace).reverse)

namespace url

/-- Whether `url.ParseQuery` returns a non-nil error: some pair contains a semicolon,
or its key or value has a malformed percent-escape. -/
def parseQueryFails : Nat → List Char → Bool
  | 0, _ => false
  | fuel + 1, query =>
    if query.isEmpty then false
    else
      let split : List Char × List Char :=
        match cut '&' query with
        | some (a, b) => (a, b)
        | none => (query, [])
      let key := split.1
      let next := parseQueryFails fuel split.2
      if key.contains ';' then true
      else if key.isEmpty then next
      else
        let kv : List Char × List Char :=
          match cut '=' key with
          | some (a, b) => (a, b)
          | none => (key, [])
        match unescape Encoding.encodeQueryComponent kv.1 with
        | none => true
        | some _ =>
          match unescape Encoding.encodeQueryComponent kv.2 with
          | none => true
          | some _ => next

/-- The function `url.ParseQuery`: the pairs in insertion order, and whether the error
is non-nil. -/
def ParseQuery (query : String) : List (String × String) × Bool :=
  (parseQueryLoop query.toList.length query.toList,
   parseQueryFails query.toList.length query.toList)

end url

/-! ## package sort

`sort.Slice` sorts in place and is not stable.  Since Go 1.19 it runs insertion sort on
a slice of at most 12 elements (before that release on one of at most 6); the
algorithm it runs on a longer slice is the parameter `SortAlgo`. -/

/-- The inner loop of `insertionSort`,
`for j := i; j > a && less(data[j], data[j-1]); j-- { swap(j, j-1) }`, moving the
element `x` down the sorted part, given with its last element first. -/
def insertDown {α : Type} (less : α → α → Bool) (x : α) : List α → List α
  | [] => [x]
  | y :: ys => if less x y then y :: insertDown less x ys else x :: y :: ys

/-- The function `insertionSort` of package sort. -/
def insertionSort {α : Type} (less : α → α → Bool) (xs : List α) : List α :=
  (xs.foldl (fun sorted x => insertDown less x sorted) []).reverse

/-- The algorithm `sort.Slice` runs on a slice of more than 12 elements. -/
structure SortAlgo where
  run : {α : Type} → (α → α → Bool) → List α → List α

/-- The function `sort.Slice`: the elements of the slice after the call. -/
def sortSlice {α : Type} (big : SortAlgo) (less : α → α → Bool) (xs : List α) : List α :=
  if xs.length ≤ 12 then insertionSort less xs else big.run less xs

/-- A comparison function is a strict weak ordering: irreflexive, transitive, and with
a transitive incomparability relation. -/
structure IsStrictWeakOrder {α : Type} (less : α → α → Bool) : Prop where
  irrefl : ∀ a, less a a = false
  trans : ∀ a b c, less a b = true → less b c = true → less a c = true
  incomp_trans : ∀ a b c, less a b = false → less b a = false → less b c = false →
    less c b = false → less a c = false ∧ less c a = false

/-- A sequence is sorted for `less`: no element is less than one that precedes it. -/
def SortedBy {α : Type} (less : α → α → Bool) (xs : List α) : Prop :=
  xs.Pairwise (fun a b => less b a = false)

/-- The contract of package sort for the algorithm on long slices: for a strict weak
ordering the result is a sorted rearrangement of the input. -/
def SortAlgo.Sorts (big : SortAlgo) : Prop :=
  ∀ {α : Type} (less : α → α → Bool) (xs : List α), IsStrictWeakOrder less →
    (big.run less xs).Perm xs ∧ SortedBy less (big.run less xs)

/-- Insertion sort on slices of every length, an algorithm that meets the contract. -/
def insertionAlgo : SortAlgo := { run := fun less xs => insertionSort less xs }

namespace extract

/-- The class `[a-zA-Z-0-9.,\s]` of `MimeCodecs`. -/
def isCodecChar (c : Char) : Bool :=
  ('a' ≤ c && c ≤ 'z') || ('A' ≤ c && c ≤ 'Z') || c == '-' || ('0' ≤ c && c ≤ '9') ||
  c == '.' || c == ',' || isSpace c

/-- The pattern `(\w+/\w+);\scodecs="([a-zA-Z-0-9.,\s]*)"` of `MimeCodecs`. -/
def mimeCodecsRe : Regexp where
  items := [Item.many isWord 1, lit '/', Item.many isWord 1, lit ';', Item.one isSpace] ++
    lits "codecs=\"" ++ [Item.many isCodecChar 0, lit '"']
  groups := [(0, 3), (13, 1)]
  source := "(\\w+/\\w+);\\scodecs=\"([a-zA-Z-0-9.,\\s]*)\""

/-- The function `MimeCodecs`; no match gives the empty MIME type and the nil slice. -/
def MimeCodecs (mime : String) : String × List String :=
  match mimeCodecsRe.FindStringSubmatch mime with
  | [_, mimeType, codecList] => (mimeType, (Split codecList ',').map TrimSpace)
  | _ => ("", [])

/-- A MIME type of the shape `type/subtype; codecs="list"`: the two words, the
white-space character after the semicolon, and the text between the quotes. -/
structure MimeShape where
  type : List Char
  subtype : List Char
  space : Char
  list : List Char

/-- The text of a MIME type of that shape. -/
def MimeShape.text (m : MimeShape) : String :=
  String.mk (m.type ++ '/' :: m.subtype ++ ';' :: m.space :: "codecs=\"".toList ++ m.list ++ ['"'])

/-- The shape is well formed when type and subtype are non-empty words, the separator
is a white-space character, and the list is written in the characters of the class
`[a-zA-Z-0-9.,\s]`. -/
def MimeShape.WellFormed (m : MimeShape) : Prop :=
  m.type ≠ [] ∧ (∀ c ∈ m.type, isWord c = true) ∧
  m.subtype ≠ [] ∧ (∀ c ∈ m.subtype, isWord c = true) ∧
  isSpace m.space = true ∧
  (∀ c ∈ m.list, isCodecChar c = true)

instance (m : MimeShape) : Decidable m.WellFormed := by
  unfold MimeShape.WellFormed; infer_instance

/-- The codec list of a MIME type of that shape: the comma-separated entries of the
list, each trimmed of surrounding white space. -/
def MimeShape.codecs (m : MimeShape) : List String :=
  (Split (String.mk m.list) ',').map TrimSpace

/-- The MIME type `video/mp4; codecs="avc1, mp4a"`. -/
def exampleMime : MimeShape where
  type := "video".toList
  subtype := "mp4".toList
  space := ' '
  list := "avc1, mp4a".toList

end extract

/-! ## package net/url: escaping and `Values.Encode` -/

namespace url

/-- The bytes of the UTF-8 encoding of a character. -/
def utf8Bytes (c : Char) : List Nat :=
  let n := c.toNat
  if n < 128 then [n]
  else if n < 2048 then [192 + n / 64, 128 + n % 64]
  else if n < 65536 then [224 + n / 4096, 128 + n / 64 % 64, 128 + n % 64]
  else [240 + n / 262144, 128 + n / 4096 % 64, 128 + n / 64 % 64, 128 + n % 64]

/-- The digit `upperhex[n]`. -/
def upperhex (n : Nat) : Char := "0123456789ABCDEF".toList.getD n '0'

/-- The function `shouldEscape(c, encodePathSegment)`; a character outside ASCII stands
for its bytes, each of which is escaped. -/
def shouldEscapePathSegment (c : Char) : Bool :=
  if ('a' ≤ c && c ≤ 'z') || ('A' ≤ c && c ≤ 'Z') || ('0' ≤ c && c ≤ '9') then false
  else if "-_.~".toList.contains c then false
  else if "$&+,/:;=?@".toList.contains c then c == '/' || c == ';' || c == ',' || c == '?'
  else true

/-- The function `shouldEscape(c, encodeQueryComponent)`. -/
def shouldEscapeQueryComponent (c : Char) : Bool :=
  if ('a' ≤ c && c ≤ 'z') || ('A' ≤ c && c ≤ 'Z') || ('0' ≤ c && c ≤ '9') then false
  else if "-_.~".toList.contains c then false
  else true

/-- The function `escape(s, mode)`, given `shouldEscape(·, mode)` and whether the mode
is `encodeQueryComponent`. -/
def escape (should : Char → Bool) (isQuery : Bool) (s : List Char) : List Char :=
  (s.map (fun c =>
    if c == ' ' && isQuery then ['+']
    else if should c then
      ((utf8Bytes c).map (fun b => ['%', upperhex (b / 16), upperhex (b % 16)])).flatten
    else [c])).flatten

/-- The function `url.PathEscape`. -/
def PathEscape (s : String) : String := String.mk (escape shouldEscapePathSegment false s.toList)

/-- The function `url.QueryEscape`. -/
def QueryEscape (s : String) : String :=
  String.mk (escape shouldEscapeQueryComponent true s.toList)

/-- The method `Values.Add`. -/
def Add (values : List (String × String)) (key value : String) : List (String × String) :=
  values ++ [(key, value)]

/-- Inserts a pair after the pairs whose key is not greater. -/
def insertByKey (kv : String × String) : List (String × String) → List (String × String)
  | [] => [kv]
  | x :: rest => if kv.1 < x.1 then kv :: x :: rest else x :: insertByKey kv rest

/-- The method `Values.Encode`: the pairs `key=value`, escaped, by ascending key, the
values of one key in the order they were added. -/
def Encode (values : List (String × String)) : String :=
  String.intercalate "&"
    ((values.foldl (fun acc kv => insertByKey kv acc) []).map
      (fun kv => QueryEscape kv.1 ++ "=" ++ QueryEscape kv.2))

end url

/-! ## package utils: the URLs of the info endpoint -/

namespace utils

/-- The function `MakeInfoURL`; the constant URL has no query and prints back as itself,
followed by `?` and the encoded query. -/
def MakeInfoURL (videoID el : String) : String :=
  let eurl := url.PathEscape ("https://youtube.googleapis.com/v/" ++ videoID)
  let query := url.Add (url.Add (url.Add (url.Add [] "video_id" videoID) "hl" "en") "el" el)
    "eurl" eurl
  "https://www.youtube.com/get_video_info" ++ "?" ++ url.Encode query

/-- The function `MakeAgeRestrictedInfoURL`. -/
def MakeAgeRestrictedInfoURL (videoID sts : String) : String :=
  let eurl := url.PathEscape ("https://youtube.googleapis.com/v/" ++ videoID)
  let query := url.Add (url.Add (url.Add (url.Add (url.Add [] "video_id" videoID) "hl" "en")
    "el" "detailpage") "eurl" eurl) "sts" sts
  "https://www.youtube.com/get_video_info" ++ "?" ++ url.Encode query

end utils

namespace extract

/-- The pattern of `AgeRestricted`. -/
def ageRestrictedRe : Regexp where
  items := lits "og:restrictions:age"
  groups := []
  source := "og:restrictions:age"

/-- The function `AgeRestricted`. -/
def AgeRestricted (watchHTML : String) : Bool := ageRestrictedRe.MatchString watchHTML

/-- The pattern `sts"\s*:\s*(\d+)` of `Sts`. -/
def stsRe : Regexp where
  items := lits "sts\"" ++ [Item.many isSpace 0, lit ':', Item.many isSpace 0, Item.many isDigit 1]
  groups := [(7, 1)]
  source := "sts\"\\s*:\\s*(\\d+)"

/-- The function `Sts`. -/
def Sts (embedHTML : String) : String :=
  match stsRe.FindStringSubmatch embedHTML with
  | [_, sts] => sts
  | _ => ""

end extract

namespace gotube

/-! ## package gotube: streams -/

/-- The fields of `data.StreamFormat`. -/
structure StreamFormat where
  Itag : Int
  Cipher : String
  URL : String
  MimeType : String
  Bitrate : Int
  Width : Int
  Height : Int
  LastModified : String
  ContentLength : String
  Quality : String
  QualityLabel : String
  ProjectionType : String
  AverageBitrate : Int
  ApproxDurationMs : String
  AudioSampleRate : String
  AudioChannels : Int
  AudioQuality : String
  deriving DecidableEq, Repr

/-- The struct `VideoStream`, without the pointer to its video and without the field
`Expiration`, which is read from the clock. -/
structure VideoStream where
  itag : Int
  cipher : String
  rawurl : String
  FileSize : Int
  MimeType : String
  VideoCodec : String
  AudioCodec : String
  Bitrate : Int
  AverageBitrate : Int
  QualityLabel : String
  Width : Int
  Height : Int
  HasAudio : Bool
  deriving DecidableEq, Repr

/-- The struct `AudioStream`, without the pointer to its video and without the field
`Expiration`. -/
structure AudioStream where
  itag : Int
  cipher : String
  rawurl : String
  FileSize : Int
  MimeType : String
  Codec : String
  Quality : String
  Bitrate : Int
  AverageBitrate : Int
  SampleRate : Int
  Channels : Int
  deriving DecidableEq, Repr

/-- The interface `Stream`, implemented by `*VideoStream` and `*AudioStream`. -/
inductive Stream where
  | video (s : VideoStream)
  | audio (s : AudioStream)
  deriving DecidableEq, Repr

/-- The method `Itag`. -/
def Stream.Itag : Stream → Int
  | Stream.video s => s.itag
  | Stream.audio s => s.itag

/-- The entry `metadata["cipher"]` of the method `Metadata`. -/
def Stream.cipher : Stream → String
  | Stream.video s => s.cipher
  | Stream.audio s => s.cipher

/-- The entry `metadata["rawurl"]` of the method `Metadata`. -/
def Stream.rawurl : Stream → String
  | Stream.video s => s.rawurl
  | Stream.audio s => s.rawurl

/-- The method `Streams.Sort`: the named result `results`, which no statement assigns,
and the elements of the receiver after `sort.Slice` has rearranged them in place. -/
def Streams.Sort (big : SortAlgo) (streams : List Stream) (less : Stream → Stream → Bool) :
    List Stream × List Stream :=
  ([], sortSlice big less streams)

/-- The comparison function of `sortByResolution`. -/
def lessByResolution (a b : VideoStream) : Bool :=
  decide (a.Height ≤ b.Height) && decide (a.Bitrate < b.Bitrate)

/-- The method `VideoStreams.sortByResolution`. -/
def VideoStreams.sortByResolution (big : SortAlgo) (streams : List VideoStream) :
    List VideoStream :=
  sortSlice big lessByResolution streams

/-- The method `VideoStreams.Best`; `none` is the nil pointer. -/
def VideoStreams.Best (big : SortAlgo) (streams : List VideoStream) : Option VideoStream :=
  (VideoStreams.sortByResolution big streams).getLast?

/-- The method `VideoStreams.Worst`; `none` is the nil pointer. -/
def VideoStreams.Worst (big : SortAlgo) (streams : List VideoStream) : Option VideoStream :=
  (VideoStreams.sortByResolution big streams).head?

/-- The comparison function of `sortByBitrate`. -/
def lessByBitrate (a b : AudioStream) : Bool :=
  decide (a.AverageBitrate < b.AverageBitrate) && decide (a.Bitrate < b.Bitrate)

/-- The method `AudioStreams.sortByBitrate`. -/
def AudioStreams.sortByBitrate (big : SortAlgo) (streams : List AudioStream) :
    List AudioStream :=
  sortSlice big lessByBitrate streams

/-- The method `AudioStreams.Best`; `none` is the nil pointer. -/
def AudioStreams.Best (big : SortAlgo) (streams : List AudioStream) : Option AudioStream :=
  (AudioStreams.sortByBitrate big streams).getLast?

/-- The method `AudioStreams.Worst`; `none` is the nil pointer. -/
def AudioStreams.Worst (big : SortAlgo) (streams : List AudioStream) : Option AudioStream :=
  (AudioStreams.sortByBitrate big streams).head?

/-! ## package gotube: the video and its stream catalog -/

/-- A `float64`, by its bit pattern; the code only copies such a value. -/
structure Float64 where
  bits : Nat := 0
  deriving DecidableEq, Repr

/-- An entry of `VideoDetails.Thumbnail.Thumbnails`. -/
structure Thumbnail where
  URL : String := ""
  Width : Int := 0
  Height : Int := 0
  deriving DecidableEq, Repr

/-- The Go struct `data.VideoDetails`; `Thumbnails` is `Thumbnail.Thumbnails`. -/
structure VideoDetails where
  VideoID : String := ""
  Title : String := ""
  LengthSeconds : String := ""
  Keywords : List String := []
  ChannelID : String := ""
  IsOwnerViewing : Bool := false
  ShortDescription : String := ""
  IsCrawlable : Bool := false
  Thumbnails : List Thumbnail := []
  AverageRating : Float64 := {}
  AllowRatings : Bool := false
  ViewCount : String := ""
  Author : String := ""
  IsPrivate : Bool := false
  IsUnpluggedCorpus : Bool := false
  IsLiveContent : Bool := false
  deriving DecidableEq, Repr

/-- The fields of `data.CaptionTrack` that `Video.caption` reads; `Name` is
`Name.SimpleText`. -/
structure CaptionTrack where
  BaseURL : String := ""
  Name : String := ""
  LanguageCode : String := ""
  deriving DecidableEq, Repr

/-- The field `PlayabilityStatus` of `data.PlayerResponse`. -/
structure PlayabilityStatus where
  Status : String := ""
  Reason : String := ""
  PlayableInEmbed : Bool := false
  ContextParams : String := ""
  deriving DecidableEq, Repr

/-- The fields of `Microformat.PlayerMicroformatRenderer` that `obtainBasicInfo` reads. -/
structure Microformat where
  IsUnlisted : Bool := false
  Category : String := ""
  deriving DecidableEq, Repr

/-- The part of `data.PlayerResponse` the video is built from: `Formats`,
`AdaptiveFormats` and `ExpiresInSeconds` are the fields of `StreamingData`, and
`CaptionTracks` is `Captions.PlayerCaptionsTracklistRenderer.CaptionTracks`. -/
structure PlayerResponse where
  Formats : List StreamFormat
  AdaptiveFormats : List StreamFormat
  ExpiresInSeconds : String
  PlayabilityStatus : PlayabilityStatus := {}
  CaptionTracks : List CaptionTrack := []
  VideoDetails : VideoDetails := {}
  Microformat : Microformat := {}

/-- The Go struct `VideoInfo`. -/
structure VideoInfo where
  Title : String := ""
  Description : String := ""
  Keywords : List String := []
  Category : String := ""
  Duration : Int := 0
  Views : Int := 0
  AverageRating : Float64 := {}
  Author : String := ""
  ThumbnailURL : String := ""
  IsAgeRestricted : Bool := false
  IsUnlisted : Bool := false
  deriving DecidableEq, Repr

/-- The exported fields of the Go struct `Caption`. -/
structure Caption where
  URL : String := ""
  Name : String := ""
  LanguageCode : String := ""
  deriving DecidableEq, Repr

/-- The Go struct `Video`.  A nil pointer is `none`.  A nil slice and an empty slice are
both the empty list: `streams` and `captions` start nil, and the only assignments to
them append an element. -/
structure Video where
  VideoInfo : Option VideoInfo := none
  ID : String
  WatchURL : String := ""
  EmbedURL : String := ""
  IsAgeRestricted : Bool := false
  streams : List Stream
  captions : List Caption := []
  watchHTML : String := ""
  embedHTML : String := ""
  infoQuery : List (String × String) := []
  infoRaw : String := ""
  infoURL : String := ""
  js : String
  jsURL : String
  decryption : Option decrypt.Decryption
  playerResponse : Option PlayerResponse

/-- The method `Video.stream`; `none` is the index-out-of-range panic of `codecs[0]` or
`codecs[1]`. -/
def Video.stream (_ : Video) (format : StreamFormat) : Option Stream :=
  let filesize := (download.ParseInt64 format.ContentLength).1
  let mc := extract.MimeCodecs format.MimeType
  let mime := mc.1
  let codecs := mc.2
  if (Split mime '/').head? == some "audio" then
    match codecs[0]? with
    | none => none
    | some codec =>
      some (Stream.audio
        { itag := format.Itag, cipher := format.Cipher, rawurl := format.URL,
          FileSize := filesize, MimeType := mime, Codec := codec,
          Quality := format.AudioQuality, Bitrate := format.Bitrate,
          AverageBitrate := format.AverageBitrate,
          SampleRate := (download.ParseInt64 format.AudioSampleRate).1,
          Channels := format.AudioChannels })
  else
    let quality := if format.QualityLabel == "" then format.Quality else format.QualityLabel
    let hasAudio := codecs.length % 2 == 0
    let acodec : Option String := if hasAudio then codecs[1]? else some ""
    match acodec, codecs[0]? with
    | some ac, some vc =>
      some (Stream.video
        { itag := format.Itag, cipher := format.Cipher, rawurl := format.URL,
          FileSize := filesize, MimeType := mime, VideoCodec := vc, AudioCodec := ac,
          Bitrate := format.Bitrate, AverageBitrate := format.AverageBitrate,
          QualityLabel := quality, Width := format.Width, Height := format.Height,
          HasAudio := hasAudio })
    | _, _ => none

/-- The loop `for _, format := range formats { video.streams = append(...) }`. -/
def Video.appendStreams (video : Video) : List StreamFormat → List Stream → Option (List Stream)
  | [], acc => some acc
  | format :: rest, acc =>
    match video.stream format with
    | none => none
    | some st => Video.appendStreams video rest (acc ++ [st])

/-- The comparison function passed to `Sort` by `Video.Streams`. -/
def lessByItag (stream1 stream2 : Stream) : Bool := decide (stream1.Itag < stream2.Itag)

/-- The method `Video.Streams`: the catalog returned and the video afterwards; `none`
is a panic. -/
def Video.Streams (big : SortAlgo) (video : Video) : Option (List Stream × Video) :=
  match video.playerResponse with
  | none => none
  | some playerResponse =>
    if !video.streams.isEmpty then some (video.streams, video)
    else
      let formats := playerResponse.Formats ++ playerResponse.AdaptiveFormats
      match Video.appendStreams video formats video.streams with
      | none => none
      | some streams =>
        let sorted := (Streams.Sort big streams lessByItag).2
        some (sorted, { video with streams := sorted })

/-! ## package gotube: the direct URL of a stream -/

/-- The collaborators of `getDownloadURL`: `utils.HttpFetch`, and `decrypt.NewDecryption`
as a function of the script text. -/
structure Fetcher where
  HttpFetch : String → Except GoError String
  NewDecryption : String → Res decrypt.Decryption

/-- The calls `getDownloadURL` makes to its collaborators. -/
inductive Call where
  | fetch (u : String)
  | newDecryption (js : String)
  deriving DecidableEq, Repr

/-- The statements of `getDownloadURL` inside `if isEncrypted` up to the call of
`DecryptSignature`: the script is fetched when `video.js` is empty, the cipher engine
is built when `video.decryption` is nil, and the signature `s` is decrypted. -/
def obtainSignature (env : Fetcher) (video : Video) (s : String) :
    Res String × Video × List Call :=
  let fetched : Except GoError Video × List Call :=
    if video.js == "" then
      match env.HttpFetch video.jsURL with
      | Except.error e => (Except.error e, [Call.fetch video.jsURL])
      | Except.ok content => (Except.ok { video with js := content }, [Call.fetch video.jsURL])
    else (Except.ok video, [])
  match fetched with
  | (Except.error e, calls) => (Res.error e, video, calls)
  | (Except.ok video1, calls) =>
    match video1.decryption with
    | some d => (d.DecryptSignature s, video1, calls)
    | none =>
      match env.NewDecryption video1.js with
      | Res.error e => (Res.error e, video1, calls ++ [Call.newDecryption video1.js])
      | Res.panic => (Res.panic, video1, calls ++ [Call.newDecryption video1.js])
      | Res.ok d =>
        (d.DecryptSignature s, { video1 with decryption := some d },
          calls ++ [Call.newDecryption video1.js])

/-- The function `getDownloadURL`: its result, the parent video afterwards, and the
calls made. -/
def getDownloadURL (env : Fetcher) (video : Video) (stream : Stream) :
    Res String × Video × List Call :=
  let cipher := stream.cipher
  let rawurl := stream.rawurl
  if cipher == "" then (Res.ok rawurl, video, [])
  else
    let query := url.ParseQuery cipher
    if query.2 then (Res.error (GoError.sys "invalid query"), video, [])
    else
      let u := url.Get query.1 "url"
      let s := url.Get query.1 "s"
      let isEncrypted := HasPrefix (url.Get query.1 "sp") "sig" ||
        (s != "" && !(Contains u "&sig=" || Contains u "&lsig="))
      if isEncrypted then
        match obtainSignature env video s with
        | (Res.ok signature, video1, calls) =>
          let u1 := if !Contains u "&ratebypass=" then u ++ "&ratebypass=yes" else u
          (Res.ok (u1 ++ "&sig=" ++ signature), video1, calls)
        | (Res.error e, video1, calls) => (Res.error e, video1, calls)
        | (Res.panic, video1, calls) => (Res.panic, video1, calls)
      else (Res.ok u, video, [])

/-! ## package gotube: initializing a video -/

/-- The calls of `utils.HttpFetch` made by `prefetch`, by the statement that makes them:
the watch page, the embed page, the info endpoint. -/
inductive Fetch where
  | watch (u : String)
  | embed (u : String)
  | info (u : String)
  deriving DecidableEq, Repr

/-- The collaborators of `Initialize`.  `HttpFetch n u` is the result of `utils.HttpFetch`
on the URL `u` when `n` requests were made before it, so that a site may answer one URL
differently each time.  `UnmarshalPlayerResponse resp p` is
`json.Unmarshal([]byte(resp), &p)` for a pointer `p`: the pointer afterwards and the
error.  `PlayerConfig` is `extract.PlayerConfig`, whose patterns use lazy repetition and
alternation.  `UnmarshalPlayerConfig config` is the decoding of the local struct
`playerConfig`: its field `Assets.JS` afterwards and the error. -/
structure Site where
  HttpFetch : Nat → String → Except GoError String
  UnmarshalPlayerResponse : String → Option PlayerResponse → Option PlayerResponse × Option GoError
  PlayerConfig : String → Except GoError String
  UnmarshalPlayerConfig : String → String × Option GoError

/-- The pattern compiled in `prefetch`. -/
def unplayableRe : Regexp where
  items := lits "UNPLAYABLE"
  groups := []
  source := "UNPLAYABLE"

/-- The URL that the closure `fetchInfo` of `prefetch` requests. -/
def infoURLOf (video : Video) (el : String) : String :=
  if video.IsAgeRestricted then
    utils.MakeAgeRestrictedInfoURL video.ID (extract.Sts video.embedHTML)
  else utils.MakeInfoURL video.ID el

/-- The closure `fetchInfo` of `prefetch`: its error, the video afterwards, and the
requests made so far. -/
def fetchInfo (env : Site) (video : Video) (log : List Fetch) (el : String) :
    Option GoError × Video × List Fetch :=
  let video1 := { video with infoURL := infoURLOf video el }
  match env.HttpFetch log.length video1.infoURL with
  | Except.error e => (some e, video1, log ++ [Fetch.info video1.infoURL])
  | Except.ok content =>
    (none, { video1 with infoRaw := content }, log ++ [Fetch.info video1.infoURL])

/-- The statements of `prefetch` before the first call of `fetchInfo`: the watch page
and, for an age-restricted video, the embed page. -/
def fetchPages (env : Site) (video : Video) : Option GoError × Video × List Fetch :=
  match env.HttpFetch 0 video.WatchURL with
  | Except.error e => (some e, video, [Fetch.watch video.WatchURL])
  | Except.ok content =>
    let video1 := { video with watchHTML := content,
                               IsAgeRestricted := extract.AgeRestricted content }
    if video1.IsAgeRestricted then
      match env.HttpFetch 1 video1.EmbedURL with
      | Except.error e =>
        (some e, video1, [Fetch.watch video.WatchURL, Fetch.embed video1.EmbedURL])
      | Except.ok content1 =>
        (none, { video1 with embedHTML := content1 },
          [Fetch.watch video.WatchURL, Fetch.embed video1.EmbedURL])
    else (none, video1, [Fetch.watch video.WatchURL])

/-- The statements of `prefetch` from the first call of `fetchInfo` on ("check and
fallback"). -/
def fetchInfos (env : Site) (video : Video) (log : List Fetch) :
    Option GoError × Video × List Fetch :=
  match fetchInfo env video log "embedded" with
  | (some err, video1, log1) =>
    match err with
    | GoError.http _ => fetchInfo env video1 log1 "detailpage"
    | _ => (some err, video1, log1)
  | (none, video1, log1) =>
    let values := url.ParseQuery video1.infoRaw
    if values.2 then (some (GoError.sys "invalid query"), video1, log1)
    else if unplayableRe.MatchString (url.Get values.1 "player_response") then
      fetchInfo env video1 log1 "detailpage"
    else (none, video1, log1)

/-- The method `Video.prefetch`: its error, the video afterwards, and the requests
made. -/
def prefetch (env : Site) (video : Video) : Option GoError × Video × List Fetch :=
  match fetchPages env video with
  | (some err, video1, log) => (some err, video1, log)
  | (none, video1, log) => fetchInfos env video1 log

/-- The URLs of the requests to the info endpoint, in order. -/
def infoFetches (log : List Fetch) : List String :=
  log.filterMap (fun f => match f with
    | Fetch.info u => some u
    | _ => none)

/-- The method `Video.descramble`: its result and the video afterwards; the panic is the
nil dereference of `video.playerResponse`. -/
def descramble (env : Site) (video : Video) : Res Unit × Video :=
  let values := url.ParseQuery video.infoRaw
  if values.2 then (Res.error (GoError.sys "invalid query"), video)
  else
    let video1 := { video with infoQuery := values.1 }
    if url.Get video1.infoQuery "status" != "ok" then
      (Res.error (GoError.requestFailed (url.Get video1.infoQuery "reason")), video1)
    else
      let resp := url.Get video1.infoQuery "player_response"
      if resp == "" then (Res.error (GoError.sys "empty 'player_response'"), video1)
      else
        let decoded := env.UnmarshalPlayerResponse resp video1.playerResponse
        let video2 := { video1 with playerResponse := decoded.1 }
        match decoded.2 with
        | some err => (Res.error err, video2)
        | none =>
          match video2.playerResponse with
          | none => (Res.panic, video2)
          | some playerResponse =>
            if playerResponse.PlayabilityStatus.Status != "OK" then
              (Res.error (GoError.requestFailed playerResponse.PlayabilityStatus.Status),
                video2)
            else
              let html := if video2.IsAgeRestricted then video2.embedHTML else video2.watchHTML
              match env.PlayerConfig html with
              | Except.error err => (Res.error err, video2)
              | Except.ok config =>
                let playerConfig := env.UnmarshalPlayerConfig config
                match playerConfig.2 with
                | some err => (Res.error err, video2)
                | none =>
                  (Res.ok (), { video2 with jsURL := "https://youtube.com" ++ playerConfig.1 })

/-- The method `Video.obtainBasicInfo`: its result and the video afterwards; the panic
is the nil dereference of `video.playerResponse`.  The first result of `strconv.Atoi`
is that of `strconv.ParseInt(s, 10, 64)` where `int` has 64 bits. -/
def obtainBasicInfo (video : Video) : Res Unit × Video :=
  match video.playerResponse with
  | none => (Res.panic, video)
  | some playerResponse =>
    let details := playerResponse.VideoDetails
    if details.IsLiveContent then (Res.error (GoError.unsupported video.ID), video)
    else
      let info : VideoInfo :=
        { Title := details.Title,
          Description := details.ShortDescription,
          Keywords := details.Keywords,
          Category := playerResponse.Microformat.Category,
          Duration := (download.ParseInt64 details.LengthSeconds).1,
          Views := (download.ParseInt64 details.ViewCount).1,
          AverageRating := details.AverageRating,
          Author := details.Author,
          ThumbnailURL :=
            (match details.Thumbnails.getLast? with
            | some thumbnail => thumbnail.URL
            | none => "https://img.youtube.com/vi/" ++ video.ID ++ "/maxresdefault.jpg"),
          IsUnlisted := playerResponse.Microformat.IsUnlisted }
      (Res.ok (), { video with VideoInfo := some info })

/-- The method `Video.Initialize`: its result, the video afterwards, and the requests
made. -/
def Initialize (env : Site) (video : Video) : Res Unit × Video × List Fetch :=
  match prefetch env video with
  | (some err, video1, log) => (Res.error err, video1, log)
  | (none, video1, log) =>
    match descramble env video1 with
    | (Res.ok _, video2) =>
      match obtainBasicInfo video2 with
      | (Res.ok _, video3) => (Res.ok (), video3, log)
      | (err, video3) => (err, video3, log)
    | (err, video2) => (err, video2, log)

/-- The function `NewVideo`: the pointer `vid` (nil is `none`), the result `err`, and the
requests made. -/
def NewVideo (env : Site) (idurl : String) (preinit : Bool) :
    Option Video × Res Unit × List Fetch :=
  match extract.VideoID idurl with
  | (_, some err) => (none, Res.error (GoError.extract err), [])
  | (id, none) =>
    let vid : Video :=
      { ID := id,
        WatchURL := "https://youtube.com/watch?hl=en&v=" ++ id,
        EmbedURL := "https://youtube.com/embed/" ++ id,
        streams := [],
        captions := [],
        js := "",
        jsURL := "",
        decryption := none,
        playerResponse := none }
    if preinit then
      match Initialize env vid with
      | (err, vid1, log) => (some vid1, err, log)
    else (some vid, Res.ok (), [])

/-- The error of a Go result pair `(value, error)`; nil is `none`. -/
def errorOf {α : Type} : Except GoError α → Option GoError
  | Except.error err => some err
  | Except.ok _ => none

/-- The method `Video.caption`. -/
def Video.caption (_ : Video) (track : CaptionTrack) : Caption :=
  { URL := track.BaseURL, Name := track.Name, LanguageCode := track.LanguageCode }

/-! ### Streams and videos for the worked examples -/

/-- A format entry with the given itag and MIME type. -/
def exampleFormat (itag : Int) (mime : String) : StreamFormat where
  Itag := itag
  Cipher := ""
  URL := "https://host/videoplayback?itag=" ++ toString itag
  MimeType := mime
  Bitrate := 1000
  Width := 640
  Height := 360
  LastModified := ""
  ContentLength := "4096"
  Quality := "medium"
  QualityLabel := "360p"
  ProjectionType := "RECTANGULAR"
  AverageBitrate := 900
  ApproxDurationMs := ""
  AudioSampleRate := "44100"
  AudioChannels := 2
  AudioQuality := "AUDIO_QUALITY_MEDIUM"

/-- An initialized video with the progressive entries 22, 18 and the adaptive entries
140, 137, before the first call of `Streams`. -/
def exampleVideo : Video where
  ID := "ABCDEFGHIJK"
  js := ""
  jsURL := "https://youtube.com/player/base.js"
  decryption := none
  playerResponse := some
    { Formats := [exampleFormat 22 "video/mp4; codecs=\"avc1.64001F, mp4a.40.2\"",
                  exampleFormat 18 "video/mp4; codecs=\"avc1.42001E, mp4a.40.2\""],
      AdaptiveFormats := [exampleFormat 140 "audio/mp4; codecs=\"mp4a.40.2\"",
                          exampleFormat 137 "video/mp4; codecs=\"avc1.640028\""],
      ExpiresInSeconds := "21540" }
  streams := []

/-- An initialized video whose only format entry has a MIME type without the `codecs`
parameter. -/
def bareMimeVideo : Video :=
  { exampleVideo with
    playerResponse := some
      { Formats := [exampleFormat 22 "video/mp4"], AdaptiveFormats := [],
        ExpiresInSeconds := "21540" } }

/-- A 1080p video stream with bitrate 100. -/
def video1080 : VideoStream where
  itag := 137
  cipher := ""
  rawurl := "https://host/videoplayback?itag=137"
  FileSize := 4096
  MimeType := "video/mp4"
  VideoCodec := "avc1.640028"
  AudioCodec := ""
  Bitrate := 100
  AverageBitrate := 100
  QualityLabel := "1080p"
  Width := 1920
  Height := 1080
  HasAudio := false

/-- A 720p video stream with the same bitrate 100. -/
def video720 : VideoStream :=
  { video1080 with itag := 136, rawurl := "https://host/videoplayback?itag=136",
                   QualityLabel := "720p", Width := 1280, Height := 720 }

/-- An audio stream with average bitrate 200 and bitrate 100. -/
def audio200 : AudioStream where
  itag := 141
  cipher := ""
  rawurl := "https://host/videoplayback?itag=141"
  FileSize := 4096
  MimeType := "audio/mp4"
  Codec := "mp4a.40.2"
  Quality := "AUDIO_QUALITY_HIGH"
  Bitrate := 100
  AverageBitrate := 200
  SampleRate := 44100
  Channels := 2

/-- An audio stream with average bitrate 100 and the same bitrate 100. -/
def audio100 : AudioStream :=
  { audio200 with itag := 140, rawurl := "https://host/videoplayback?itag=140",
                  Quality := "AUDIO_QUALITY_MEDIUM", AverageBitrate := 100 }

/-- A 360p video stream with bitrate 100. -/
def video360 : VideoStream :=
  { video1080 with itag := 134, rawurl := "https://host/videoplayback?itag=134",
                   QualityLabel := "360p", Width := 640, Height := 360 }

/-- A 720p video stream with bitrate 200. -/
def video720fast : VideoStream :=
  { video720 with Bitrate := 200, AverageBitrate := 200 }

/-- An audio stream with average bitrate 150 and bitrate 200. -/
def audio150 : AudioStream :=
  { audio200 with itag := 139, rawurl := "https://host/videoplayback?itag=139",
                  Bitrate := 200, AverageBitrate := 150 }

/-- A fetcher that serves one script and builds the cipher engine of the worked
example from it. -/
def exampleFetcher : Fetcher where
  HttpFetch := fun _ => Except.ok "var x=..."
  NewDecryption := fun _ => Res.ok decrypt.exampleDecryption

/-- A video stream whose cipher carries the signature `abcdefgh` under `sp=sig`. -/
def cipheredStream : Stream :=
  Stream.video
    { video1080 with
      cipher := "s=abcdefgh&sp=sig&url=https%3A%2F%2Fhost%2Fvideoplayback%3Fitag%3D137",
      rawurl := "" }

/-- A site that answers the `n`-th request with the `n`-th entry of a list, whatever the
URL, and on which no document decodes. -/
def siteOf (answers : List (Except GoError String)) : Site where
  HttpFetch := fun n _ => answers.getD n (Except.error (GoError.sys "connection refused"))
  UnmarshalPlayerResponse := fun _ p => (p, some (GoError.sys "unexpected end of JSON input"))
  PlayerConfig := fun _ =>
    Except.error
      (GoError.extract { Caller := "player config", Pattern := "<player config patterns>" })
  UnmarshalPlayerConfig := fun _ => ("", some (GoError.sys "unexpected end of JSON input"))

/-- The video `NewVideo` makes from the identifier `ABCDEFGHIJK`, not yet initialized. -/
def newVideo : Video where
  ID := "ABCDEFGHIJK"
  WatchURL := "https://youtube.com/watch?hl=en&v=ABCDEFGHIJK"
  EmbedURL := "https://youtube.com/embed/ABCDEFGHIJK"
  streams := []
  captions := []
  js := ""
  jsURL := ""
  decryption := none
  playerResponse := none

/-- The metadata document of a live video, as text. -/
def liveDocument : String :=
  "\x7b\"playabilityStatus\":\x7b\"status\":\"OK\"\x7d,\"videoDetails\":\x7b\"videoId\":\"ABCDEFGHIJK\",\"isLiveContent\":true\x7d\x7d"

/-- The metadata document of a live video, decoded. -/
def liveResponse : PlayerResponse where
  Formats := []
  AdaptiveFormats := []
  ExpiresInSeconds := ""
  PlayabilityStatus := { Status := "OK" }
  VideoDetails := { VideoID := "ABCDEFGHIJK", IsLiveContent := true }

/-- The player configuration carried by the watch page of the worked example. -/
def liveConfig : String :=
  "\x7b\"assets\":\x7b\"js\":\"/s/player/base.js\"\x7d\x7d"

/-- The watch page of the worked example: the configuration follows `;ytplayer.config = `
and is followed by a semicolon, which is what the first pattern of
`extract.PlayerConfig` looks for. -/
def livePage : String :=
  "<html><script>;ytplayer.config = " ++ liveConfig ++ ";</script></html>"

/-- A site that serves a live video: the watch page, then the info document. -/
def liveSite : Site where
  HttpFetch := fun n _ =>
    [Except.ok livePage,
     Except.ok "status=ok&player_response=%7B%22playabilityStatus%22%3A%7B%22status%22%3A%22OK%22%7D%2C%22videoDetails%22%3A%7B%22videoId%22%3A%22ABCDEFGHIJK%22%2C%22isLiveContent%22%3Atrue%7D%7D"].getD n
      (Except.error (GoError.sys "connection refused"))
  UnmarshalPlayerResponse := fun resp p =>
    if resp == liveDocument then (some liveResponse, none)
    else (p, some (GoError.sys "unexpected end of JSON input"))
  PlayerConfig := fun html =>
    if html == livePage then Except.ok liveConfig
    else
      Except.error
        (GoError.extract { Caller := "player config", Pattern := "<player config patterns>" })
  UnmarshalPlayerConfig := fun config =>
    if config == liveConfig then ("/s/player/base.js", none)
    else ("", some (GoError.sys "unexpected end of JSON input"))

/-- The live video after `prefetch` and `descramble` on `liveSite`. -/
def liveVideo : Video :=
  { newVideo with
    watchHTML := livePage
    infoQuery := [("status", "ok"), ("player_response", liveDocument)]
    infoRaw := "status=ok&player_response=%7B%22playabilityStatus%22%3A%7B%22status%22%3A%22OK%22%7D%2C%22videoDetails%22%3A%7B%22videoId%22%3A%22ABCDEFGHIJK%22%2C%22isLiveContent%22%3Atrue%7D%7D"
    infoURL := utils.MakeInfoURL "ABCDEFGHIJK" "embedded"
    jsURL := "https://youtube.com/s/player/base.js"
    playerResponse := some liveResponse }

/-- A site whose first info document carries the marker and whose second one does not. -/
def unplayableSite : Site :=
  siteOf [Except.ok "<html></html>",
    Except.ok "status=ok&player_response=%7B%22playabilityStatus%22%3A%7B%22status%22%3A%22UNPLAYABLE%22%7D%7D",
    Except.ok "status=ok&player_response=%7B%7D"]

/-- A site whose info document carries the marker and a malformed pair. -/
def malformedSite : Site :=
  siteOf [Except.ok "<html></html>", Except.ok "player_response=UNPLAYABLE&x=%zz",
    Except.ok "status=ok&player_response=%7B%7D"]

end gotube

end Gotube

/-! # Properties

## Lemmas on slices and on the three operations -/

namespace Gotube

theorem index_append_cons {α : Type} (pre : List α) (x : α) (rest : List α) (i : Int)
    (hi : i = pre.length) : index (pre ++ x :: rest) i = some x := by
  subst hi
  have h : (pre ++ x :: rest)[pre.length]? = some x := by
    induction pre with
    | nil => simp
    | cons a l ih => simpa using ih
  simpa [index] using h

theorem assign_append_cons {α : Type} (pre : List α) (x v : α) (rest : List α) (i : Int)
    (hi : i = pre.length) : assign (pre ++ x :: rest) i v = some (pre ++ v :: rest) := by
  subst hi
  have h : (pre.length : Int) < (pre.length : Int) + ((rest.length : Int) + 1) := by omega
  simp [assign, h]

namespace decrypt

theorem reverseLoop_spec : ∀ (fuel : Nat) (mid pre post : List String) (i j : Int),
    mid.length ≤ 2 * fuel → i = pre.length → j = (pre.length : Int) + mid.length - 1 →
    reverseLoop fuel (pre ++ mid ++ post) i j = some (pre ++ mid.reverse ++ post) := by
  intro fuel
  induction fuel with
  | zero =>
    intro mid pre post i j h hi hj
    have hm : mid = [] := List.eq_nil_of_length_eq_zero (by omega)
    subst hm
    have : ¬ i < j := by simp at hj; omega
    simp [reverseLoop, this]
  | succ n ih =>
    intro mid pre post i j h hi hj
    match mid, h, hj with
    | [], _, hj =>
      have : ¬ i < j := by simp at hj; omega
      simp [reverseLoop, this]
    | [x], _, hj =>
      have : ¬ i < j := by simp at hj; omega
      simp [reverseLoop, this]
    | x :: y :: rest, h, hj =>
      obtain ⟨mid', z, hz⟩ : ∃ mid' z, y :: rest = mid' ++ [z] := by
        rcases List.eq_nil_or_concat (y :: rest) with h0 | ⟨l, b, hb⟩
        · simp at h0
        · exact ⟨l, b, by simpa using hb⟩
      rw [hz] at hj h ⊢
      simp only [List.length_append, List.length_cons, List.length_nil] at hj h
      push_cast at hj
      have hlt : i < j := by omega
      have e1 : pre ++ x :: (mid' ++ [z]) ++ post = (pre ++ x :: mid') ++ z :: post := by simp
      have e2 : pre ++ x :: (mid' ++ [z]) ++ post = pre ++ x :: (mid' ++ z :: post) := by simp
      have e3 : pre ++ z :: (mid' ++ z :: post) = (pre ++ z :: mid') ++ z :: post := by simp
      have i1 : index (pre ++ x :: (mid' ++ [z]) ++ post) j = some z := by
        rw [e1]; apply index_append_cons
        simp only [List.length_append, List.length_cons]; push_cast; omega
      have i2 : index (pre ++ x :: (mid' ++ [z]) ++ post) i = some x := by
        rw [e2]; exact index_append_cons _ _ _ _ hi
      have a1 : assign (pre ++ x :: (mid' ++ [z]) ++ post) i z
          = some (pre ++ z :: (mid' ++ z :: post)) := by
        rw [e2]; exact assign_append_cons _ _ _ _ _ hi
      have a2 : assign (pre ++ z :: (mid' ++ z :: post)) j x
          = some ((pre ++ [z]) ++ mid' ++ x :: post) := by
        rw [e3]
        have := assign_append_cons (pre ++ z :: mid') z x post j (by
          simp only [List.length_append, List.length_cons]; push_cast; omega)
        simpa using this
      rw [reverseLoop, if_pos hlt]
      simp only [i1, i2, a1, a2, Option.bind_eq_bind, Option.some_bind]
      rw [ih mid' (pre ++ [z]) (x :: post) (i + 1) (j - 1) (by omega)
        (by simp only [List.length_append, List.length_cons, List.length_nil]; push_cast; omega)
        (by simp only [List.length_append, List.length_cons, List.length_nil]; push_cast; omega)]
      simp

theorem reverse_eq (arr : List String) (b : Int) : reverse arr b = some arr.reverse := by
  have h := reverseLoop_spec arr.length arr [] [] 0 ((arr.length : Int) - 1) (by omega) rfl
    (by simp)
  simpa [reverse] using h

theorem splice_eq (arr : List String) (b : Int) (h0 : 0 ≤ b) (h2 : 2 * b ≤ arr.length) :
    splice arr b = some (arr.take b.toNat ++ arr.drop (2 * b.toNat)) := by
  have h : 0 ≤ b ∧ b * 2 ≤ (arr.length : Int) := ⟨h0, by omega⟩
  have e : (b * 2).toNat = 2 * b.toNat := by omega
  simp [splice, h, e]

end decrypt

/-! ## Lemmas on the pattern matcher and on `Atoi` -/

theorem firstFrom_hit {β : Type} (f : Nat → Option β) (lo n : Nat) (r : β)
    (hlo : lo ≤ n) (hf : f n = some r) : firstFrom f lo n = some r := by
  cases n with
  | zero =>
    have : lo = 0 := by omega
    simp [firstFrom, this, hf]
  | succ k =>
    have : ¬ k + 1 < lo := by omega
    simp [firstFrom, this, hf]

theorem takeWhile_append_stop (p : Char → Bool) (l rest : List Char)
    (hl : ∀ c ∈ l, p c = true) (hstop : ∀ c ∈ rest.head?, p c = false) :
    (l ++ rest).takeWhile p = l := by
  induction l with
  | nil =>
    cases rest with
    | nil => rfl
    | cons c cs =>
      have : p c = false := hstop c (by simp)
      simp [List.takeWhile, this]
  | cons a l ih =>
    have ha : p a = true := hl a (by simp)
    have ih1 := ih (fun c hc => hl c (by simp [hc]))
    simp [List.takeWhile, ha, ih1]

theorem matchItems_many (p : Char → Bool) (lo : Nat) (items : List Item)
    (l rest : List Char) (segs : List (List Char))
    (hl : ∀ c ∈ l, p c = true) (hstop : ∀ c ∈ rest.head?, p c = false)
    (hlo : lo ≤ l.length) (hrest : matchItems items rest = some segs) :
    matchItems (Item.many p lo :: items) (l ++ rest) = some (l :: segs) := by
  rw [matchItems, takeWhile_append_stop p l rest hl hstop]
  apply firstFrom_hit _ _ _ _ hlo
  simp [hrest]

theorem matchItems_one (p : Char → Bool) (items : List Item) (c : Char)
    (rest : List Char) (segs : List (List Char))
    (hc : p c = true) (hrest : matchItems items rest = some segs) :
    matchItems (Item.one p :: items) (c :: rest) = some ([c] :: segs) := by
  simp [matchItems, hc, hrest]

theorem matchItems_lit (items : List Item) (c : Char)
    (rest : List Char) (segs : List (List Char))
    (hrest : matchItems items rest = some segs) :
    matchItems (lit c :: items) (c :: rest) = some ([c] :: segs) := by
  simp [lit, matchItems, hrest]

theorem findMatch_of_matchItems (items : List Item) (cs : List Char) (segs : List (List Char))
    (h : matchItems items cs = some segs) : findMatch items cs = some segs := by
  cases cs with
  | nil => simpa [findMatch] using h
  | cons c cs => simp [findMatch, h]

theorem isDigit_not_sign (c : Char) (h : isDigit c = true) : c ≠ '-' ∧ c ≠ '+' := by
  constructor
  · rintro rfl; revert h; decide
  · rintro rfl; revert h; decide

theorem decimalValue_nonneg (ds : List Char) (h : ∀ c ∈ ds, isDigit c = true) :
    0 ≤ decimalValue ds := by
  unfold decimalValue
  suffices H : ∀ (acc : Int), 0 ≤ acc →
      0 ≤ ds.foldl (fun acc c => acc * 10 + ((c.toNat : Int) - 48)) acc from H 0 (le_refl _)
  induction ds with
  | nil => intro acc h0; simpa using h0
  | cons a l ih =>
    intro acc h0
    simp only [List.foldl_cons]
    apply ih (fun c hc => h c (by simp [hc]))
    have ha := h a (by simp)
    have : 48 ≤ a.toNat := by
      simp only [isDigit, Bool.and_eq_true, decide_eq_true_eq] at ha
      exact ha.1
    omega

theorem Atoi_digits (ds : List Char) (hne : ds ≠ []) (h : ∀ c ∈ ds, isDigit c = true)
    (hr : decimalValue ds < 2 ^ 63) : Atoi (String.mk ds) = Except.ok (decimalValue ds) := by
  have h0 := decimalValue_nonneg ds h
  obtain ⟨a, l, rfl⟩ := List.exists_cons_of_ne_nil hne
  have ha := isDigit_not_sign a (h a (by simp))
  have hall : (a :: l).all isDigit = true := by
    rw [List.all_eq_true]; exact h
  have h1 : ¬ (decimalValue (a :: l) < -(2 ^ 63) ∨ 2 ^ 63 - 1 < decimalValue (a :: l)) := by omega
  simp only [Atoi, String.toList]
  simp [ha.1, ha.2, hall]
  omega

/-! ## Lemmas on `parseFunction` and the interpreter loop -/

namespace decrypt

theorem matchItems_call (c : CallExpr) (h : c.WellFormed) :
    matchItems parseFunctionRe.items c.text.toList =
      some [c.helper, ['.'], c.method, ['('], [c.argVar], [','], c.digits, [')']] := by
  obtain ⟨hh, hhw, hm, hmw, ha, hd, hdw, _⟩ := h
  have len1 : ∀ l : List Char, l ≠ [] → 1 ≤ l.length := by
    intro l hl
    cases l with
    | nil => exact absurd rfl hl
    | cons a l => simp
  show matchItems _ (c.helper ++ '.' :: c.method ++ '(' :: c.argVar :: ',' :: c.digits ++ [')']) = _
  unfold parseFunctionRe
  simp only [List.append_assoc, List.cons_append]
  apply matchItems_many _ _ _ _ _ _ hhw (by simp [isWord]) (len1 _ hh)
  apply matchItems_lit
  apply matchItems_many _ _ _ _ _ _ hmw (by simp [isWord]) (len1 _ hm)
  apply matchItems_lit
  apply matchItems_one _ _ _ _ _ ha
  apply matchItems_lit
  apply matchItems_many _ _ _ _ _ _ hdw (by simp [isDigit]) (len1 _ hd)
  apply matchItems_lit
  rfl

theorem parseFunction_call (d : Decryption) (c : CallExpr) (h : c.WellFormed) :
    d.parseFunction c.text = Res.ok (c.name, c.arg) := by
  have hm := findMatch_of_matchItems _ _ _ (matchItems_call c h)
  obtain ⟨_, _, _, _, _, hd, hdw, hr⟩ := h
  have hA := Atoi_digits c.digits hd hdw hr
  unfold Decryption.parseFunction Regexp.FindStringSubmatch
  rw [hm]
  simp [parseFunctionRe, hA, CallExpr.name, CallExpr.arg]

theorem run_calls (d : Decryption) : ∀ (steps : List (CallExpr × Op)) (sig r : List String),
    (∀ st ∈ steps, st.1.WellFormed) →
    (∀ st ∈ steps, d.transformMap st.1.name = some st.2) →
    applySteps (steps.map (fun st => (st.2, st.1.arg))) sig = some r →
    d.run (steps.map (fun st => st.1.text)) sig = Res.ok r := by
  intro steps
  induction steps with
  | nil =>
    intro sig r _ _ h
    simp only [List.map_nil, applySteps, Option.some.injEq] at h
    simp [Decryption.run, h]
  | cons st rest ih =>
    intro sig r hwf hmap h
    have hc := parseFunction_call d st.1 (hwf st (by simp))
    have hop := hmap st (by simp)
    simp only [List.map_cons, applySteps] at h
    simp only [List.map_cons, Decryption.run, hc, hop]
    cases hcall : st.2.call sig st.1.arg with
    | none => simp [hcall] at h
    | some sig1 =>
      simp only [hcall] at h ⊢
      exact ih sig1 r (fun c hc1 => hwf c (by simp [hc1])) (fun c hc1 => hmap c (by simp [hc1])) h

/-! ## The cipher engine: claims -/

theorem goMod_small (b : Int) (n : Nat) (h0 : 0 ≤ b) (hb : b < n) : goMod b n = b := by
  unfold goMod
  rw [Int.tmod_eq_emod h0 (by omega)]
  exact Int.emod_eq_of_lt h0 hb

/-- Inside the range `0 ≤ b < len(arr)` the closure `swap` exchanges the elements at
index 0 and index `b`. -/
theorem swap_in_range (arr : List String) (b : Nat) (x y : String)
    (hx : arr[0]? = some x) (hy : arr[b]? = some y) :
    swap arr b = some ((arr.set 0 y).set b x) := by
  have hlen : b < arr.length := by
    rcases Nat.lt_or_ge b arr.length with h | h
    · exact h
    · rw [List.getElem?_eq_none h] at hy; cases hy
  have hm := goMod_small b arr.length (by omega) (by exact_mod_cast hlen)
  have hpos : (0 : Int) < arr.length := by omega
  have hb : (b : Int) < arr.length := by exact_mod_cast hlen
  simp [swap, index, assign, hm, hx, hy, hpos, hb, hlen]

/-- Outside that range (`b < 0` or `len(arr) ≤ b`) the closure `swap` panics. -/
theorem swap_out_of_range (arr : List String) (b : Int) (h : b < 0 ∨ (arr.length : Int) ≤ b) :
    swap arr b = none := by
  have hl : ∀ (l : List String) (c : String), l.length = arr.length → assign l b c = none := by
    intro l c hl
    have : ¬ (0 ≤ b ∧ b < (l.length : Int)) := by rw [hl]; omega
    simp [assign, this]
  have hset : ∀ (v : String) (arr1 : List String), assign arr 0 v = some arr1 →
      arr1.length = arr.length := by
    intro v arr1 h2
    unfold assign at h2
    split at h2
    · simp only [Option.some.injEq] at h2; subst h2; simp
    · cases h2
  unfold swap
  cases h0 : index arr 0 with
  | none => rfl
  | some c =>
    cases h1 : index arr (goMod b arr.length) with
    | none => rfl
    | some v =>
      simp only [Option.bind_eq_bind, Option.some_bind, Option.bind_eq_none]
      intro a ha
      simp [hl a c (hset v a ha)]

/-- C1: when the transform plan is a list of well-formed call expressions
`helper.m_k(a,N_k)` whose methods are all bound in the transform map, and applying the
bound operations in plan order to the characters of `s` goes out of range at no step,
`DecryptSignature(s)` returns, without error, the characters so obtained joined. -/
theorem DecryptSignature_applies_plan (d : Decryption) (steps : List (CallExpr × Op))
    (s : String) (r : List String)
    (hplan : d.transformPlan = steps.map (fun st => st.1.text))
    (hwf : ∀ st ∈ steps, st.1.WellFormed)
    (hmap : ∀ st ∈ steps, d.transformMap st.1.name = some st.2)
    (hrange : applySteps (steps.map (fun st => (st.2, st.1.arg))) (explode s) = some r) :
    d.DecryptSignature s = Res.ok (joinStrings r) := by
  unfold Decryption.DecryptSignature
  rw [hplan, run_calls d steps (explode s) r hwf hmap hrange]

/-- C1, the worked example: with the table `{f: reverse, g: range-delete, h: index-swap}`
and the plan `[g(3), h(2)]`, `DecryptSignature("abcdefgh")` is `"cbagh"`. -/
theorem DecryptSignature_applies_plan_witness :
    exampleDecryption.DecryptSignature "abcdefgh" = Res.ok "cbagh" :=
  DecryptSignature_applies_plan exampleDecryption exampleSteps "abcdefgh"
    ["c", "b", "a", "g", "h"] (by decide) (by decide) (by decide) (by decide)

/-- C2 (the code departs from the claim): for the sequence `a, b, c` and `b = 4` the
claim has index 0 and index `4 mod 3 = 1` exchanged, giving `b, a, c`; the closure
`swap` reads `arr[4 % 3]` and then panics on the write `arr[4] = c`. -/
theorem swap_panics_beyond_length :
    goMod 4 3 = 1 ∧ swap ["a", "b", "c"] 4 = none ∧
      swap ["a", "b", "c"] 1 = some ["b", "a", "c"] := by
  decide

/-- C3: for `0 ≤ b` and `2*b ≤ len(arr)` the closure `splice` returns `arr[0..b)`
followed by `arr[2b..len(arr))`. -/
theorem splice_removes_range (arr : List String) (b : Int) (h0 : 0 ≤ b)
    (h2 : 2 * b ≤ arr.length) :
    splice arr b = some (arr.take b.toNat ++ arr.drop (2 * b.toNat)) :=
  splice_eq arr b h0 h2

/-- C3 at `abcdefgh` and `b = 3`: the elements at indices 3, 4, 5 are removed. -/
theorem splice_removes_range_witness :
    splice ["a", "b", "c", "d", "e", "f", "g", "h"] 3 = some ["a", "b", "c", "g", "h"] :=
  splice_removes_range ["a", "b", "c", "d", "e", "f", "g", "h"] 3 (by decide) (by decide)

/-- C4: the closure `reverse` returns the whole sequence reversed, for the empty
sequence too: element `i` of the result is element `len(arr)-1-i` of `arr`, and the
integer argument has no influence. -/
theorem reverse_reverses (arr : List String) (b : Int) :
    reverse arr b = some arr.reverse ∧
    (∀ i : Fin arr.length, arr.reverse[i.val]? = arr[arr.length - 1 - i.val]?) ∧
    (∀ b1 : Int, reverse arr b1 = reverse arr b) := by
  refine ⟨reverse_eq arr b, ?_, fun b1 => by rw [reverse_eq, reverse_eq]⟩
  intro i
  rw [List.getElem?_reverse i.isLt]

theorem mapFunctionsLoop_no_match (jsFunc : String) :
    ∀ (order : List (Regexp × Op)) (last : String),
      (∀ e ∈ order, e.1.MatchString jsFunc = false) →
      ∃ pat, mapFunctionsLoop jsFunc order last =
        Res.error (GoError.extract { Caller := "map functions", Pattern := pat }) := by
  intro order
  induction order with
  | nil => intro last _; exact ⟨last, rfl⟩
  | cons e rest ih =>
    intro last h
    obtain ⟨pattern, fn⟩ := e
    have he : pattern.MatchString jsFunc = false := h (pattern, fn) (by simp)
    obtain ⟨pat, hp⟩ := ih pattern.source (fun e1 h1 => h e1 (by simp [h1]))
    exact ⟨pat, by simp [mapFunctionsLoop, he, hp]⟩

theorem mapFunctionsLoop_match (jsFunc : String) :
    ∀ (order : List (Regexp × Op)) (last : String),
      (∃ e ∈ order, e.1.MatchString jsFunc = true) →
      ∃ e ∈ order, e.1.MatchString jsFunc = true ∧
        mapFunctionsLoop jsFunc order last = Res.ok e.2 := by
  intro order
  induction order with
  | nil => intro last h; obtain ⟨e, he, _⟩ := h; cases he
  | cons e rest ih =>
    intro last h
    obtain ⟨pattern, fn⟩ := e
    by_cases hm : pattern.MatchString jsFunc = true
    · exact ⟨(pattern, fn), by simp, hm, by simp [mapFunctionsLoop, hm]⟩
    · have hrest : ∃ e ∈ rest, e.1.MatchString jsFunc = true := by
        obtain ⟨e1, he1, hm1⟩ := h
        rcases List.mem_cons.mp he1 with rfl | h2
        · exact absurd hm1 hm
        · exact ⟨e1, h2, hm1⟩
      obtain ⟨e1, he1, hm1, hr⟩ := ih pattern.source hrest
      exact ⟨e1, by simp [he1], hm1, by simp [mapFunctionsLoop, hm, hr]⟩

/-- C5: whatever order the map is visited in, a method body that matches none of the
four keys of the map literal (the shapes `reverse`, `splice(0,b)` and the two index
swaps) makes `mapFunctions` return an `ExtractError` with Caller "map functions" and no
operation; a body that matches one of them makes it return an operation and no error,
and the operation is the one bound to a key the body matches: `reverse` for the first
key, `splice` for the second, `swap` for the third and the fourth. -/
theorem mapFunctions_classifies (order : List (Regexp × Op)) (jsFunc : String)
    (horder : order.Perm mapper) :
    (reversePattern.MatchString jsFunc = false ∧ splicePattern.MatchString jsFunc = false ∧
        swapPattern.MatchString jsFunc = false ∧ swapModPattern.MatchString jsFunc = false →
      ∃ pat, mapFunctions order jsFunc =
        Res.error (GoError.extract { Caller := "map functions", Pattern := pat })) ∧
    (reversePattern.MatchString jsFunc = true ∨ splicePattern.MatchString jsFunc = true ∨
        swapPattern.MatchString jsFunc = true ∨ swapModPattern.MatchString jsFunc = true →
      (mapFunctions order jsFunc = Res.ok Op.reverse ∧
          reversePattern.MatchString jsFunc = true) ∨
      (mapFunctions order jsFunc = Res.ok Op.splice ∧
          splicePattern.MatchString jsFunc = true) ∨
      (mapFunctions order jsFunc = Res.ok Op.swap ∧
          (swapPattern.MatchString jsFunc = true ∨
            swapModPattern.MatchString jsFunc = true))) := by
  have hmem : ∀ e : Regexp × Op, e ∈ mapper ↔
      e = (reversePattern, Op.reverse) ∨ e = (splicePattern, Op.splice) ∨
      e = (swapPattern, Op.swap) ∨ e = (swapModPattern, Op.swap) := by
    intro e
    simp [mapper]
  constructor
  · rintro ⟨h1, h2, h3, h4⟩
    apply mapFunctionsLoop_no_match jsFunc order ""
    intro e he
    rcases (hmem e).mp (horder.mem_iff.mp he) with rfl | rfl | rfl | rfl
    · exact h1
    · exact h2
    · exact h3
    · exact h4
  · intro h
    have hex : ∃ e ∈ order, e.1.MatchString jsFunc = true := by
      rcases h with h | h | h | h
      · exact ⟨_, horder.mem_iff.mpr ((hmem _).mpr (Or.inl rfl)), h⟩
      · exact ⟨_, horder.mem_iff.mpr ((hmem _).mpr (Or.inr (Or.inl rfl))), h⟩
      · exact ⟨_, horder.mem_iff.mpr ((hmem _).mpr (Or.inr (Or.inr (Or.inl rfl)))), h⟩
      · exact ⟨_, horder.mem_iff.mpr ((hmem _).mpr (Or.inr (Or.inr (Or.inr rfl)))), h⟩
    obtain ⟨e, he, hm, hr⟩ := mapFunctionsLoop_match jsFunc order "" hex
    rcases (hmem e).mp (horder.mem_iff.mp he) with rfl | rfl | rfl | rfl
    · exact Or.inl ⟨hr, hm⟩
    · exact Or.inr (Or.inl ⟨hr, hm⟩)
    · exact Or.inr (Or.inr ⟨hr, Or.inl hm⟩)
    · exact Or.inr (Or.inr ⟨hr, Or.inr hm⟩)

/-- C5 at five bodies, with the map visited in the order of the literal and in the
opposite order: a body of no recognized shape is an extraction error, and a body of
each of the four shapes is classified as the operation bound to its key. -/
theorem mapFunctions_classifies_witness :
    (∃ pat, mapFunctions mapper "function(a,b)\x7breturn a\x7d" =
      Res.error (GoError.extract { Caller := "map functions", Pattern := pat })) ∧
    mapFunctions mapper "function(a)\x7ba.reverse()\x7d" = Res.ok Op.reverse ∧
    mapFunctions mapper.reverse "function(a,b)\x7ba.splice(0,b)\x7d" = Res.ok Op.splice ∧
    mapFunctions mapper
      "function(a,b)\x7bvar c=a[0];a[0]=a[b%a.length];a[b]=c\x7d" = Res.ok Op.swap ∧
    mapFunctions mapper.reverse
      "function(a,b)\x7bvar c=a[0];a[0]=a[b%a.length];a[b%a.length]=c\x7d" = Res.ok Op.swap :=
  have classified : ∀ (order : List (Regexp × Op)) (jsFunc : String) (op : Op),
      order.Perm mapper →
      (reversePattern.MatchString jsFunc = true ∨ splicePattern.MatchString jsFunc = true ∨
        swapPattern.MatchString jsFunc = true ∨ swapModPattern.MatchString jsFunc = true) →
      (reversePattern.MatchString jsFunc = true → op = Op.reverse) →
      (splicePattern.MatchString jsFunc = true → op = Op.splice) →
      (swapPattern.MatchString jsFunc = true ∨ swapModPattern.MatchString jsFunc = true →
        op = Op.swap) →
      mapFunctions order jsFunc = Res.ok op := by
    intro order jsFunc op horder hany h1 h2 h3
    rcases (mapFunctions_classifies order jsFunc horder).2 hany with h | h | h
    · rw [h.1, h1 h.2]
    · rw [h.1, h2 h.2]
    · rw [h.1, h3 h.2]
  ⟨(mapFunctions_classifies mapper "function(a,b)\x7breturn a\x7d" (List.Perm.refl _)).1
      (by decide),
   classified mapper _ _ (List.Perm.refl _) (Or.inl (by decide)) (fun _ => rfl)
     (by decide) (by decide),
   classified mapper.reverse _ _ (List.reverse_perm _) (Or.inr (Or.inl (by decide)))
     (by decide) (fun _ => rfl) (by decide),
   classified mapper _ _ (List.Perm.refl _) (Or.inr (Or.inr (Or.inl (by decide))))
     (by decide) (by decide) (fun _ => rfl),
   classified mapper.reverse _ _ (List.reverse_perm _)
     (Or.inr (Or.inr (Or.inr (by decide)))) (by decide) (by decide) (fun _ => rfl)⟩

end decrypt

/-! ## The chunked downloader: claims -/

namespace download

theorem workerRange_of_nonneg (T : Int) (hT : 0 ≤ T) (i : Int) :
    workerRange T i = (T / 10 * i, if i = 9 then T else T / 10 * (i + 1) - 1) := by
  have h : goDiv T 10 = T / 10 := by
    unfold goDiv
    exact Int.tdiv_eq_ediv hT (by decide)
  simp [workerRange, h]

/-- C9: for a total length `T ≥ 0`, every byte offset `x` with `0 ≤ x ≤ T` lies in the
inclusive range `[min_i, max_i]` of exactly one of the ten workers. -/
theorem worker_ranges_cover (T x : Int) (hT : 0 ≤ T) (h0 : 0 ≤ x) (hx : x ≤ T) :
    ∃! i : Nat, i < 10 ∧ (workerRange T i).1 ≤ x ∧ x ≤ (workerRange T i).2 := by
  have hc : 10 * (T / 10) ≤ T ∧ T < 10 * (T / 10) + 10 := by omega
  generalize hcdef : T / 10 = c at hc
  have key : ∀ i : Nat, i < 10 →
      (((workerRange T i).1 ≤ x ∧ x ≤ (workerRange T i).2) ↔
        (c * i ≤ x ∧ x ≤ (if (i : Int) = 9 then T else c * ((i : Int) + 1) - 1))) := by
    intro i _
    rw [workerRange_of_nonneg T hT, hcdef]
  have hex : ∃ i : Nat, i < 10 ∧ c * i ≤ x ∧
      x ≤ (if (i : Int) = 9 then T else c * ((i : Int) + 1) - 1) := by
    by_cases h1 : x < c * 1
    · exact ⟨0, by decide, by simp; omega, by simp; omega⟩
    by_cases h2 : x < c * 2
    · exact ⟨1, by decide, by simp; omega, by simp; omega⟩
    by_cases h3 : x < c * 3
    · exact ⟨2, by decide, by simp; omega, by simp; omega⟩
    by_cases h4 : x < c * 4
    · exact ⟨3, by decide, by simp; omega, by simp; omega⟩
    by_cases h5 : x < c * 5
    · exact ⟨4, by decide, by simp; omega, by simp; omega⟩
    by_cases h6 : x < c * 6
    · exact ⟨5, by decide, by simp; omega, by simp; omega⟩
    by_cases h7 : x < c * 7
    · exact ⟨6, by decide, by simp; omega, by simp; omega⟩
    by_cases h8 : x < c * 8
    · exact ⟨7, by decide, by simp; omega, by simp; omega⟩
    by_cases h9 : x < c * 9
    · exact ⟨8, by decide, by simp; omega, by simp; omega⟩
    · exact ⟨9, by decide, by simp; omega, by simp; omega⟩
  obtain ⟨i, hi, hlo, hhi⟩ := hex
  refine ⟨i, ⟨hi, (key i hi).mpr ⟨hlo, hhi⟩⟩, ?_⟩
  rintro j ⟨hj, hjr⟩
  obtain ⟨hjlo, hjhi⟩ := (key j hj).mp hjr
  interval_cases i <;> interval_cases j <;> simp at hlo hhi hjlo hjhi ⊢ <;> omega

/-- C9 at `T = 25`, `x = 19`: worker 9, whose range is `[18, 25]`, and no other. -/
theorem worker_ranges_cover_witness :
    ∃! i : Nat, i < 10 ∧ (workerRange 25 i).1 ≤ 19 ∧ 19 ≤ (workerRange 25 i).2 :=
  worker_ranges_cover 25 19 (by decide) (by decide) (by decide)

/-- The guard `!overwrite && os.IsExist(err)` of `Download` is false whatever the file
system holds: `os.Stat` returns the nil error for a file that exists and a not-exist
error otherwise. -/
theorem IsExist_Stat (w : World) (path : String) : IsExist (Stat w path) = false := by
  unfold Stat IsExist
  cases w.files path <;> rfl

theorem writeChunks_events (onProgress : Bool) : ∀ (chunks : List Bytes) (w : World),
    ∃ evs, (writeChunks onProgress w chunks).events = w.events ++ evs := by
  intro chunks
  induction chunks with
  | nil => intro w; exact ⟨[], by simp [writeChunks]⟩
  | cons d rest ih =>
    intro w
    cases onProgress with
    | false =>
      obtain ⟨evs, h⟩ := ih { w with written := w.written + d.length }
      exact ⟨evs, by simpa [writeChunks] using h⟩
    | true =>
      obtain ⟨evs, h⟩ := ih (World.emit { w with written := w.written + d.length }
        (Event.onProgress (w.written + d.length)))
      exact ⟨_ :: evs, by simpa [writeChunks, World.emit] using h⟩

theorem worker_events (env : Env) (dlurl : String) (onProgress : Bool) (min max : Int)
    (path : String) (w : World) :
    ∃ evs, (worker env dlurl onProgress min max path w).events = w.events ++ evs := by
  unfold worker
  cases env.Do dlurl (some (min, max)) with
  | none => exact ⟨_, rfl⟩
  | some resp =>
    simp only
    split
    · exact ⟨_, rfl⟩
    · split
      · exact ⟨_, rfl⟩
      · obtain ⟨evs, h⟩ := writeChunks_events onProgress resp.Body
          ((w.emit (Event.request dlurl (some (min, max)))).setFile path (some resp.Body.flatten))
        exact ⟨_ :: evs, by simpa [World.emit, World.setFile] using h⟩

theorem runWorkers_events (env : Env) (dlurl destdir filename : String) (onProgress : Bool)
    (total : Int) : ∀ (order : List Nat) (w : World),
    ∃ evs, (runWorkers env dlurl destdir filename onProgress total order w).events
      = w.events ++ evs := by
  intro order
  induction order with
  | nil => intro w; exact ⟨[], by simp [runWorkers]⟩
  | cons i rest ih =>
    intro w
    obtain ⟨e1, h1⟩ := worker_events env dlurl onProgress (workerRange total i).1
      (workerRange total i).2 (partPath env destdir filename i) w
    obtain ⟨e2, h2⟩ := ih (worker env dlurl onProgress (workerRange total i).1
      (workerRange total i).2 (partPath env destdir filename i) w)
    exact ⟨e1 ++ e2, by simp [runWorkers, h2, h1]⟩

theorem removeAll_events : ∀ (paths : List String) (w : World),
    (removeAll w paths).events = w.events := by
  intro paths
  induction paths with
  | nil => intro w; rfl
  | cons p rest ih => intro w; simp [removeAll, ih, World.setFile]

theorem mergeFiles_events (env : Env) (w : World) (finalpath : String) (paths : List String) :
    (mergeFiles env w finalpath paths).2.events = w.events := by
  unfold mergeFiles
  split
  · rfl
  · simp [removeAll_events, World.setFile]

theorem HttpHead_world (env : Env) (w : World) (u : String) :
    (HttpHead env w u).2 = w.emit (Event.request u none) := by
  unfold HttpHead
  cases env.Do u none with
  | none => rfl
  | some response =>
    simp only
    split <;> rfl

/-- Whatever the file system holds and whatever `overwrite` is, `Download` sends the
first request once the destination directory is resolved. -/
theorem Download_always_requests (env : Env) (order : List Nat) (w : World)
    (dlurl destdir filename ext dir : String) (overwrite onStart onProgress : Bool)
    (hdir : destdir ≠ "") (habs : env.Abs destdir = some dir) :
    ∃ evs, (Download env order w dlurl destdir filename ext overwrite onStart onProgress).2.events
      = w.events ++ Event.request dlurl none :: evs := by
  have hg : IsExist (Stat w (env.Join dir (filename ++ "." ++ ext))) = false := IsExist_Stat _ _
  unfold Download
  simp only [hdir, if_false, habs, hg, Bool.and_false, Bool.false_eq_true]
  have hw := HttpHead_world env w dlurl
  rcases hh : HttpHead env w dlurl with ⟨r, w1⟩
  rw [hh] at hw
  simp only at hw
  subst hw
  cases r with
  | error e => exact ⟨[], by simp [World.emit]⟩
  | ok clen =>
    simp only
    generalize hw2 : (if onStart = true then _ else _ : World) = w2
    have hw2e : ∃ e0, w2.events = w.events ++ Event.request dlurl none :: e0 := by
      subst hw2
      cases onStart with
      | false => exact ⟨[], by simp [World.emit]⟩
      | true =>
        exact ⟨[Event.onStart (if (clen != "") = true then (ParseInt64 clen).1 else 0)],
          by simp [World.emit]⟩
    obtain ⟨e0, he0⟩ := hw2e
    obtain ⟨e1, he1⟩ := runWorkers_events env dlurl dir filename onProgress
      (if (clen != "") = true then (ParseInt64 clen).1 else 0)
      order { w2 with errs := [], written := 0 }
    split
    · exact ⟨e0 ++ e1, by rw [he1]; simp [he0]⟩
    · exact ⟨e0 ++ e1, by rw [mergeFiles_events, he1]; simp [he0]⟩

/-- C10 (the code departs from the claim): with `overwrite` false and the destination
`/d/f.mp4` present, `Download` sends the length request and the ten ranged requests,
reports success, and replaces the three bytes of the file by the merged parts. -/
theorem Download_overwrites_existing_file :
    exampleWorld.files "/d/f.mp4" = some [7, 7, 7] ∧
    (Download exampleEnv (List.range 10) exampleWorld "u" "/d" "f" "mp4" false true true).1
      = ("/d/f.mp4", none) ∧
    (Download exampleEnv (List.range 10) exampleWorld "u" "/d" "f" "mp4" false true true).2.events.head?
      = some (Event.request "u" none) ∧
    ((Download exampleEnv (List.range 10) exampleWorld "u" "/d" "f" "mp4" false true true).2.events.filter
      (fun e => match e with | Event.request _ _ => true | _ => false)).length = 11 ∧
    (Download exampleEnv (List.range 10) exampleWorld "u" "/d" "f" "mp4" false true true).2.files
      "/d/f.mp4" = some [0, 1, 2, 3, 4, 5, 6, 7, 8, 9, 10, 11, 12, 13, 14, 15, 16, 17, 18, 25] := by
  decide

end download

/-! ## The identifier resolver: lemmas and claims -/

theorem matchItems_ones_eot (p : Char → Bool) : ∀ (n : Nat) (cs : List Char),
    (matchItems (List.replicate n (Item.one p) ++ [Item.eot]) cs).isSome = true ↔
      (cs.length = n ∧ ∀ c ∈ cs, p c = true) := by
  intro n
  induction n with
  | zero =>
    intro cs
    cases cs with
    | nil => simp [matchItems]
    | cons c rest => simp [matchItems]
  | succ k ih =>
    intro cs
    cases cs with
    | nil => simp [List.replicate_succ, matchItems]
    | cons c rest =>
      simp only [List.replicate_succ, List.cons_append, matchItems]
      by_cases hc : p c = true
      · simp only [hc, if_true, Option.isSome_map', List.length_cons, List.mem_cons,
          forall_eq_or_imp, true_and, Nat.add_right_cancel_iff]
        exact ih rest
      · simp [hc]

theorem findMatch_isSome (items : List Item) : ∀ cs : List Char,
    (findMatch items cs).isSome = true ↔
      ∃ pre suf, cs = pre ++ suf ∧ (matchItems items suf).isSome = true := by
  intro cs
  induction cs with
  | nil =>
    simp only [findMatch]
    constructor
    · intro h; exact ⟨[], [], rfl, h⟩
    · rintro ⟨pre, suf, h, hm⟩
      have : suf = [] := by
        cases pre with
        | nil => simpa using h.symm
        | cons a l => simp at h
      rw [this] at hm; exact hm
  | cons c rest ih =>
    simp only [findMatch]
    cases hm : matchItems items (c :: rest) with
    | some r =>
      simp only [Option.isSome_some, true_iff]
      exact ⟨[], c :: rest, rfl, by simp [hm]⟩
    | none =>
      simp only
      rw [ih]
      constructor
      · rintro ⟨pre, suf, h, hs⟩
        exact ⟨c :: pre, suf, by simp [h], hs⟩
      · rintro ⟨pre, suf, h, hs⟩
        cases pre with
        | nil =>
          simp only [List.nil_append] at h
          rw [← h, hm] at hs; cases hs
        | cons a l =>
          simp only [List.cons_append, List.cons.injEq] at h
          exact ⟨l, suf, h.2, hs⟩

namespace extract

theorem MatchString_videoIDRe (s : String) :
    videoIDRe.MatchString s = true ↔ EndsWithVideoID s := by
  unfold Regexp.MatchString EndsWithVideoID
  rw [findMatch_isSome]
  constructor
  · rintro ⟨pre, suf, h, hm⟩
    exact ⟨pre, suf, h, (matchItems_ones_eot isIDChar 11 suf).mp hm⟩
  · rintro ⟨pre, suf, h, hm⟩
    exact ⟨pre, suf, h, (matchItems_ones_eot isIDChar 11 suf).mpr hm⟩

theorem MatchString_of_IsVideoID (X : String) (h : IsVideoID X) :
    videoIDRe.MatchString X = true :=
  (MatchString_videoIDRe X).mpr ⟨[], X.toList, rfl, h.1, h.2⟩

theorem ne_empty_of_IsVideoID (X : String) (h : IsVideoID X) : (X != "") = true := by
  have : X ≠ "" := by
    rintro rfl
    have := h.1
    simp at this
  simpa using this

end extract
namespace url

theorem getSchemeLoop_no_colon (rawURL : List Char) : ∀ (cs : List Char) (i : Nat),
    (∀ c ∈ cs, c ≠ ':') → getSchemeLoop rawURL cs i = some ([], rawURL) := by
  intro cs
  induction cs with
  | nil => intro i _; rfl
  | cons c rest ih =>
    intro i h
    have hc : c ≠ ':' := h c (by simp)
    have hr := fun j => ih j (fun d hd => h d (by simp [hd]))
    simp only [getSchemeLoop, hr]
    split
    · rfl
    · split
      · split <;> rfl
      · simp [hc]

theorem cut_none (c : Char) : ∀ s : List Char, (∀ x ∈ s, x ≠ c) → cut c s = none := by
  intro s
  induction s with
  | nil => intro _; rfl
  | cons x rest ih =>
    intro h
    have hx : x ≠ c := h x (by simp)
    simp [cut, hx, ih (fun y hy => h y (by simp [hy]))]

end url

namespace extract

theorem isIDChar_facts (c : Char) (h : isIDChar c = true) :
    c ≠ ':' ∧ c ≠ '?' ∧ c ≠ '/' ∧ c ≠ '*' ∧ ¬ (c.toNat < 32) ∧ c.toNat ≠ 127 := by
  have hv : 48 ≤ c.toNat ∧ c.toNat ≤ 57 ∨ 65 ≤ c.toNat ∧ c.toNat ≤ 90 ∨
      97 ≤ c.toNat ∧ c.toNat ≤ 122 ∨ c.toNat = 95 ∨ c.toNat = 45 := by
    simp only [isIDChar, Bool.or_eq_true, Bool.and_eq_true, decide_eq_true_eq, beq_iff_eq] at h
    rcases h with (((h | h) | h) | h) | h
    · exact Or.inl h
    · exact Or.inr (Or.inl h)
    · exact Or.inr (Or.inr (Or.inl h))
    · subst h; decide
    · subst h; decide
  refine ⟨?_, ?_, ?_, ?_, ?_, ?_⟩
  · rintro rfl; revert h; decide
  · rintro rfl; revert h; decide
  · rintro rfl; revert h; decide
  · rintro rfl; revert h; decide
  · omega
  · omega

/-- A bare video identifier is not a request URI: `url.ParseRequestURI` fails on it
("invalid URI for request"). -/
theorem ParseRequestURI_bare (X : String) (h : IsVideoID X) : url.ParseRequestURI X = none := by
  obtain ⟨hlen, hall⟩ := h
  unfold url.ParseRequestURI url.parse
  generalize X.toList = cs at hlen hall
  have hctl : url.stringContainsCTLByte cs = false := by
    unfold url.stringContainsCTLByte
    rw [List.any_eq_false]
    intro c hc
    have := isIDChar_facts c (hall c hc)
    simp only [Bool.or_eq_true, decide_eq_true_eq, beq_iff_eq, not_or]
    exact ⟨this.2.2.2.2.1, this.2.2.2.2.2⟩
  have hne : cs.isEmpty = false := by
    cases cs with
    | nil => simp at hlen
    | cons a l => rfl
  have hstar : (cs == ['*']) = false := by
    cases cs with
    | nil => rfl
    | cons a l =>
      cases l with
      | nil => simp at hlen
      | cons b l2 => simp
  have hsch : url.getScheme cs = some ([], cs) :=
    url.getSchemeLoop_no_colon cs cs 0 (fun c hc => (isIDChar_facts c (hall c hc)).1)
  have hcut : cut '?' cs = none :=
    url.cut_none '?' cs (fun c hc => (isIDChar_facts c (hall c hc)).2.1)
  have hlast : (cs.getLast? == some '?') = false := by
    cases hl : cs.getLast? with
    | none => rfl
    | some c =>
      have hc : c ∈ cs := List.mem_of_getLast?_eq_some hl
      have := (isIDChar_facts c (hall c hc)).2.1
      simpa using this
  have hhead : (cs.head? == some '/') = false := by
    cases cs with
    | nil => rfl
    | cons a l =>
      have := (isIDChar_facts a (hall a (by simp))).2.2.1
      simpa using this
  simp [hctl, hne, hstar, hsch, hcut, hlast, hhead]

theorem TrimPrefix_slash (X : String) : TrimPrefix ("/" ++ X) "/" = X := by
  have h : ("/" ++ X).toList = '/' :: X.toList := by
    simp [String.toList]
  unfold TrimPrefix
  rw [h]
  simp [String.toList]

end extract
namespace url

theorem cut_append (c : Char) : ∀ (l r : List Char), (∀ x ∈ l, x ≠ c) →
    cut c (l ++ c :: r) = some (l, r) := by
  intro l
  induction l with
  | nil => intro r _; simp [cut]
  | cons x l ih =>
    intro r h
    have hx : x ≠ c := h x (by simp)
    simp [cut, hx, ih r (fun y hy => h y (by simp [hy]))]

theorem cutLast_none (c : Char) : ∀ s : List Char, (∀ x ∈ s, x ≠ c) → cutLast c s = none := by
  intro s
  induction s with
  | nil => intro _; rfl
  | cons x rest ih =>
    intro h
    have hx : x ≠ c := h x (by simp)
    simp [cutLast, hx, ih (fun y hy => h y (by simp [hy]))]

theorem findSub_char_none (c : Char) : ∀ s : List Char, (∀ x ∈ s, x ≠ c) →
    findSub [c] s = none := by
  intro s
  induction s with
  | nil => intro _; simp [findSub]
  | cons x rest ih =>
    intro h
    have hx : ¬ c = x := fun e => h x (by simp) e.symm
    simp [findSub, List.isPrefixOf, hx, ih (fun y hy => h y (by simp [hy]))]

theorem findSub_char_append (c : Char) : ∀ (l r : List Char), (∀ x ∈ l, x ≠ c) →
    findSub [c] (l ++ c :: r) = some (l, c :: r) := by
  intro l
  induction l with
  | nil => intro r _; simp [findSub, List.isPrefixOf]
  | cons x l ih =>
    intro r h
    have hx : ¬ c = x := fun e => h x (by simp) e.symm
    simp [findSub, List.isPrefixOf, hx, ih r (fun y hy => h y (by simp [hy]))]

/-- A text without `%` and `+` and, in a host, without a character that must be
escaped there, is its own unescaped form. -/
theorem unescape_plain (mode : Encoding) : ∀ s : List Char,
    (∀ c ∈ s, c ≠ '%' ∧ c ≠ '+' ∧
      ((mode == Encoding.encodeHost || mode == Encoding.encodeZone) = true →
        shouldEscapeHost c = false)) →
    unescape mode s = some s := by
  intro s
  induction s with
  | nil => intro _; rfl
  | cons c rest ih =>
    intro h
    obtain ⟨h1, h2, h3⟩ := h c (by simp)
    have hr := ih (fun d hd => h d (by simp [hd]))
    unfold unescape
    cases hm : (mode == Encoding.encodeHost || mode == Encoding.encodeZone)
    · simp [h1, h2, hr, hm]
    · simp [h1, h2, h3 hm, hr, hm]

theorem getSchemeLoop_letters (rawURL : List Char) : ∀ (scheme rest : List Char) (i : Nat),
    (∀ c ∈ scheme, (('a' ≤ c && c ≤ 'z') || ('A' ≤ c && c ≤ 'Z')) = true) →
    0 < i + scheme.length →
    getSchemeLoop rawURL (scheme ++ ':' :: rest) i = some (rawURL.take (i + scheme.length), rest) := by
  intro scheme
  induction scheme with
  | nil =>
    intro rest i _ hpos
    have hi : (i == 0) = false := by simp at hpos; simp; omega
    simp [getSchemeLoop, hi]
  | cons c l ih =>
    intro rest i h hpos
    have hc := h c (by simp)
    have := ih rest (i + 1) (fun d hd => h d (by simp [hd])) (by omega)
    have e : i + 1 + l.length = i + (l.length + 1) := by omega
    simp only [List.cons_append, getSchemeLoop, hc, if_true, List.length_cons]
    rw [← e]
    exact this

end url

namespace extract

theorem isNameChar_facts (c : Char) (h : isNameChar c = true) :
    c ≠ ':' ∧ c ≠ '?' ∧ c ≠ '/' ∧ c ≠ '%' ∧ c ≠ '+' ∧ c ≠ '@' ∧ c ≠ '[' ∧ c ≠ '&' ∧ c ≠ ';' ∧
    c ≠ '=' ∧ ¬ (c.toNat < 32) ∧ c.toNat ≠ 127 ∧ url.shouldEscapeHost c = false := by
  have hv : 48 ≤ c.toNat ∧ c.toNat ≤ 57 ∨ 65 ≤ c.toNat ∧ c.toNat ≤ 90 ∨
      97 ≤ c.toNat ∧ c.toNat ≤ 122 ∨ c = '_' ∨ c = '-' ∨ c = '.' := by
    simp only [isNameChar, isIDChar, Bool.or_eq_true, Bool.and_eq_true, decide_eq_true_eq,
      beq_iff_eq] at h
    tauto
  have hne : ∀ d : Char, isNameChar d = false → c ≠ d := by
    intro d hd e; subst e; rw [h] at hd; cases hd
  refine ⟨hne _ (by decide), hne _ (by decide), hne _ (by decide), hne _ (by decide),
    hne _ (by decide), hne _ (by decide), hne _ (by decide), hne _ (by decide),
    hne _ (by decide), hne _ (by decide), ?_, ?_, ?_⟩
  · rcases hv with hv | hv | hv | rfl | rfl | rfl <;> first | omega | decide
  · rcases hv with hv | hv | hv | rfl | rfl | rfl <;> first | omega | decide
  · rcases hv with hv | hv | hv | rfl | rfl | rfl
    · have : (('0' ≤ c && c ≤ '9') : Bool) = true := by
        simp only [Bool.and_eq_true, decide_eq_true_eq]
        exact ⟨hv.1, hv.2⟩
      simp [url.shouldEscapeHost, this]
    · have : (('A' ≤ c && c ≤ 'Z') : Bool) = true := by
        simp only [Bool.and_eq_true, decide_eq_true_eq]
        exact ⟨hv.1, hv.2⟩
      simp [url.shouldEscapeHost, this]
    · have : (('a' ≤ c && c ≤ 'z') : Bool) = true := by
        simp only [Bool.and_eq_true, decide_eq_true_eq]
        exact ⟨hv.1, hv.2⟩
      simp [url.shouldEscapeHost, this]
    · decide
    · decide
    · decide

theorem isIDChar_isNameChar (c : Char) (h : isIDChar c = true) : isNameChar c = true := by
  simp [isNameChar, h]

/-- A URL written out plainly parses into its scheme in lower case, its host and its
path; `tail` is empty or a question mark followed by a query of identifier characters
and equals signs. -/
theorem parse_plain (u : PlainURL) (hu : u.WellFormed) (tail : List Char)
    (ht : tail = [] ∨ ∃ q, tail = '?' :: q ∧ q ≠ [] ∧
      ∀ c ∈ q, (isIDChar c || c == '=') = true) :
    url.parse (u.scheme ++ "://".toList ++ u.host ++ u.path ++ tail) =
      some { Scheme := String.mk (u.scheme.map Char.toLower), Opaque := "",
             Host := String.mk u.host, Path := String.mk u.path,
             RawQuery := String.mk (tail.drop 1) } := by
  obtain ⟨hsne, hsl, hh, hp0, hp⟩ := hu
  obtain ⟨s0, sl, hs⟩ := List.exists_cons_of_ne_nil hsne
  -- facts on the characters
  have hpath : ∀ c ∈ u.path, c ≠ '?' ∧ c ≠ '%' ∧ c ≠ '+' ∧ ¬ (c.toNat < 32) ∧ c.toNat ≠ 127 := by
    intro c hc
    have := hp c hc
    simp only [Bool.or_eq_true, beq_iff_eq] at this
    rcases this with h | rfl
    · have f := isNameChar_facts c h
      exact ⟨f.2.1, f.2.2.2.1, f.2.2.2.2.1, f.2.2.2.2.2.2.2.2.2.2.1, f.2.2.2.2.2.2.2.2.2.2.2.1⟩
    · decide
  have hq : ∀ c, (isIDChar c || c == '=') = true →
      c ≠ '?' ∧ c ≠ '&' ∧ c ≠ ';' ∧ c ≠ '%' ∧ c ≠ '+' ∧ ¬ (c.toNat < 32) ∧ c.toNat ≠ 127 := by
    intro c hc
    simp only [Bool.or_eq_true, beq_iff_eq] at hc
    rcases hc with h | rfl
    · have f := isNameChar_facts c (isIDChar_isNameChar c h)
      exact ⟨f.2.1, f.2.2.2.2.2.2.2.1, f.2.2.2.2.2.2.2.2.1, f.2.2.2.1, f.2.2.2.2.1,
        f.2.2.2.2.2.2.2.2.2.2.1, f.2.2.2.2.2.2.2.2.2.2.2.1⟩
    · decide
  have hletter : ∀ c ∈ u.scheme, ¬ (c.toNat < 32) ∧ c.toNat ≠ 127 := by
    intro c hc
    have := hsl c hc
    simp only [Bool.or_eq_true, Bool.and_eq_true, decide_eq_true_eq] at this
    have h1 : ('a' : Char).toNat = 97 := rfl
    have h2 : ('z' : Char).toNat = 122 := rfl
    have h3 : ('A' : Char).toNat = 65 := rfl
    have h4 : ('Z' : Char).toNat = 90 := rfl
    rcases this with ⟨a, b⟩ | ⟨a, b⟩
    · have a1 : 97 ≤ c.toNat := a
      have b1 : c.toNat ≤ 122 := b
      omega
    · have a1 : 65 ≤ c.toNat := a
      have b1 : c.toNat ≤ 90 := b
      omega
  have htail : ∀ c ∈ tail, ¬ (c.toNat < 32) ∧ c.toNat ≠ 127 := by
    intro c hc
    rcases ht with rfl | ⟨q, rfl, _, hqq⟩
    · cases hc
    · rcases List.mem_cons.mp hc with rfl | hc
      · decide
      · have := hq c (hqq c hc)
        exact ⟨this.2.2.2.2.2.1, this.2.2.2.2.2.2⟩
  -- the steps of `parse`
  have hctl : url.stringContainsCTLByte
      (u.scheme ++ "://".toList ++ u.host ++ u.path ++ tail) = false := by
    unfold url.stringContainsCTLByte
    rw [List.any_eq_false]
    intro c hc
    have hc2 : ¬ (c.toNat < 32) ∧ c.toNat ≠ 127 := by
      simp only [List.mem_append] at hc
      rcases hc with (((hc | hc) | hc) | hc) | hc
      · exact hletter c hc
      · have : c = ':' ∨ c = '/' := by
          simp [String.toList] at hc
          rcases hc with h | h
          · exact Or.inl h
          · exact Or.inr h
        rcases this with rfl | rfl <;> decide
      · have f := isNameChar_facts c (hh c hc)
        exact ⟨f.2.2.2.2.2.2.2.2.2.2.1, f.2.2.2.2.2.2.2.2.2.2.2.1⟩
      · have f := hpath c hc
        exact ⟨f.2.2.2.1, f.2.2.2.2⟩
      · exact htail c hc
    simp only [Bool.or_eq_true, decide_eq_true_eq, beq_iff_eq, not_or]
    exact hc2
  have htext : u.scheme ++ "://".toList ++ u.host ++ u.path ++ tail =
      u.scheme ++ ':' :: ('/' :: '/' :: (u.host ++ u.path ++ tail)) := by
    simp [String.toList]
  have hsch : url.getScheme (u.scheme ++ ':' :: ('/' :: '/' :: (u.host ++ u.path ++ tail))) =
      some (u.scheme, '/' :: '/' :: (u.host ++ u.path ++ tail)) := by
    unfold url.getScheme
    have := url.getSchemeLoop_letters
      (u.scheme ++ ':' :: ('/' :: '/' :: (u.host ++ u.path ++ tail))) u.scheme
      ('/' :: '/' :: (u.host ++ u.path ++ tail)) 0 hsl (by rw [hs]; simp)
    rw [this]
    simp
  have hhost : ∀ c ∈ u.host, c ≠ '?' ∧ c ≠ '/' ∧ c ≠ '@' ∧ c ≠ ':' ∧ c ≠ '[' := by
    intro c hc
    have f := isNameChar_facts c (hh c hc)
    exact ⟨f.2.1, f.2.2.1, f.2.2.2.2.2.1, f.1, f.2.2.2.2.2.2.1⟩
  have hnoq : ∀ c ∈ '/' :: '/' :: (u.host ++ u.path), c ≠ '?' := by
    intro c hc
    simp only [List.mem_cons, List.mem_append] at hc
    rcases hc with rfl | rfl | hc | hc
    · decide
    · decide
    · exact (hhost c hc).1
    · exact (hpath c hc).1
  have hsplit : (if (('/' :: '/' :: (u.host ++ u.path ++ tail)).getLast? == some '?' &&
        ('/' :: '/' :: (u.host ++ u.path ++ tail)).count '?' == 1) = true
      then (('/' :: '/' :: (u.host ++ u.path ++ tail)).dropLast, ([] : List Char))
      else match cut '?' ('/' :: '/' :: (u.host ++ u.path ++ tail)) with
        | some (a, b) => (a, b)
        | none => ('/' :: '/' :: (u.host ++ u.path ++ tail), [])) =
      ('/' :: '/' :: (u.host ++ u.path), tail.drop 1) := by
    rcases ht with rfl | ⟨q, rfl, hqne, hqq⟩
    · have hlast : (('/' :: '/' :: (u.host ++ u.path ++ [])).getLast? == some '?') = false := by
        cases hl : ('/' :: '/' :: (u.host ++ u.path ++ [])).getLast? with
        | none => rfl
        | some c =>
          have hc : c ∈ '/' :: '/' :: (u.host ++ u.path ++ []) := List.mem_of_getLast?_eq_some hl
          rw [List.append_nil] at hc
          have := hnoq c hc
          simpa using this
      rw [hlast]
      simp only [Bool.false_and, Bool.false_eq_true, if_false, List.append_nil]
      rw [url.cut_none '?' _ hnoq]
      rfl
    · have hlast : (('/' :: '/' :: (u.host ++ u.path ++ '?' :: q)).getLast? == some '?')
          = false := by
        obtain ⟨q0, ql, hqe⟩ := List.exists_cons_of_ne_nil hqne
        have e : '/' :: '/' :: (u.host ++ u.path ++ '?' :: q) =
            ('/' :: '/' :: (u.host ++ u.path ++ ['?'])) ++ q := by simp
        rw [e, List.getLast?_append_of_ne_nil _ hqne]
        cases hl : q.getLast? with
        | none => rfl
        | some c =>
          have hc : c ∈ q := List.mem_of_getLast?_eq_some hl
          have := (hq c (hqq c hc)).1
          simpa using this
      rw [hlast]
      simp only [Bool.false_and, Bool.false_eq_true, if_false]
      have e : '/' :: '/' :: (u.host ++ u.path ++ '?' :: q) =
          ('/' :: '/' :: (u.host ++ u.path)) ++ '?' :: q := by simp
      rw [e, url.cut_append '?' _ q hnoq]
      rfl
  have hfind : (match findSub ['/'] (u.host ++ u.path) with
      | some (a, b) => (a, b)
      | none => (u.host ++ u.path, [])) = (u.host, u.path) := by
    rcases hp0 with h0 | h0
    · rw [h0, List.append_nil, url.findSub_char_none '/' _ (fun c hc => (hhost c hc).2.1)]
    · cases hpe : u.path with
      | nil => rw [hpe] at h0; cases h0
      | cons a p =>
        rw [hpe] at h0
        simp only [List.head?_cons, Option.some.injEq] at h0
        subst h0
        rw [url.findSub_char_append '/' _ p (fun c hc => (hhost c hc).2.1)]
  have hauth : url.parseAuthority u.host = some u.host := by
    unfold url.parseAuthority
    rw [url.cutLast_none '@' _ (fun c hc => (hhost c hc).2.2.1)]
    simp only
    unfold url.parseHost
    have hnb : u.host.contains '[' = false := by
      rw [List.contains_eq_any_beq, List.any_eq_false]
      intro c hc
      have := (hhost c hc).2.2.2.2
      simpa using fun e => this e.symm
    rw [hnb]
    simp only [Bool.false_eq_true, if_false]
    rw [url.cut_none ':' _ (fun c hc => (hhost c hc).2.2.2.1)]
    simp only
    apply url.unescape_plain
    intro c hc
    have f := isNameChar_facts c (hh c hc)
    exact ⟨f.2.2.2.1, f.2.2.2.2.1, fun _ => f.2.2.2.2.2.2.2.2.2.2.2.2⟩
  have hupath : url.unescape url.Encoding.encodePath u.path = some u.path := by
    apply url.unescape_plain
    intro c hc
    have f := hpath c hc
    exact ⟨f.2.1, f.2.2.1, fun h => by cases h⟩
  have hne : (u.scheme ++ ':' :: ('/' :: '/' :: (u.host ++ u.path ++ tail))).isEmpty = false := by
    rw [hs]; rfl
  have hstar : (u.scheme ++ ':' :: ('/' :: '/' :: (u.host ++ u.path ++ tail)) == ['*']) = false := by
    rw [hs]; simp
  have hlow : (u.scheme.map Char.toLower).isEmpty = false := by
    rw [hs]; rfl
  rw [htext] at hctl ⊢
  unfold url.parse
  simp only [hctl, hne, hstar, hsch, Bool.false_eq_true, if_false]
  rw [hsplit]
  simp only [List.head?_cons, beq_self_eq_true, Bool.not_true, Bool.false_eq_true, if_false,
    hlow, Bool.not_false, Bool.true_and]
  have hpre : "//".toList.isPrefixOf ('/' :: '/' :: (u.host ++ u.path)) = true := by
    simp [String.toList, List.isPrefixOf]
  simp only [hpre, if_true, List.drop_succ_cons, List.drop_zero, hfind, hauth, hupath]

theorem Hostname_plain (scheme : String) (host : List Char) (path query : String)
    (hh : ∀ c ∈ host, isNameChar c = true) :
    url.URL.Hostname { Scheme := scheme, Opaque := "", Host := String.mk host, Path := path,
                       RawQuery := query } = String.mk host := by
  unfold url.URL.Hostname url.splitHostPort
  have h1 : cutLast ':' host = none :=
    url.cutLast_none ':' _ (fun c hc => (isNameChar_facts c (hh c hc)).1)
  have h2 : (host.head? == some '[') = false := by
    cases host with
    | nil => rfl
    | cons a l =>
      have := (isNameChar_facts a (hh a (by simp))).2.2.2.2.2.2.1
      simpa using this
  simp [String.toList, h1, h2]

theorem Query_v (scheme host path : String) (cs : List Char)
    (hcs : ∀ c ∈ cs, isIDChar c = true) :
    url.Get (url.URL.Query { Scheme := scheme, Opaque := "", Host := host, Path := path,
                             RawQuery := String.mk ('v' :: '=' :: cs) }) "v" = String.mk cs := by
  have hfacts : ∀ c ∈ cs, c ≠ '&' ∧ c ≠ ';' ∧ c ≠ '=' ∧ c ≠ '%' ∧ c ≠ '+' := by
    intro c hc
    have f := isNameChar_facts c (isIDChar_isNameChar c (hcs c hc))
    exact ⟨f.2.2.2.2.2.2.2.1, f.2.2.2.2.2.2.2.2.1, f.2.2.2.2.2.2.2.2.2.1, f.2.2.2.1,
      f.2.2.2.2.1⟩
  have hcutamp : cut '&' ('v' :: '=' :: cs) = none := by
    apply url.cut_none
    intro c hc
    simp only [List.mem_cons] at hc
    rcases hc with rfl | rfl | hc
    · decide
    · decide
    · exact (hfacts c hc).1
  have hsemi : ('v' :: '=' :: cs).contains ';' = false := by
    rw [List.contains_eq_any_beq, List.any_eq_false]
    intro c hc
    simp only [List.mem_cons] at hc
    have : c ≠ ';' := by
      rcases hc with rfl | rfl | hc
      · decide
      · decide
      · exact (hfacts c hc).2.1
    simpa using fun e => this e.symm
  have hcuteq : cut '=' ('v' :: '=' :: cs) = some (['v'], cs) :=
    url.cut_append '=' ['v'] cs (by intro c hc; simp at hc; subst hc; decide)
  have hux : url.unescape url.Encoding.encodeQueryComponent cs = some cs := by
    apply url.unescape_plain
    intro c hc
    exact ⟨(hfacts c hc).2.2.2.1, (hfacts c hc).2.2.2.2, fun h => by cases h⟩
  have huv : url.unescape url.Encoding.encodeQueryComponent ['v'] = some ['v'] := by decide
  have hnext : ∀ n, url.parseQueryLoop n [] = [] := by
    intro n; cases n <;> rfl
  have hq : url.parseQueryLoop (('v' :: '=' :: cs).length) ('v' :: '=' :: cs) =
      [(String.mk ['v'], String.mk cs)] := by
    simp only [List.length_cons]
    unfold url.parseQueryLoop
    simp only [List.isEmpty_cons, Bool.false_eq_true, if_false, hcutamp, hsemi, hcuteq, huv, hux,
      hnext]
  unfold url.URL.Query
  change url.Get (url.parseQueryLoop (('v' :: '=' :: cs).length) ('v' :: '=' :: cs)) "v" = _
  rw [hq]
  rfl

/-- C6, as amended: for every 11-character token `X` over `[0-9A-Za-z_-]`, `VideoID`
returns `X` without error on a URL whose hostname contains `youtube.com` and whose `v`
query parameter is `X`, on a URL whose hostname contains `youtu.be` but not
`youtube.com` and whose path is `/X`, and on the bare token `X`.  The first two hold for
every text `url.ParseRequestURI` accepts; among them are the texts
`scheme://host/path?v=X` and `scheme://host/X` written out plainly, for every scheme of
letters and every host and path of letters, digits, `-`, `_` and dots. -/
theorem VideoID_recognized_forms (X : String) (hX : IsVideoID X) :
    (∀ text u, url.ParseRequestURI text = some u → Contains u.Hostname "youtube.com" = true →
      url.Get u.Query "v" = X → VideoID text = (X, none)) ∧
    (∀ text u, url.ParseRequestURI text = some u → Contains u.Hostname "youtube.com" = false →
      Contains u.Hostname "youtu.be" = true → u.Path = "/" ++ X → VideoID text = (X, none)) ∧
    VideoID X = (X, none) ∧
    (∀ p : PlainURL, p.WellFormed → Contains (String.mk p.host) "youtube.com" = true →
      VideoID (p.text ("?v=" ++ X)) = (X, none)) ∧
    (∀ p : PlainURL, p.WellFormed → p.path = [] →
      Contains (String.mk p.host) "youtube.com" = false →
      Contains (String.mk p.host) "youtu.be" = true →
      VideoID (p.text ("/" ++ X)) = (X, none)) := by
  have hm := MatchString_of_IsVideoID X hX
  have hne := ne_empty_of_IsVideoID X hX
  have h1 : ∀ text u, url.ParseRequestURI text = some u →
      Contains u.Hostname "youtube.com" = true →
      url.Get u.Query "v" = X → VideoID text = (X, none) := by
    intro text u hp hhost hv
    simp only [VideoID, hp, hhost, if_true, hv, hne, hm, Bool.and_self]
  have h2 : ∀ text u, url.ParseRequestURI text = some u →
      Contains u.Hostname "youtube.com" = false →
      Contains u.Hostname "youtu.be" = true → u.Path = "/" ++ X → VideoID text = (X, none) := by
    intro text u hp hhost hshort hpath
    simp only [VideoID, hp, hhost, hshort, if_true, hpath, TrimPrefix_slash, hne, hm,
      Bool.and_self, Bool.false_eq_true, if_false]
  refine ⟨h1, h2, ?_, ?_, ?_⟩
  · simp only [VideoID, ParseRequestURI_bare X hX, hm, if_true]
  · intro p hp hhost
    have htail : ("?v=" ++ X).toList = '?' :: 'v' :: '=' :: X.toList := by
      simp [String.toList]
    have hparse := parse_plain p hp ('?' :: 'v' :: '=' :: X.toList)
      (Or.inr ⟨'v' :: '=' :: X.toList, rfl, by simp, by
        intro c hc
        simp only [List.mem_cons] at hc
        rcases hc with rfl | rfl | hc
        · decide
        · decide
        · simp [hX.2 c hc]⟩)
    apply h1 _ _ (by
      unfold url.ParseRequestURI PlainURL.text
      rw [htail]
      exact hparse)
    · rw [Hostname_plain _ _ _ _ hp.2.2.1]
      exact hhost
    · exact Query_v _ _ _ X.toList hX.2
  · intro p hp hpath hhost hshort
    have htail : ("/" ++ X).toList = '/' :: X.toList := by
      simp [String.toList]
    have hp2 : (PlainURL.mk p.scheme p.host ('/' :: X.toList)).WellFormed := by
      refine ⟨hp.1, hp.2.1, hp.2.2.1, Or.inr rfl, ?_⟩
      intro c hc
      simp only [List.mem_cons] at hc
      rcases hc with rfl | hc
      · decide
      · simp [isIDChar_isNameChar c (hX.2 c hc)]
    have hparse := parse_plain (PlainURL.mk p.scheme p.host ('/' :: X.toList)) hp2 []
      (Or.inl rfl)
    simp only [List.append_nil] at hparse
    apply h2 _ _ (by
      unfold url.ParseRequestURI PlainURL.text
      rw [htail, hpath, List.append_nil]
      exact hparse)
    · rw [Hostname_plain _ _ _ _ hp.2.2.1]
      exact hhost
    · rw [Hostname_plain _ _ _ _ hp.2.2.1]
      exact hshort
    · simp only
      rfl

/-- C6, the three forms of the identifier `ABCDEFGHIJK`: by the URLs the parser reads,
and by the plainly written texts at the hosts `www.youtube.com` and `youtu.be`. -/
theorem VideoID_recognized_forms_witness :
    VideoID "https://youtube.com/watch?v=ABCDEFGHIJK" = ("ABCDEFGHIJK", none) ∧
    VideoID "https://youtu.be/ABCDEFGHIJK" = ("ABCDEFGHIJK", none) ∧
    VideoID "ABCDEFGHIJK" = ("ABCDEFGHIJK", none) ∧
    VideoID "http://www.youtube.com/watch?v=ABCDEFGHIJK" = ("ABCDEFGHIJK", none) ∧
    VideoID "HTTPS://youtu.be/ABCDEFGHIJK" = ("ABCDEFGHIJK", none) :=
  have h := VideoID_recognized_forms "ABCDEFGHIJK" (by decide)
  ⟨h.1 "https://youtube.com/watch?v=ABCDEFGHIJK"
      { Scheme := "https", Opaque := "", Host := "youtube.com", Path := "/watch",
        RawQuery := "v=ABCDEFGHIJK" } (by decide) (by decide) (by decide),
   h.2.1 "https://youtu.be/ABCDEFGHIJK"
      { Scheme := "https", Opaque := "", Host := "youtu.be", Path := "/ABCDEFGHIJK",
        RawQuery := "" } (by decide) (by decide) (by decide) (by decide),
   h.2.2.1,
   h.2.2.2.1 { scheme := "http".toList, host := "www.youtube.com".toList,
               path := "/watch".toList } (by decide) (by decide),
   h.2.2.2.2 { scheme := "HTTPS".toList, host := "youtu.be".toList, path := [] }
     (by decide) rfl (by decide) (by decide)⟩

/-- C6 as stated fails: the hostname of `https://youtube.com.youtu.be/ABCDEFGHIJK`
contains `youtu.be` and the path is `/ABCDEFGHIJK`, yet `VideoID` returns the error,
because the hostname also contains `youtube.com` and the URL has no `v` parameter. -/
theorem VideoID_short_host_counterexample :
    (url.ParseRequestURI "https://youtube.com.youtu.be/ABCDEFGHIJK").map
        (fun u => (Contains u.Hostname "youtu.be", u.Path)) = some (true, "/ABCDEFGHIJK") ∧
    VideoID "https://youtube.com.youtu.be/ABCDEFGHIJK" = ("", some videoIDError) := by
  decide

/-- The host of a URL in square brackets: `[youtube.com]` is not an IPv6 address, the
URL is rejected, and `VideoID` returns the whole text, which ends in an identifier;
`[::1]:8080` and a zone after `%25` are accepted. -/
theorem VideoID_bracketed_host :
    url.ParseRequestURI "http://[youtube.com]/watch?v=ABCDEFGHIJK" = none ∧
    VideoID "http://[youtube.com]/watch?v=ABCDEFGHIJK" =
      ("http://[youtube.com]/watch?v=ABCDEFGHIJK", none) ∧
    (url.ParseRequestURI "http://[::1]:8080/watch?v=ABCDEFGHIJK").map url.URL.Hostname =
      some "::1" ∧
    (url.ParseRequestURI "http://[fe80::1%25en0]/watch?v=ABCDEFGHIJK").map url.URL.Hostname =
      some "fe80::1%en0" ∧
    url.ParseRequestURI "http://youtube.com:80:80/watch?v=ABCDEFGHIJK" = none := by
  decide

/-- C7, as amended: whenever `VideoID` returns without error, the identifier it
returns ends with 11 characters of `[0-9A-Za-z_-]` (it is at least 11 characters long;
what precedes the last 11 is not checked). -/
theorem VideoID_returns_id_suffix (text id : String) (h : VideoID text = (id, none)) :
    EndsWithVideoID id := by
  unfold VideoID at h
  simp only at h
  split at h
  · split at h
    · next hm =>
      simp only [Prod.mk.injEq, and_true] at h
      subst h
      exact (MatchString_videoIDRe _).mp hm
    · simp at h
  · split at h
    · split at h
      · next hm =>
        simp only [Prod.mk.injEq, and_true] at h
        subst h
        simp only [Bool.and_eq_true] at hm
        exact (MatchString_videoIDRe _).mp hm.2
      · simp at h
    · split at h
      · split at h
        · next hm =>
          simp only [Prod.mk.injEq, and_true] at h
          subst h
          simp only [Bool.and_eq_true] at hm
          exact (MatchString_videoIDRe _).mp hm.2
        · simp at h
      · simp at h

/-- C7 at the 16-character input `0123456789ABCDEF`: what is returned ends with an
identifier. -/
theorem VideoID_returns_id_suffix_witness : EndsWithVideoID "0123456789ABCDEF" :=
  VideoID_returns_id_suffix "0123456789ABCDEF" "0123456789ABCDEF" (by decide)

/-- C7 as stated fails: on the bare text `0123456789ABCDEF` `VideoID` returns without
error an identifier of 16 characters. -/
theorem VideoID_long_id_counterexample :
    VideoID "0123456789ABCDEF" = ("0123456789ABCDEF", none) ∧
    "0123456789ABCDEF".length = 16 := by
  decide

end extract

theorem cut_eq (c : Char) : ∀ (s a b : List Char), cut c s = some (a, b) → s = a ++ c :: b := by
  intro s
  induction s with
  | nil => intro a b h; simp [cut] at h
  | cons x rest ih =>
    intro a b h
    unfold cut at h
    split at h
    · next hx =>
      simp only [Option.some.injEq, Prod.mk.injEq] at h
      have : x = c := by simpa using hx
      rw [← h.1, ← h.2, this]; rfl
    · split at h
      · next a1 b1 h1 =>
        simp only [Option.some.injEq, Prod.mk.injEq] at h
        rw [← h.1, ← h.2, ih a1 b1 h1]; rfl
      · cases h

theorem cutLast_eq (c : Char) : ∀ (s a b : List Char),
    cutLast c s = some (a, b) → s = a ++ c :: b := by
  intro s
  induction s with
  | nil => intro a b h; simp [cutLast] at h
  | cons x rest ih =>
    intro a b h
    unfold cutLast at h
    split at h
    · next a1 b1 h1 =>
      simp only [Option.some.injEq, Prod.mk.injEq] at h
      rw [← h.1, ← h.2, ih a1 b1 h1]; rfl
    · split at h
      · next hx =>
        simp only [Option.some.injEq, Prod.mk.injEq] at h
        have : x = c := by simpa using hx
        rw [← h.1, ← h.2, this]; rfl
      · cases h

theorem findSub_eq (sub : List Char) : ∀ (s a b : List Char),
    findSub sub s = some (a, b) → s = a ++ b ∧ sub.length ≤ b.length := by
  intro s
  induction s with
  | nil =>
    intro a b h
    unfold findSub at h
    split at h
    · next he =>
      simp only [Option.some.injEq, Prod.mk.injEq] at h
      have : sub = [] := by simpa using he
      rw [← h.1, ← h.2, this]; simp
    · cases h
  | cons x rest ih =>
    intro a b h
    unfold findSub at h
    split at h
    · next hp =>
      simp only [Option.some.injEq, Prod.mk.injEq] at h
      rw [← h.1, ← h.2]
      exact ⟨rfl, (List.isPrefixOf_iff_prefix.mp hp).length_le⟩
    · split at h
      · next a1 b1 h1 =>
        simp only [Option.some.injEq, Prod.mk.injEq] at h
        obtain ⟨e, hl⟩ := ih a1 b1 h1
        rw [← h.1, ← h.2, e]
        exact ⟨rfl, hl⟩
      · cases h

theorem Contains_length (s sub : String) (h : Contains s sub = true) :
    sub.toList.length ≤ s.toList.length := by
  change (findSub sub.toList s.toList).isSome = true at h
  cases hf : findSub sub.toList s.toList with
  | none => rw [hf] at h; cases h
  | some ab =>
    obtain ⟨a, b⟩ := ab
    obtain ⟨e, hl⟩ := findSub_eq _ _ _ _ hf
    rw [e, List.length_append]
    omega

namespace url

theorem unescape_length (mode : Encoding) : ∀ (n : Nat) (s t : List Char),
    s.length ≤ n → unescape mode s = some t → t.length ≤ s.length := by
  intro n
  induction n with
  | zero =>
    intro s t hs h
    have : s = [] := List.eq_nil_of_length_eq_zero (by omega)
    subst this
    simp only [unescape, Option.some.injEq] at h
    subst h; simp
  | succ k ih =>
    intro s t hs h
    cases s with
    | nil =>
      simp only [unescape, Option.some.injEq] at h
      subst h; simp
    | cons c rest =>
      unfold unescape at h
      split at h
      · split at h
        · next h1 h2 rest2 =>
          split at h
          · cases h
          · split at h
            · cases h
            · split at h
              · cases h
              · split at h
                · next t2 ht2 =>
                  simp only [Option.some.injEq] at h
                  subst h
                  have := ih rest2 t2 (by simp at hs; omega) ht2
                  simp; omega
                · cases h
        · cases h
      · split at h
        · split at h
          · next t2 ht2 =>
            simp only [Option.some.injEq] at h
            subst h
            have := ih rest t2 (by simp at hs; omega) ht2
            simp; omega
          · cases h
        · split at h
          · cases h
          · split at h
            · next t2 ht2 =>
              simp only [Option.some.injEq] at h
              subst h
              have := ih rest t2 (by simp at hs; omega) ht2
              simp; omega
            · cases h

theorem unescape_le (mode : Encoding) (s t : List Char) (h : unescape mode s = some t) :
    t.length ≤ s.length :=
  unescape_length mode s.length s t (le_refl _) h

theorem parseHost_length (host r : List Char) (h : parseHost host = some r) :
    r.length ≤ host.length := by
  unfold parseHost at h
  split at h
  · split at h
    · cases h
    · next hbr =>
      have hlen : host.length = host.tail.length + 1 := by
        cases host with
        | nil => simp at hbr
        | cons a l => simp
      split at h
      · cases h
      · next hostname colonPort hcl =>
        have e := cutLast_eq _ _ _ _ hcl
        split at h
        · cases h
        · simp only at h
          have hparts : ∀ u, (match findSub "%25".toList hostname with
              | some (h1, zone) =>
                match unescape Encoding.encodeHost h1, unescape Encoding.encodeZone zone with
                | some hostPart, some zonePart => some (hostPart ++ zonePart)
                | _, _ => none
              | none => unescape Encoding.encodeHost hostname) = some u →
              u.length ≤ hostname.length := by
            intro u hu
            split at hu
            · next h1 zone hz =>
              obtain ⟨e2, _⟩ := findSub_eq _ _ _ _ hz
              split at hu
              · next hostPart zonePart u1 u2 =>
                simp only [Option.some.injEq] at hu
                subst hu
                have l1 := unescape_le _ _ _ u1
                have l2 := unescape_le _ _ _ u2
                rw [e2]
                simp only [List.length_append]
                omega
              · cases hu
            · exact unescape_le _ _ _ hu
          split at h
          · next port u hport hu =>
            have l1 := unescape_le _ _ _ hport
            have l2 := hparts u hu
            split at h
            · simp only [Option.some.injEq] at h
              subst h
              rw [hlen, e]
              simp only [List.length_append, List.length_cons]
              omega
            · cases h
          · cases h
  · split at h
    · split at h
      · cases h
      · exact unescape_le _ _ _ h
    · exact unescape_le _ _ _ h

theorem parseAuthority_length (authority r : List Char) (h : parseAuthority authority = some r) :
    r.length ≤ authority.length := by
  unfold parseAuthority at h
  split at h
  · exact parseHost_length _ _ h
  · next userinfo hostpart hcl =>
    have e := cutLast_eq _ _ _ _ hcl
    have key : ∀ host, parseHost hostpart = some host → host.length ≤ authority.length := by
      intro host hh
      have := parseHost_length _ _ hh
      rw [e]; simp only [List.length_append, List.length_cons]; omega
    split at h
    · cases h
    · next host hh =>
      split at h
      · cases h
      · split at h
        · split at h
          · simp only [Option.some.injEq] at h; subst h; exact key _ hh
          · cases h
        · split at h
          · simp only [Option.some.injEq] at h; subst h; exact key _ hh
          · cases h

theorem getSchemeLoop_length (rawURL : List Char) : ∀ (cs : List Char) (i : Nat)
    (sch rest : List Char), cs.length + i = rawURL.length →
    getSchemeLoop rawURL cs i = some (sch, rest) →
    (sch = [] ∧ rest = rawURL) ∨ rest.length + 2 ≤ rawURL.length := by
  intro cs
  induction cs with
  | nil =>
    intro i sch rest _ h
    simp only [getSchemeLoop, Option.some.injEq, Prod.mk.injEq] at h
    exact Or.inl ⟨h.1.symm, h.2.symm⟩
  | cons c tl ih =>
    intro i sch rest hlen h
    simp only [List.length_cons] at hlen
    unfold getSchemeLoop at h
    split at h
    · exact ih (i + 1) sch rest (by omega) h
    · split at h
      · split at h
        · simp only [Option.some.injEq, Prod.mk.injEq] at h
          exact Or.inl ⟨h.1.symm, h.2.symm⟩
        · exact ih (i + 1) sch rest (by omega) h
      · split at h
        · split at h
          · cases h
          · next hi =>
            simp only [Option.some.injEq, Prod.mk.injEq] at h
            have hi0 : i ≠ 0 := by simpa using hi
            right
            rw [← h.2]; omega
        · simp only [Option.some.injEq, Prod.mk.injEq] at h
          exact Or.inl ⟨h.1.symm, h.2.symm⟩

theorem splitHostPort_length (hostport : List Char) :
    (splitHostPort hostport).length ≤ hostport.length := by
  unfold splitHostPort
  have h1 : (match cutLast ':' hostport with
      | some (h, port) => if validOptionalPort (':' :: port) then h else hostport
      | none => hostport).length ≤ hostport.length := by
    split
    · next h port hcl =>
      have e := cutLast_eq _ _ _ _ hcl
      split
      · rw [e]; simp
      · exact le_refl _
    · exact le_refl _
  simp only
  split
  · simp only [List.length_dropLast, List.length_drop]; omega
  · exact h1

theorem parse_host_length (rawURL : List Char) (u : URL) (h : parse rawURL = some u) :
    u.Host.toList.length = 0 ∨ u.Host.toList.length + 4 ≤ rawURL.length := by
  unfold parse at h
  split at h
  · cases h
  · split at h
    · cases h
    · split at h
      · simp only [Option.some.injEq] at h; subst h; exact Or.inl rfl
      · split at h
        · cases h
        · next scheme0 rest0 hsch =>
          simp only at h
          generalize hsp : (if (rest0.getLast? == some '?' && rest0.count '?' == 1) = true
            then (rest0.dropLast, ([] : List Char))
            else match cut '?' rest0 with
              | some (a, b) => (a, b)
              | none => (rest0, [])) = split at h
          have hsplit : split.1.length ≤ rest0.length := by
            subst hsp
            split
            · simp
            · split
              · next a b hc =>
                have e := cut_eq _ _ _ _ hc
                rw [e]; simp
              · exact le_refl _
          split at h
          · split at h
            · simp only [Option.some.injEq] at h; subst h; exact Or.inl rfl
            · cases h
          · split at h
            · next hcond =>
              generalize har : (match findSub ['/'] (List.drop 2 split.1) with
                | some (a, b) => (a, b)
                | none => (List.drop 2 split.1, [])) = authRest at h
              have hauth : authRest.1.length ≤ (List.drop 2 split.1).length := by
                subst har
                split
                · next a b hf =>
                  obtain ⟨e, _⟩ := findSub_eq _ _ _ _ hf
                  rw [e]; simp
                · exact le_refl _
              simp only [Bool.and_eq_true, Bool.not_eq_true', List.isEmpty_eq_false] at hcond
              have hpre : 2 ≤ split.1.length := by
                have := (List.isPrefixOf_iff_prefix.mp hcond.2).length_le
                simpa using this
              have hs0 : scheme0 ≠ [] := by
                intro h0; apply hcond.1; simp [h0]
              have hrest0 : rest0.length + 2 ≤ rawURL.length := by
                rcases getSchemeLoop_length rawURL rawURL 0 scheme0 rest0 (by simp) hsch with h1 | h1
                · exact absurd h1.1 hs0
                · exact h1
              split at h
              · cases h
              · next host hh =>
                have hl := parseAuthority_length _ _ hh
                split at h
                · cases h
                · simp only [Option.some.injEq] at h
                  subst h
                  right
                  simp only [String.toList, List.length_drop] at hauth ⊢
                  omega
            · split at h
              · cases h
              · simp only [Option.some.injEq] at h; subst h; exact Or.inl rfl

end url

namespace extract

theorem length_of_EndsWithVideoID (s : String) (h : EndsWithVideoID s) :
    11 ≤ s.toList.length := by
  obtain ⟨pre, suf, e, hl, _⟩ := h
  rw [e, List.length_append]; omega

theorem Hostname_short (text : String) (u : url.URL) (hp : url.ParseRequestURI text = some u)
    (hlen : text.length < 11) : u.Hostname.toList.length < 8 := by
  have h1 := url.parse_host_length text.toList u hp
  have h2 := url.splitHostPort_length u.Host.toList
  have h3 : text.toList.length < 11 := hlen
  have h4 : u.Hostname.toList = url.splitHostPort u.Host.toList := rfl
  rw [h4]
  omega

/-- C8: on every input of fewer than 11 characters, whether `url.ParseRequestURI`
accepts it or not, `VideoID` returns the empty identifier and the `ExtractError` with
Caller "video id" and Pattern `([0-9A-Za-z_-]{11})$`. -/
theorem VideoID_short_input (text : String) (hlen : text.length < 11) :
    VideoID text =
      ("", some { Caller := "video id", Pattern := "([0-9A-Za-z_-]\x7b11\x7d)$" }) := by
  have hno : videoIDRe.MatchString text = false := by
    cases hm : videoIDRe.MatchString text with
    | false => rfl
    | true =>
      have := length_of_EndsWithVideoID text ((MatchString_videoIDRe text).mp hm)
      have h3 : text.toList.length < 11 := hlen
      omega
  show VideoID text = ("", some videoIDError)
  unfold VideoID
  cases hp : url.ParseRequestURI text with
  | none => simp [hno]
  | some u =>
    have hh := Hostname_short text u hp hlen
    have h1 : Contains u.Hostname "youtube.com" = false := by
      cases hc : Contains u.Hostname "youtube.com" with
      | false => rfl
      | true =>
        have := Contains_length _ _ hc
        have e : "youtube.com".toList.length = 11 := by decide
        omega
    have h2 : Contains u.Hostname "youtu.be" = false := by
      cases hc : Contains u.Hostname "youtu.be" with
      | false => rfl
      | true =>
        have := Contains_length _ _ hc
        have e : "youtu.be".toList.length = 8 := by decide
        omega
    simp [h1, h2]

/-- C8 at the input `short`. -/
theorem VideoID_short_input_witness :
    VideoID "short" = ("", some { Caller := "video id", Pattern := "([0-9A-Za-z_-]\x7b11\x7d)$" }) :=
  VideoID_short_input "short" (by decide)

end extract
end Gotube

/-! ## The chunked downloader: merging, failures, total length -/

namespace Gotube
namespace download

theorem HttpHead_ok (env : Env) (w : World) (u : String) (resp : Response)
    (hdo : env.Do u none = some resp) (hst : resp.StatusCode < 300) :
    HttpHead env w u = (Except.ok resp.ContentLength, w.emit (Event.request u none)) := by
  have h : ¬ resp.StatusCode ≥ 300 := by omega
  simp [HttpHead, hdo, h]

theorem HttpHead_error_inv (env : Env) (w : World) (u : String) (e : GoError) (w1 : World)
    (h : HttpHead env w u = (Except.error e, w1)) :
    env.Do u none = none ∨ ∃ resp, env.Do u none = some resp ∧ resp.StatusCode ≥ 300 := by
  unfold HttpHead at h
  cases hdo : env.Do u none with
  | none => exact Or.inl rfl
  | some resp =>
    right
    refine ⟨resp, rfl, ?_⟩
    by_contra hc
    simp [hdo, hc] at h

theorem Download_of_head_ok (env : Env) (order : List Nat) (w : World)
    (dlurl destdir filename ext dir : String) (overwrite onStart onProgress : Bool)
    (resp : Response) (hdir : destDir env destdir = some dir)
    (hdo : env.Do dlurl none = some resp) (hst : resp.StatusCode < 300) :
    Download env order w dlurl destdir filename ext overwrite onStart onProgress =
      match (workersWorld env order w dlurl dir filename onStart onProgress
          resp.ContentLength).errs with
      | e :: _ => ((env.Join dir (filename ++ "." ++ ext), some e),
          workersWorld env order w dlurl dir filename onStart onProgress resp.ContentLength)
      | [] =>
        ((env.Join dir (filename ++ "." ++ ext),
          (mergeFiles env (workersWorld env order w dlurl dir filename onStart onProgress
            resp.ContentLength) (env.Join dir (filename ++ "." ++ ext))
            (partPaths env dir filename)).1),
         (mergeFiles env (workersWorld env order w dlurl dir filename onStart onProgress
            resp.ContentLength) (env.Join dir (filename ++ "." ++ ext))
            (partPaths env dir filename)).2) := by
  have hg : IsExist (Stat w (env.Join dir (filename ++ "." ++ ext))) = false := IsExist_Stat _ _
  have hh := HttpHead_ok env w dlurl resp hdo hst
  unfold destDir at hdir
  unfold Download
  split at hdir
  · cases hdir
  · next d hd =>
    simp only [hd, hdir, hg, Bool.and_false, Bool.false_eq_true, if_false, hh]
    rfl

theorem Download_of_head_fail (env : Env) (order : List Nat) (w : World)
    (dlurl destdir filename ext dir : String) (overwrite onStart onProgress : Bool)
    (hdir : destDir env destdir = some dir)
    (hdo : env.Do dlurl none = none ∨ ∃ resp, env.Do dlurl none = some resp ∧
      resp.StatusCode ≥ 300) :
    ∃ e, Download env order w dlurl destdir filename ext overwrite onStart onProgress =
      ((env.Join dir (filename ++ "." ++ ext), some e), w.emit (Event.request dlurl none)) := by
  have hg : IsExist (Stat w (env.Join dir (filename ++ "." ++ ext))) = false := IsExist_Stat _ _
  have hh : ∃ e, HttpHead env w dlurl = (Except.error e, w.emit (Event.request dlurl none)) := by
    unfold HttpHead
    rcases hdo with h | ⟨resp, h, hs⟩
    · exact ⟨GoError.sys "request failed", by simp [h]⟩
    · exact ⟨GoError.http resp.StatusCode, by simp [h, hs]⟩
  obtain ⟨e, he⟩ := hh
  refine ⟨e, ?_⟩
  unfold destDir at hdir
  unfold Download
  split at hdir
  · cases hdir
  · next d hd =>
    simp only [hd, hdir, hg, Bool.and_false, Bool.false_eq_true, if_false, he]

theorem writeChunks_files (onProgress : Bool) : ∀ (chunks : List Bytes) (w : World),
    (writeChunks onProgress w chunks).files = w.files ∧
    (writeChunks onProgress w chunks).errs = w.errs := by
  intro chunks
  induction chunks with
  | nil => intro w; exact ⟨rfl, rfl⟩
  | cons d rest ih =>
    intro w
    cases onProgress with
    | false =>
      have h := ih { w with written := w.written + d.length }
      simpa [writeChunks] using h
    | true =>
      have h := ih (World.emit { w with written := w.written + d.length }
        (Event.onProgress (w.written + d.length)))
      simpa [writeChunks, World.emit] using h

theorem worker_of_ok (env : Env) (dlurl : String) (onProgress : Bool) (total : Int)
    (path : String) (i : Nat) (w : World) (hok : workerOk env dlurl total path i = true) :
    (worker env dlurl onProgress (workerRange total i).1 (workerRange total i).2 path w).errs
      = w.errs ∧
    (worker env dlurl onProgress (workerRange total i).1 (workerRange total i).2 path w).files
      = fun p => if p = path then some (partBytes env dlurl total i) else w.files p := by
  unfold workerOk at hok
  unfold worker partBytes
  cases hdo : env.Do dlurl (some (workerRange total i)) with
  | none => rw [hdo] at hok; cases hok
  | some resp =>
    rw [hdo] at hok
    simp only [Bool.and_eq_true, decide_eq_true_eq] at hok
    have h1 : ¬ resp.StatusCode ≥ 300 := by omega
    have hd : env.Do dlurl (some ((workerRange total i).1, (workerRange total i).2))
        = some resp := hdo
    simp only [hd, h1, if_false, hok.2, Bool.not_true, Bool.false_eq_true]
    have h := writeChunks_files onProgress resp.Body
      ((w.emit (Event.request dlurl (some ((workerRange total i).1, (workerRange total i).2)))).setFile
        path (some resp.Body.flatten))
    exact ⟨h.2, h.1⟩

theorem worker_of_not_ok (env : Env) (dlurl : String) (onProgress : Bool) (total : Int)
    (path : String) (i : Nat) (w : World) (hok : workerOk env dlurl total path i = false) :
    (∃ e, (worker env dlurl onProgress (workerRange total i).1 (workerRange total i).2 path
      w).errs = w.errs ++ [e]) ∧
    (worker env dlurl onProgress (workerRange total i).1 (workerRange total i).2 path w).files
      = w.files := by
  unfold workerOk at hok
  unfold worker
  have hd : env.Do dlurl (some ((workerRange total i).1, (workerRange total i).2))
      = env.Do dlurl (some (workerRange total i)) := rfl
  cases hdo : env.Do dlurl (some (workerRange total i)) with
  | none =>
    rw [hdo] at hd
    simp only [hd]
    exact ⟨⟨_, rfl⟩, rfl⟩
  | some resp =>
    rw [hdo] at hok hd
    simp only [hd]
    by_cases h1 : resp.StatusCode ≥ 300
    · simp only [h1, if_true]
      exact ⟨⟨_, rfl⟩, rfl⟩
    · have h2 : resp.StatusCode < 300 := by omega
      simp only [h2, decide_True, Bool.true_and] at hok
      simp only [h1, if_false, hok, Bool.not_false, if_true]
      exact ⟨⟨_, rfl⟩, rfl⟩

theorem worker_errs_grow (env : Env) (dlurl : String) (onProgress : Bool) (total : Int)
    (path : String) (i : Nat) (w : World) :
    ∃ es, (worker env dlurl onProgress (workerRange total i).1 (workerRange total i).2 path
      w).errs = w.errs ++ es := by
  cases hok : workerOk env dlurl total path i with
  | true => exact ⟨[], by simp [(worker_of_ok env dlurl onProgress total path i w hok).1]⟩
  | false =>
    obtain ⟨⟨e, he⟩, _⟩ := worker_of_not_ok env dlurl onProgress total path i w hok
    exact ⟨[e], he⟩

theorem runWorkers_errs_grow (env : Env) (dlurl dir filename : String) (onProgress : Bool)
    (total : Int) : ∀ (order : List Nat) (w : World),
    ∃ es, (runWorkers env dlurl dir filename onProgress total order w).errs = w.errs ++ es := by
  intro order
  induction order with
  | nil => intro w; exact ⟨[], by simp [runWorkers]⟩
  | cons i rest ih =>
    intro w
    obtain ⟨e1, h1⟩ := worker_errs_grow env dlurl onProgress total (partPath env dir filename i) i w
    obtain ⟨e2, h2⟩ := ih (worker env dlurl onProgress (workerRange total i).1
      (workerRange total i).2 (partPath env dir filename i) w)
    exact ⟨e1 ++ e2, by simp [runWorkers, h2, h1]⟩

/-- The workers report no error exactly when each of them gets as far as the copy. -/
theorem runWorkers_errs_nil (env : Env) (dlurl dir filename : String) (onProgress : Bool)
    (total : Int) : ∀ (order : List Nat) (w : World), w.errs = [] →
    ((runWorkers env dlurl dir filename onProgress total order w).errs = [] ↔
      ∀ i ∈ order, workerOk env dlurl total (partPath env dir filename i) i = true) := by
  intro order
  induction order with
  | nil => intro w hw; simp [runWorkers, hw]
  | cons i rest ih =>
    intro w hw
    simp only [runWorkers, List.mem_cons, forall_eq_or_imp]
    cases hok : workerOk env dlurl total (partPath env dir filename i) i with
    | true =>
      have h1 := (worker_of_ok env dlurl onProgress total (partPath env dir filename i) i w hok).1
      rw [ih _ (by rw [h1, hw])]
      simp
    | false =>
      obtain ⟨⟨e, he⟩, _⟩ :=
        worker_of_not_ok env dlurl onProgress total (partPath env dir filename i) i w hok
      obtain ⟨es, hes⟩ := runWorkers_errs_grow env dlurl dir filename onProgress total rest
        (worker env dlurl onProgress (workerRange total i).1 (workerRange total i).2
          (partPath env dir filename i) w)
      rw [hes, he, hw]
      simp

/-- The files the workers leave, when each of them gets as far as the copy and no two
of them share a part path. -/
theorem runWorkers_files (env : Env) (dlurl dir filename : String) (onProgress : Bool)
    (total : Int) : ∀ (order : List Nat) (w : World),
    (∀ i ∈ order, workerOk env dlurl total (partPath env dir filename i) i = true) →
    (∀ i ∈ order, ∀ j ∈ order, partPath env dir filename i = partPath env dir filename j →
      i = j) →
    (∀ i ∈ order, (runWorkers env dlurl dir filename onProgress total order w).files
      (partPath env dir filename i) = some (partBytes env dlurl total i)) ∧
    (∀ p, (∀ i ∈ order, partPath env dir filename i ≠ p) →
      (runWorkers env dlurl dir filename onProgress total order w).files p = w.files p) := by
  intro order
  induction order with
  | nil => intro w _ _; exact ⟨by simp, fun p _ => rfl⟩
  | cons i rest ih =>
    intro w hok hinj
    have hw := (worker_of_ok env dlurl onProgress total (partPath env dir filename i) i w
      (hok i (by simp))).2
    obtain ⟨ha, hb⟩ := ih (worker env dlurl onProgress (workerRange total i).1
      (workerRange total i).2 (partPath env dir filename i) w)
      (fun j hj => hok j (by simp [hj]))
      (fun a ha b hb => hinj a (by simp [ha]) b (by simp [hb]))
    constructor
    · intro j hj
      simp only [runWorkers]
      by_cases hjr : j ∈ rest
      · exact ha j hjr
      · have hji : j = i := by
          rcases List.mem_cons.mp hj with h | h
          · exact h
          · exact absurd h hjr
        subst hji
        rw [hb (partPath env dir filename j) (fun k hk hkp => hjr (by
          have := hinj k (by simp [hk]) j (by simp) hkp
          rw [← this]; exact hk)), hw]
        simp
    · intro p hp
      simp only [runWorkers]
      rw [hb p (fun k hk => hp k (by simp [hk])), hw]
      have : p ≠ partPath env dir filename i := fun h => hp i (by simp) h.symm
      simp [this]

theorem mergeLoop_of_present (w : World) : ∀ (paths : List String) (acc : Bytes)
    (opened : List String), (∀ p ∈ paths, (w.files p).isSome = true) →
    mergeLoop w paths acc opened =
      (acc ++ (paths.map (fun p => (w.files p).getD [])).flatten, opened ++ paths, none) := by
  intro paths
  induction paths with
  | nil => intro acc opened _; simp [mergeLoop]
  | cons p rest ih =>
    intro acc opened h
    have hp := h p (by simp)
    cases hf : w.files p with
    | none => rw [hf] at hp; cases hp
    | some content =>
      simp only [mergeLoop, hf]
      rw [ih (acc ++ content) (opened ++ [p]) (fun q hq => h q (by simp [hq]))]
      simp [hf]

theorem mergeLoop_ok_inv (w : World) : ∀ (paths : List String) (acc : Bytes)
    (opened : List String), (mergeLoop w paths acc opened).2.2 = none →
    ∀ p ∈ paths, (w.files p).isSome = true := by
  intro paths
  induction paths with
  | nil => intro acc opened _ p hp; cases hp
  | cons q rest ih =>
    intro acc opened h p hp
    cases hf : w.files q with
    | none => simp [mergeLoop, hf] at h
    | some content =>
      simp only [mergeLoop, hf] at h
      rcases List.mem_cons.mp hp with rfl | hr
      · simp [hf]
      · exact ih _ _ h p hr

theorem removeAll_files : ∀ (paths : List String) (w : World) (p : String),
    (removeAll w paths).files p = if p ∈ paths then none else w.files p := by
  intro paths
  induction paths with
  | nil => intro w p; simp [removeAll]
  | cons q rest ih =>
    intro w p
    simp only [removeAll, ih, World.setFile, List.mem_cons]
    by_cases h1 : p ∈ rest
    · simp [h1]
    · by_cases h2 : p = q
      · simp [h1, h2]
      · simp [h1, h2]

/-- What `mergeFiles` leaves when it returns without error: every part file was
present, the final file holds their contents in list order, and every part path is
removed. -/
theorem mergeFiles_ok (env : Env) (w : World) (finalpath : String) (paths : List String)
    (h : (mergeFiles env w finalpath paths).1 = none) :
    (∀ p ∈ paths, p ≠ finalpath → (w.files p).isSome = true) ∧
    (∀ p ∈ paths, (mergeFiles env w finalpath paths).2.files p = none) ∧
    (finalpath ∉ paths → (mergeFiles env w finalpath paths).2.files finalpath =
      some ((paths.map (fun p => (w.files p).getD [])).flatten)) := by
  unfold mergeFiles at h ⊢
  by_cases hc : env.canCreate finalpath = true
  · simp only [hc, Bool.not_true, Bool.false_eq_true, if_false] at h ⊢
    have hall := mergeLoop_ok_inv _ _ _ _ h
    have hm := mergeLoop_of_present _ paths [] [] hall
    refine ⟨?_, ?_, ?_⟩
    · intro p hp hne
      have := hall p hp
      simpa [World.setFile, hne] using this
    · intro p hp
      rw [hm, removeAll_files]
      simp [hp]
    · intro hf
      rw [hm, removeAll_files]
      simp only [List.nil_append, hf, if_false, World.setFile, if_true]
      congr 2
      apply List.map_congr_left
      intro p hp
      have : p ≠ finalpath := fun e => hf (e ▸ hp)
      simp [this]
  · simp [hc] at h

theorem mergeFiles_files_other (env : Env) (w : World) (finalpath : String)
    (paths : List String) (p : String) (h1 : p ≠ finalpath) (h2 : p ∉ paths) :
    (mergeFiles env w finalpath paths).2.files p = w.files p := by
  unfold mergeFiles
  split
  · rfl
  · have hsub : ∀ q, q ∈ (mergeLoop (w.setFile finalpath (some [])) paths [] []).2.1 →
        q ∈ paths := by
      have key : ∀ (ps : List String) (acc : Bytes) (opened : List String) (q : String),
          q ∈ (mergeLoop (w.setFile finalpath (some [])) ps acc opened).2.1 →
          q ∈ opened ∨ q ∈ ps := by
        intro ps
        induction ps with
        | nil => intro acc opened q hq; exact Or.inl (by simpa [mergeLoop] using hq)
        | cons a rest ih =>
          intro acc opened q hq
          unfold mergeLoop at hq
          split at hq
          · exact Or.inl hq
          · rcases ih _ _ q hq with h | h
            · rcases List.mem_append.mp h with h | h
              · exact Or.inl h
              · right; simp at h; simp [h]
            · right; simp [h]
      intro q hq
      rcases key paths [] [] q hq with h | h
      · cases h
      · exact h
    simp only [removeAll_files]
    have : p ∉ (mergeLoop (w.setFile finalpath (some [])) paths [] []).2.1 :=
      fun h => h2 (hsub p h)
    rw [if_neg this]
    simp [World.setFile, h1]

theorem withoutProgress_append (a b : List Event) :
    withoutProgress (a ++ b) = withoutProgress a ++ withoutProgress b := by
  simp [withoutProgress]

theorem writeChunks_withoutProgress (onProgress : Bool) : ∀ (chunks : List Bytes) (w : World),
    withoutProgress (writeChunks onProgress w chunks).events = withoutProgress w.events := by
  intro chunks
  induction chunks with
  | nil => intro w; rfl
  | cons d rest ih =>
    intro w
    cases onProgress with
    | false =>
      have h := ih { w with written := w.written + d.length }
      simpa [writeChunks] using h
    | true =>
      have h := ih (World.emit { w with written := w.written + d.length }
        (Event.onProgress (w.written + d.length)))
      simpa [writeChunks, World.emit, withoutProgress] using h

theorem worker_withoutProgress (env : Env) (dlurl : String) (onProgress : Bool) (min max : Int)
    (path : String) (w : World) :
    withoutProgress (worker env dlurl onProgress min max path w).events =
      withoutProgress w.events ++ [Event.request dlurl (some (min, max))] := by
  unfold worker
  cases env.Do dlurl (some (min, max)) with
  | none => simp [World.emit, withoutProgress]
  | some resp =>
    simp only
    split
    · simp [World.emit, withoutProgress]
    · split
      · simp [World.emit, withoutProgress]
      · rw [writeChunks_withoutProgress]
        simp [World.emit, World.setFile, withoutProgress]

theorem runWorkers_withoutProgress (env : Env) (dlurl dir filename : String)
    (onProgress : Bool) (total : Int) : ∀ (order : List Nat) (w : World),
    withoutProgress (runWorkers env dlurl dir filename onProgress total order w).events =
      withoutProgress w.events ++
        order.map (fun (i : Nat) => Event.request dlurl (some (workerRange total i))) := by
  intro order
  induction order with
  | nil => intro w; simp [runWorkers]
  | cons i rest ih =>
    intro w
    simp only [runWorkers, ih, worker_withoutProgress, List.map_cons, List.append_assoc,
      List.singleton_append]

theorem Download_events_of_head_ok (env : Env) (order : List Nat) (w : World)
    (dlurl destdir filename ext dir : String) (overwrite onStart onProgress : Bool)
    (resp : Response) (hdir : destDir env destdir = some dir)
    (hdo : env.Do dlurl none = some resp) (hst : resp.StatusCode < 300) :
    (Download env order w dlurl destdir filename ext overwrite onStart onProgress).2.events =
      (workersWorld env order w dlurl dir filename onStart onProgress resp.ContentLength).events := by
  rw [Download_of_head_ok env order w dlurl destdir filename ext dir overwrite onStart onProgress
    resp hdir hdo hst]
  split
  · rfl
  · exact mergeFiles_events _ _ _ _

theorem workersWorld_withoutProgress (env : Env) (order : List Nat) (w : World)
    (dlurl dir filename : String) (onProgress : Bool) (clen : String) :
    withoutProgress (workersWorld env order w dlurl dir filename true onProgress clen).events =
      withoutProgress w.events ++ Event.request dlurl none :: Event.onStart (totalOf clen) ::
        order.map (fun (i : Nat) => Event.request dlurl (some (workerRange (totalOf clen) i))) := by
  unfold workersWorld
  simp only [if_true]
  rw [runWorkers_withoutProgress]
  simp [World.emit, withoutProgress]

theorem totalOf_not_decimal (clen : String) (h : clen = "" ∨ IsDecimal clen = false) :
    totalOf clen = 0 := by
  rcases h with h | h
  · subst h; rfl
  · unfold totalOf ParseInt64
    unfold IsDecimal at h
    simp only at h ⊢
    generalize (if (clen.toList.head? == some '-' || clen.toList.head? == some '+') = true
      then clen.toList.tail else clen.toList) = ds at h ⊢
    have hc : (ds.isEmpty || !ds.all isDigit) = true := by
      revert h
      cases ds.isEmpty <;> cases ds.all isDigit <;> simp
    split
    · simp only [hc, if_true]
    · rfl

theorem String_mk_cons_ne_empty (a : Char) (l : List Char) : (String.mk (a :: l) != "") = true := by
  rw [bne_iff_ne]
  intro h
  have := congrArg String.length h
  simp at this

theorem totalOf_of_digits (ds : List Char) (hne : ds ≠ []) (hd : ∀ c ∈ ds, isDigit c = true) :
    (2 ^ 63 ≤ decimalValue ds →
      totalOf (String.mk ds) = 2 ^ 63 - 1 ∧ totalOf (String.mk ('+' :: ds)) = 2 ^ 63 - 1) ∧
    (2 ^ 63 < decimalValue ds → totalOf (String.mk ('-' :: ds)) = -(2 ^ 63)) ∧
    (decimalValue ds < 2 ^ 63 →
      totalOf (String.mk ds) = decimalValue ds ∧
      totalOf (String.mk ('+' :: ds)) = decimalValue ds) ∧
    (decimalValue ds ≤ 2 ^ 63 → totalOf (String.mk ('-' :: ds)) = -decimalValue ds) := by
  obtain ⟨a, l, rfl⟩ := List.exists_cons_of_ne_nil hne
  have ha := isDigit_not_sign a (hd a (by simp))
  have hall : (a :: l).all isDigit = true := by
    rw [List.all_eq_true]; exact hd
  refine ⟨?_, ?_, ?_, ?_⟩
  · intro hbig
    have h1 : (9223372036854775808 : Int) ≤ decimalValue (a :: l) := by
      norm_num at hbig; omega
    constructor
    · simp only [totalOf, String_mk_cons_ne_empty, if_true, ParseInt64, String.toList]
      simp [ha.1, ha.2, hall, h1]
    · simp only [totalOf, String_mk_cons_ne_empty, if_true, ParseInt64, String.toList]
      simp [hall, h1]
  · intro hbig
    have h2 : (9223372036854775808 : Int) < decimalValue (a :: l) := by
      norm_num at hbig; omega
    simp only [totalOf, String_mk_cons_ne_empty, if_true, ParseInt64, String.toList]
    simp [hall, h2]
  · intro hsmall
    have h1 : ¬ (9223372036854775808 : Int) ≤ decimalValue (a :: l) := by
      norm_num at hsmall; omega
    constructor
    · simp only [totalOf, String_mk_cons_ne_empty, if_true, ParseInt64, String.toList]
      simp [ha.1, ha.2, hall, h1]
    · simp only [totalOf, String_mk_cons_ne_empty, if_true, ParseInt64, String.toList]
      simp [hall, h1]
  · intro hsmall
    have h2 : ¬ (9223372036854775808 : Int) < decimalValue (a :: l) := by
      norm_num at hsmall; omega
    simp only [totalOf, String_mk_cons_ne_empty, if_true, ParseInt64, String.toList]
    simp [hall, h2]

theorem Download_ok_inv (env : Env) (order : List Nat) (w : World)
    (dlurl destdir filename ext dir : String) (overwrite onStart onProgress : Bool)
    (hdir : destDir env destdir = some dir)
    (hok : (Download env order w dlurl destdir filename ext overwrite onStart onProgress).1.2
      = none) :
    (workersWorld env order w dlurl dir filename onStart onProgress
      (lengthHeader env dlurl)).errs = [] ∧
    (mergeFiles env (workersWorld env order w dlurl dir filename onStart onProgress
      (lengthHeader env dlurl)) (env.Join dir (filename ++ "." ++ ext))
      (partPaths env dir filename)).1 = none ∧
    (Download env order w dlurl destdir filename ext overwrite onStart onProgress).2 =
      (mergeFiles env (workersWorld env order w dlurl dir filename onStart onProgress
        (lengthHeader env dlurl)) (env.Join dir (filename ++ "." ++ ext))
        (partPaths env dir filename)).2 := by
  have hhead : ∃ resp, env.Do dlurl none = some resp ∧ resp.StatusCode < 300 := by
    by_contra hc
    have hfail : env.Do dlurl none = none ∨ ∃ resp, env.Do dlurl none = some resp ∧
        resp.StatusCode ≥ 300 := by
      cases hdo : env.Do dlurl none with
      | none => exact Or.inl rfl
      | some resp =>
        right
        refine ⟨resp, rfl, ?_⟩
        by_contra hlt
        exact hc ⟨resp, hdo, by omega⟩
    obtain ⟨e, he⟩ := Download_of_head_fail env order w dlurl destdir filename ext dir overwrite
      onStart onProgress hdir hfail
    rw [he] at hok
    cases hok
  obtain ⟨resp, hdo, hst⟩ := hhead
  have hlen : lengthHeader env dlurl = resp.ContentLength := by simp [lengthHeader, hdo]
  have hD := Download_of_head_ok env order w dlurl destdir filename ext dir overwrite onStart
    onProgress resp hdir hdo hst
  rw [hlen]
  rw [hD] at hok ⊢
  split at hok
  · cases hok
  · next herrs =>
    simp only [herrs]
    exact ⟨trivial, hok, trivial⟩

/-- C11: when `Download` returns without error, the final file holds the bytes of the
ten part files joined in ascending worker index 0..9, whatever the order in which the
workers completed; the part file of worker `i` holds the bytes delivered for its range. -/
theorem Download_merges_in_index_order (env : Env) (order : List Nat) (w : World)
    (dlurl destdir filename ext dir : String) (overwrite onStart onProgress : Bool)
    (hdir : destDir env destdir = some dir)
    (horder : order.Perm (List.range 10))
    (hpaths : (partPaths env dir filename).Nodup)
    (hfinal : env.Join dir (filename ++ "." ++ ext) ∉ partPaths env dir filename)
    (hok : (Download env order w dlurl destdir filename ext overwrite onStart onProgress).1.2
      = none) :
    (∀ i ∈ List.range 10,
      (workersWorld env order w dlurl dir filename onStart onProgress
        (lengthHeader env dlurl)).files (partPath env dir filename i) =
        some (partBytes env dlurl (totalOf (lengthHeader env dlurl)) i)) ∧
    (Download env order w dlurl destdir filename ext overwrite onStart onProgress).2.files
        (env.Join dir (filename ++ "." ++ ext)) =
      some (((List.range 10).map
        (partBytes env dlurl (totalOf (lengthHeader env dlurl)))).flatten) := by
  obtain ⟨herrs, hmerge, hworld⟩ := Download_ok_inv env order w dlurl destdir filename ext dir
    overwrite onStart onProgress hdir hok
  have hallok : ∀ i ∈ order, workerOk env dlurl (totalOf (lengthHeader env dlurl))
      (partPath env dir filename i) i = true := by
    unfold workersWorld at herrs
    exact (runWorkers_errs_nil env dlurl dir filename onProgress _ order _ rfl).mp herrs
  have hinj : ∀ i ∈ order, ∀ j ∈ order,
      partPath env dir filename i = partPath env dir filename j → i = j := by
    intro i hi j hj hp
    exact List.inj_on_of_nodup_map hpaths (horder.mem_iff.mp hi) (horder.mem_iff.mp hj) hp
  have hfiles : ∀ i ∈ List.range 10,
      (workersWorld env order w dlurl dir filename onStart onProgress
        (lengthHeader env dlurl)).files (partPath env dir filename i) =
        some (partBytes env dlurl (totalOf (lengthHeader env dlurl)) i) := by
    intro i hi
    unfold workersWorld
    exact (runWorkers_files env dlurl dir filename onProgress _ order _ hallok hinj).1 i
      (horder.mem_iff.mpr hi)
  refine ⟨hfiles, ?_⟩
  rw [hworld, (mergeFiles_ok env _ _ _ hmerge).2.2 hfinal]
  congr 2
  unfold partPaths
  rw [List.map_map]
  apply List.map_congr_left
  intro i hi
  simp [hfiles i hi]

/-- C11 in the example world, with the workers completing in descending index: the
final file is the parts in ascending index all the same. -/
theorem Download_merges_in_index_order_witness :
    (Download exampleEnv (List.range 10).reverse emptyWorld "u" "/d" "f" "mp4" true true
        true).2.files "/d/f.mp4" =
      some [0, 1, 2, 3, 4, 5, 6, 7, 8, 9, 10, 11, 12, 13, 14, 15, 16, 17, 18, 25] :=
  (Download_merges_in_index_order exampleEnv (List.range 10).reverse emptyWorld "u" "/d" "f"
    "mp4" "/d" true true true (by decide) (List.reverse_perm _) (by decide) (by decide)
    (by decide)).2

/-- When a worker's request fails, is answered with a status of 300 or more, or its
part file cannot be created, `Download` returns an error and leaves the final file as
it was. -/
theorem Download_reports_worker_error (env : Env) (order : List Nat) (w : World)
    (dlurl destdir filename ext dir : String) (overwrite onStart onProgress : Bool)
    (resp : Response) (hdir : destDir env destdir = some dir)
    (hdo : env.Do dlurl none = some resp) (hst : resp.StatusCode < 300)
    (hfail : ∃ i ∈ order, workerOk env dlurl (totalOf resp.ContentLength)
      (partPath env dir filename i) i = false) :
    ∃ e, (Download env order w dlurl destdir filename ext overwrite onStart onProgress).1 =
      (env.Join dir (filename ++ "." ++ ext), some e) ∧
      (Download env order w dlurl destdir filename ext overwrite onStart onProgress).2 =
        workersWorld env order w dlurl dir filename onStart onProgress resp.ContentLength := by
  have hD := Download_of_head_ok env order w dlurl destdir filename ext dir overwrite onStart
    onProgress resp hdir hdo hst
  have hne : (workersWorld env order w dlurl dir filename onStart onProgress
      resp.ContentLength).errs ≠ [] := by
    intro hnil
    unfold workersWorld at hnil
    have hall := (runWorkers_errs_nil env dlurl dir filename onProgress _ order _ rfl).mp hnil
    obtain ⟨i, hi, hf⟩ := hfail
    rw [hall i hi] at hf
    cases hf
  rw [hD]
  split
  · next e rest _ => exact ⟨e, rfl, rfl⟩
  · next h => exact absurd h hne

/-- C12 (the code departs from the claim): when copying the body of worker 3 into its
part file ends in a read error after one byte, `Download` still returns a nil error and
merges the ten part files, the short one included, into the final file. -/
theorem Download_ignores_copy_failure :
    (copyFailEnv.Do "u" (some (workerRange 25 3))).map (fun r => (r.Body, r.bodyError))
      = some ([[6]], true) ∧
    (Download copyFailEnv (List.range 10) emptyWorld "u" "/d" "f" "mp4" true true true).1
      = ("/d/f.mp4", none) ∧
    (Download copyFailEnv (List.range 10) emptyWorld "u" "/d" "f" "mp4" true true true).2.files
      "/d/f.mp4" = some [0, 1, 2, 3, 4, 5, 6, 8, 9, 10, 11, 12, 13, 14, 15, 16, 17, 18, 25] := by
  decide

/-- When `Download` returns without error, none of the ten part paths holds a file. -/
theorem Download_success_removes_parts (env : Env) (order : List Nat) (w : World)
    (dlurl destdir filename ext dir : String) (overwrite onStart onProgress : Bool)
    (hdir : destDir env destdir = some dir)
    (hok : (Download env order w dlurl destdir filename ext overwrite onStart onProgress).1.2
      = none) :
    ∀ p ∈ partPaths env dir filename,
      (Download env order w dlurl destdir filename ext overwrite onStart onProgress).2.files p
        = none := by
  obtain ⟨_, hmerge, hworld⟩ := Download_ok_inv env order w dlurl destdir filename ext dir
    overwrite onStart onProgress hdir hok
  intro p hp
  rw [hworld]
  exact (mergeFiles_ok env _ _ _ hmerge).2.1 p hp

/-- C13 (the code departs from the claim): when worker 0 is answered with the status
500 and the nine others succeed, `Download` returns that error without calling
`mergeFiles`, and the nine part files created by this call are still there. -/
theorem Download_leaves_parts_on_error :
    (Download statusFailEnv (List.range 10) emptyWorld "u" "/d" "f" "mp4" true true true).1
      = ("/d/f.mp4", some (GoError.http 500)) ∧
    (partPaths statusFailEnv "/d" "f").map
      (fun p => (p, (Download statusFailEnv (List.range 10) emptyWorld "u" "/d" "f" "mp4" true
        true true).2.files p)) =
      [("/d/f.1.part", none), ("/d/f.2.part", some [2, 3]), ("/d/f.3.part", some [4, 5]),
       ("/d/f.4.part", some [6, 7]), ("/d/f.5.part", some [8, 9]),
       ("/d/f.6.part", some [10, 11]), ("/d/f.7.part", some [12, 13]),
       ("/d/f.8.part", some [14, 15]), ("/d/f.9.part", some [16, 17]),
       ("/d/f.10.part", some [18, 25])] := by
  decide

/-- C14, as amended: when the header `Content-Length` is absent (empty) or is not an
optional sign followed by decimal digits, `Download` uses `total = 0`: it calls
`onStart(0)` and requests the ranges computed from the chunk 0; for digits, with or
without a sign, that denote a number outside the 64-bit range (`2^63` or more, or less
than `-2^63`) `total` is the nearest bound, `2^63-1` or `-2^63`, and for digits that
denote a number of the range it is that number. -/
theorem Download_total_of_length (env : Env) (order : List Nat) (w : World)
    (dlurl destdir filename ext dir : String) (overwrite onProgress : Bool) (resp : Response)
    (hdir : destDir env destdir = some dir)
    (hdo : env.Do dlurl none = some resp) (hst : resp.StatusCode < 300)
    (hbad : resp.ContentLength = "" ∨ IsDecimal resp.ContentLength = false) :
    totalOf resp.ContentLength = 0 ∧
    goDiv (totalOf resp.ContentLength) 10 = 0 ∧
    withoutProgress
        (Download env order w dlurl destdir filename ext overwrite true onProgress).2.events =
      withoutProgress w.events ++ Event.request dlurl none :: Event.onStart 0 ::
        order.map (fun (i : Nat) => Event.request dlurl (some (workerRange 0 i))) ∧
    (∀ ds : List Char, ds ≠ [] → (∀ c ∈ ds, isDigit c = true) →
      (2 ^ 63 ≤ decimalValue ds →
        totalOf (String.mk ds) = 2 ^ 63 - 1 ∧ totalOf (String.mk ('+' :: ds)) = 2 ^ 63 - 1) ∧
      (2 ^ 63 < decimalValue ds → totalOf (String.mk ('-' :: ds)) = -(2 ^ 63)) ∧
      (decimalValue ds < 2 ^ 63 →
        totalOf (String.mk ds) = decimalValue ds ∧
        totalOf (String.mk ('+' :: ds)) = decimalValue ds) ∧
      (decimalValue ds ≤ 2 ^ 63 → totalOf (String.mk ('-' :: ds)) = -decimalValue ds)) := by
  have h0 := totalOf_not_decimal resp.ContentLength hbad
  refine ⟨h0, by rw [h0]; decide, ?_, totalOf_of_digits⟩
  rw [Download_events_of_head_ok env order w dlurl destdir filename ext dir overwrite true
    onProgress resp hdir hdo hst, workersWorld_withoutProgress, h0]

/-- C14 at the header value `unknown`: `onStart(0)`, then the ranges 0-(-1) of the
workers 0..8 and 0-0 of worker 9; and at the digits of `2^63`, the least number beyond
the range: `total` is `2^63-1`, and `-2^63` after a minus sign. -/
theorem Download_total_of_length_witness :
    withoutProgress
        (Download textLengthEnv (List.range 10) emptyWorld "u" "/d" "f" "mp4" true true
          true).2.events =
      [Event.request "u" none, Event.onStart 0, Event.request "u" (some (0, -1)),
       Event.request "u" (some (0, -1)), Event.request "u" (some (0, -1)),
       Event.request "u" (some (0, -1)), Event.request "u" (some (0, -1)),
       Event.request "u" (some (0, -1)), Event.request "u" (some (0, -1)),
       Event.request "u" (some (0, -1)), Event.request "u" (some (0, -1)),
       Event.request "u" (some (0, 0))] ∧
    totalOf (String.mk "9223372036854775808".toList) = 2 ^ 63 - 1 ∧
    totalOf (String.mk ('-' :: "9223372036854775808".toList)) = -decimalValue
      "9223372036854775808".toList :=
  have h := Download_total_of_length textLengthEnv (List.range 10) emptyWorld "u" "/d" "f"
    "mp4" "/d" true true
    { StatusCode := 200, ContentLength := "unknown", Body := [], bodyError := false }
    (by decide) rfl (by decide) (by decide)
  have hd := h.2.2.2 "9223372036854775808".toList (by decide) (by decide)
  ⟨h.2.2.1, (hd.1 (by decide)).1, hd.2.2.2 (by decide)⟩

/-- C14 as stated fails: for the digit string `99999999999999999999`, outside the
64-bit range, `Download` calls `onStart(9223372036854775807)`, not `onStart(0)`. -/
theorem Download_huge_length_counterexample :
    lengthHeader hugeLengthEnv "u" = "99999999999999999999" ∧
    (withoutProgress
        (Download hugeLengthEnv (List.range 10) emptyWorld "u" "/d" "f" "mp4" true true
          true).2.events).take 2 =
      [Event.request "u" none, Event.onStart 9223372036854775807] := by
  decide

end download
end Gotube

/-! ## Sorting: lemmas -/

namespace Gotube

theorem IsStrictWeakOrder.asymm {α : Type} {less : α → α → Bool} (h : IsStrictWeakOrder less)
    (a b : α) (hab : less a b = true) : less b a = false := by
  cases hba : less b a with
  | false => rfl
  | true =>
    have := h.trans a b a hab hba
    rw [h.irrefl a] at this
    cases this

theorem IsStrictWeakOrder.neg_trans {α : Type} {less : α → α → Bool}
    (h : IsStrictWeakOrder less) (a b c : α) (hab : less a b = false) (hbc : less b c = false) :
    less a c = false := by
  cases hac : less a c with
  | false => rfl
  | true =>
    have hba : less b a = false := by
      cases hba : less b a with
      | false => rfl
      | true =>
        have := h.trans b a c hba hac
        rw [hbc] at this; cases this
    have hcb : less c b = false := by
      cases hcb : less c b with
      | false => rfl
      | true =>
        have := h.trans a c b hac hcb
        rw [hab] at this; cases this
    have := (h.incomp_trans a b c hab hba hbc hcb).1
    rw [hac] at this; cases this

theorem insertDown_perm {α : Type} (less : α → α → Bool) (x : α) :
    ∀ l : List α, (insertDown less x l).Perm (x :: l) := by
  intro l
  induction l with
  | nil => exact List.Perm.refl _
  | cons y ys ih =>
    unfold insertDown
    split
    · exact (List.Perm.cons y ih).trans (List.Perm.swap x y ys)
    · exact List.Perm.refl _

theorem insertDown_sorted {α : Type} (less : α → α → Bool) (h : IsStrictWeakOrder less)
    (x : α) : ∀ l : List α, l.Pairwise (fun a b => less a b = false) →
    (insertDown less x l).Pairwise (fun a b => less a b = false) := by
  intro l
  induction l with
  | nil => intro _; simp [insertDown]
  | cons y ys ih =>
    intro hl
    rw [List.pairwise_cons] at hl
    unfold insertDown
    split
    · next hxy =>
      rw [List.pairwise_cons]
      refine ⟨?_, ih hl.2⟩
      intro w hw
      rcases List.mem_cons.mp ((insertDown_perm less x ys).mem_iff.mp hw) with rfl | hw
      · exact h.asymm _ _ hxy
      · exact hl.1 w hw
    · next hxy =>
      have hxy : less x y = false := by simpa using hxy
      rw [List.pairwise_cons]
      refine ⟨?_, List.pairwise_cons.mpr hl⟩
      intro w hw
      rcases List.mem_cons.mp hw with rfl | hw
      · exact hxy
      · exact h.neg_trans x y w hxy (hl.1 w hw)

theorem foldl_insertDown {α : Type} (less : α → α → Bool) (h : IsStrictWeakOrder less) :
    ∀ (xs acc : List α), acc.Pairwise (fun a b => less a b = false) →
    (xs.foldl (fun sorted x => insertDown less x sorted) acc).Perm (xs ++ acc) ∧
    (xs.foldl (fun sorted x => insertDown less x sorted) acc).Pairwise
      (fun a b => less a b = false) := by
  intro xs
  induction xs with
  | nil => intro acc hacc; exact ⟨List.Perm.refl _, hacc⟩
  | cons x rest ih =>
    intro acc hacc
    obtain ⟨hp, hs⟩ := ih (insertDown less x acc) (insertDown_sorted less h x acc hacc)
    refine ⟨?_, hs⟩
    simp only [List.foldl_cons, List.cons_append]
    refine hp.trans ?_
    exact ((List.Perm.append_left rest (insertDown_perm less x acc)).trans
      (List.perm_middle))

/-- Insertion sort returns a sorted rearrangement when `less` is a strict weak ordering. -/
theorem insertionSort_sorts {α : Type} (less : α → α → Bool) (h : IsStrictWeakOrder less)
    (xs : List α) : (insertionSort less xs).Perm xs ∧ SortedBy less (insertionSort less xs) := by
  obtain ⟨hp, hs⟩ := foldl_insertDown less h xs [] List.Pairwise.nil
  unfold insertionSort SortedBy
  constructor
  · exact (List.reverse_perm _).trans (by simpa using hp)
  · rw [List.pairwise_reverse]
    exact hs

theorem insertionAlgo_sorts : insertionAlgo.Sorts := by
  intro α less xs h
  exact insertionSort_sorts less h xs

/-- The function `sort.Slice` returns a sorted rearrangement when `less` is a strict weak
ordering and the algorithm for long slices meets its contract. -/
theorem sortSlice_sorts {α : Type} (big : SortAlgo) (hbig : big.Sorts) (less : α → α → Bool)
    (h : IsStrictWeakOrder less) (xs : List α) :
    (sortSlice big less xs).Perm xs ∧ SortedBy less (sortSlice big less xs) := by
  unfold sortSlice
  split
  · exact insertionSort_sorts less h xs
  · exact hbig less xs h

end Gotube

/-! ## Direct URL of a stream: claims -/

namespace Gotube
namespace gotube

/-- C15: for every stream whose raw cipher string is empty, `getDownloadURL` returns
the raw URL field without error, leaves the video (its script text `js` and its cipher
engine `decryption`) as it was, and calls neither `HttpFetch` nor `NewDecryption`. -/
theorem getDownloadURL_empty_cipher (env : Fetcher) (video : Video) (stream : Stream)
    (hcipher : stream.cipher = "") :
    getDownloadURL env video stream = (Res.ok stream.rawurl, video, []) := by
  simp [getDownloadURL, hcipher]

/-- C15 at the 1080p stream of the examples, whose cipher is empty. -/
theorem getDownloadURL_empty_cipher_witness :
    getDownloadURL exampleFetcher exampleVideo (Stream.video video1080) =
      (Res.ok "https://host/videoplayback?itag=137", exampleVideo, []) :=
  getDownloadURL_empty_cipher exampleFetcher exampleVideo (Stream.video video1080) rfl

/-- C16: for a non-empty cipher that parses as URL-encoded parameters `url = u`, `s`,
`sp`: when `sp` begins with `sig`, or `s` is non-empty and `u` contains neither `&sig=`
nor `&lsig=`, the signature is decrypted, and when that succeeds with `d` the result is
`u`, then `&ratebypass=yes` if `u` does not contain `&ratebypass=`, then `&sig=` and
`d`; otherwise nothing is decrypted and the result is `u` unchanged. -/
theorem getDownloadURL_cipher (env : Fetcher) (video : Video) (stream : Stream)
    (values : List (String × String))
    (hcipher : stream.cipher ≠ "")
    (hparse : url.ParseQuery stream.cipher = (values, false)) :
    ((HasPrefix (url.Get values "sp") "sig" = true ∨
        (url.Get values "s" ≠ "" ∧ Contains (url.Get values "url") "&sig=" = false ∧
          Contains (url.Get values "url") "&lsig=" = false)) →
      ∀ (d : String) (video1 : Video) (calls : List Call),
        obtainSignature env video (url.Get values "s") = (Res.ok d, video1, calls) →
        getDownloadURL env video stream =
          (Res.ok (url.Get values "url" ++
              (if Contains (url.Get values "url") "&ratebypass=" then "" else "&ratebypass=yes")
              ++ "&sig=" ++ d), video1, calls)) ∧
    (¬ (HasPrefix (url.Get values "sp") "sig" = true ∨
        (url.Get values "s" ≠ "" ∧ Contains (url.Get values "url") "&sig=" = false ∧
          Contains (url.Get values "url") "&lsig=" = false)) →
      getDownloadURL env video stream = (Res.ok (url.Get values "url"), video, [])) := by
  have hc : (stream.cipher == "") = false := by simpa using hcipher
  constructor
  · intro henc d video1 calls hsig
    have he : (HasPrefix (url.Get values "sp") "sig" ||
        (url.Get values "s" != "" && !(Contains (url.Get values "url") "&sig=" ||
          Contains (url.Get values "url") "&lsig="))) = true := by
      rcases henc with h | ⟨h1, h2, h3⟩
      · simp [h]
      · simp [h1, h2, h3]
    unfold getDownloadURL
    simp only [hc, hparse, he, hsig, if_true, Bool.false_eq_true, if_false]
    cases hb : Contains (url.Get values "url") "&ratebypass=" with
    | true => simp
    | false => simp
  · intro henc
    have he : (HasPrefix (url.Get values "sp") "sig" ||
        (url.Get values "s" != "" && !(Contains (url.Get values "url") "&sig=" ||
          Contains (url.Get values "url") "&lsig="))) = false := by
      cases h : (HasPrefix (url.Get values "sp") "sig" ||
        (url.Get values "s" != "" && !(Contains (url.Get values "url") "&sig=" ||
          Contains (url.Get values "url") "&lsig="))) with
      | false => rfl
      | true =>
        exfalso
        apply henc
        simp only [Bool.or_eq_true, Bool.and_eq_true, bne_iff_ne, ne_eq, Bool.not_eq_true',
          Bool.or_eq_false_iff] at h
        exact h
    unfold getDownloadURL
    simp only [hc, hparse, he, Bool.false_eq_true, if_false]

/-- C16 at the ciphered stream of the examples: `sp=sig`, the signature `abcdefgh`
decrypts to `cbagh`, and the URL has no `ratebypass` parameter yet. -/
theorem getDownloadURL_cipher_witness :
    (getDownloadURL exampleFetcher exampleVideo cipheredStream).1 =
      Res.ok "https://host/videoplayback?itag=137&ratebypass=yes&sig=cbagh" :=
  congrArg Prod.fst
    ((getDownloadURL_cipher exampleFetcher exampleVideo cipheredStream
      [("s", "abcdefgh"), ("sp", "sig"), ("url", "https://host/videoplayback?itag=137")]
      (by decide) (by decide)).1 (Or.inl (by decide)) "cbagh"
      (obtainSignature exampleFetcher exampleVideo "abcdefgh").2.1
      (obtainSignature exampleFetcher exampleVideo "abcdefgh").2.2 rfl)

end gotube
end Gotube

/-! ## Stream catalog and Best/Worst: claims -/

namespace Gotube
namespace gotube

theorem lessByItag_strictWeak : IsStrictWeakOrder lessByItag := by
  refine ⟨?_, ?_, ?_⟩
  · intro a; simp [lessByItag]
  · intro a b c h1 h2
    simp only [lessByItag, decide_eq_true_eq] at h1 h2 ⊢
    omega
  · intro a b c h1 h2 h3 h4
    simp only [lessByItag, decide_eq_false_iff_not] at h1 h2 h3 h4 ⊢
    constructor <;> omega

theorem stream_of_codecs (video : Video) (format : StreamFormat)
    (h : (extract.MimeCodecs format.MimeType).2 ≠ []) :
    ∃ st, video.stream format = some st ∧ st.Itag = format.Itag := by
  unfold Video.stream
  simp only
  generalize (extract.MimeCodecs format.MimeType).2 = codecs at h
  generalize (extract.MimeCodecs format.MimeType).1 = mime
  match codecs, h with
  | [c], _ =>
    split
    · exact ⟨_, rfl, rfl⟩
    · exact ⟨_, rfl, rfl⟩
  | c1 :: c2 :: rest, _ =>
    split
    · exact ⟨_, rfl, rfl⟩
    · by_cases hl : ((c1 :: c2 :: rest).length % 2 == 0) = true
      · simp only [hl, if_true, List.getElem?_cons_succ, List.getElem?_cons_zero]
        exact ⟨_, rfl, rfl⟩
      · simp only [hl, if_false]
        exact ⟨_, rfl, rfl⟩

theorem stream_itag (video : Video) (format : StreamFormat) (st : Stream)
    (h : video.stream format = some st) : st.Itag = format.Itag := by
  unfold Video.stream at h
  simp only at h
  split at h
  · split at h
    · cases h
    · simp only [Option.some.injEq] at h; subst h; rfl
  · split at h
    · simp only [Option.some.injEq] at h; subst h; rfl
    · cases h

theorem appendStreams_spec (video : Video) : ∀ (formats : List StreamFormat) (acc : List Stream),
    (∀ f ∈ formats, (video.stream f).isSome = true) →
    ∃ sts, Video.appendStreams video formats acc = some (acc ++ sts) ∧
      sts.map Stream.Itag = formats.map (fun f => f.Itag) := by
  intro formats
  induction formats with
  | nil => intro acc _; exact ⟨[], by simp [Video.appendStreams], rfl⟩
  | cons f rest ih =>
    intro acc h
    have hf := h f (by simp)
    cases hs : video.stream f with
    | none => rw [hs] at hf; cases hf
    | some st =>
      obtain ⟨sts, h1, h2⟩ := ih (acc ++ [st]) (fun g hg => h g (by simp [hg]))
      refine ⟨st :: sts, ?_, ?_⟩
      · simp only [Video.appendStreams, hs, h1, List.append_assoc, List.singleton_append]
      · simp [h2, stream_itag video f st hs]

/-- C17, as amended: for every initialized video, before its first call of `Streams`,
whose format entries all have a MIME type from which `MimeCodecs` reads at least one
codec, `Streams()` returns a catalog with one stream per entry of the progressive list
followed by the adaptive list (the same itags with the same multiplicities, the same
count), in ascending order of itag, and a second call returns the same catalog. -/
theorem Streams_catalog (big : SortAlgo) (hbig : big.Sorts) (video : Video)
    (playerResponse : PlayerResponse)
    (hinit : video.playerResponse = some playerResponse)
    (hfirst : video.streams = [])
    (hmime : ∀ f ∈ playerResponse.Formats ++ playerResponse.AdaptiveFormats,
      (extract.MimeCodecs f.MimeType).2 ≠ []) :
    ∃ catalog video1, Video.Streams big video = some (catalog, video1) ∧
      (catalog.map Stream.Itag).Perm
        ((playerResponse.Formats ++ playerResponse.AdaptiveFormats).map (fun f => f.Itag)) ∧
      catalog.length = (playerResponse.Formats ++ playerResponse.AdaptiveFormats).length ∧
      (catalog.map Stream.Itag).Pairwise (fun a b => a ≤ b) ∧
      Video.Streams big video1 = some (catalog, video1) := by
  have hall : ∀ f ∈ playerResponse.Formats ++ playerResponse.AdaptiveFormats,
      (video.stream f).isSome = true := by
    intro f hf
    obtain ⟨st, hst, _⟩ := stream_of_codecs video f (hmime f hf)
    simp [hst]
  obtain ⟨sts, happ, hitags⟩ := appendStreams_spec video _ [] hall
  simp only [List.nil_append] at happ
  obtain ⟨hperm, hsorted⟩ := sortSlice_sorts big hbig lessByItag lessByItag_strictWeak sts
  have hlen : (sortSlice big lessByItag sts).length =
      (playerResponse.Formats ++ playerResponse.AdaptiveFormats).length := by
    rw [hperm.length_eq, ← List.length_map sts Stream.Itag, hitags, List.length_map]
  refine ⟨sortSlice big lessByItag sts, { video with streams := sortSlice big lessByItag sts },
    ?_, ?_, hlen, ?_, ?_⟩
  · simp [Video.Streams, hinit, hfirst, happ, Streams.Sort]
  · rw [← hitags]
    exact hperm.map _
  · unfold SortedBy at hsorted
    rw [List.pairwise_map]
    refine hsorted.imp ?_
    intro a b hab
    simp only [lessByItag, decide_eq_false_iff_not] at hab
    omega
  · by_cases he : sortSlice big lessByItag sts = []
    · have hf0 : playerResponse.Formats ++ playerResponse.AdaptiveFormats = [] := by
        rw [he] at hlen
        exact List.eq_nil_of_length_eq_zero hlen.symm
      have hs0 : sts = [] := by
        have := congrArg List.length hitags
        rw [hf0] at this
        simpa using this
      have hsort0 : sortSlice big lessByItag ([] : List Stream) = [] := by
        have h0 := he
        rw [hs0] at h0
        exact h0
      simp [Video.Streams, hinit, he, hf0, Video.appendStreams, Streams.Sort, hsort0]
    · have hne : (sortSlice big lessByItag sts).isEmpty = false := by
        cases hl : sortSlice big lessByItag sts with
        | nil => exact absurd hl he
        | cons a l => rfl
      simp [Video.Streams, hinit, hne]

/-- C17 at the example video: the itags 22, 18, 140, 137 come out as 18, 22, 137, 140. -/
theorem Streams_catalog_witness :
    ∃ catalog video1, Video.Streams insertionAlgo exampleVideo = some (catalog, video1) ∧
      (catalog.map Stream.Itag).Perm [22, 18, 140, 137] ∧
      catalog.length = 4 ∧
      (catalog.map Stream.Itag).Pairwise (fun a b => a ≤ b) ∧
      Video.Streams insertionAlgo video1 = some (catalog, video1) :=
  Streams_catalog insertionAlgo insertionAlgo_sorts exampleVideo
    { Formats := [exampleFormat 22 "video/mp4; codecs=\"avc1.64001F, mp4a.40.2\"",
                  exampleFormat 18 "video/mp4; codecs=\"avc1.42001E, mp4a.40.2\""],
      AdaptiveFormats := [exampleFormat 140 "audio/mp4; codecs=\"mp4a.40.2\"",
                          exampleFormat 137 "video/mp4; codecs=\"avc1.640028\""],
      ExpiresInSeconds := "21540" } rfl rfl (by decide)

/-- C17 as stated fails: for an initialized video with the one format entry of MIME type
`video/mp4`, without a `codecs` parameter, `MimeCodecs` returns no codec and `Streams()`
panics on `codecs[1]` instead of returning a catalog. -/
theorem Streams_panics_counterexample :
    bareMimeVideo.playerResponse.isSome = true ∧
    extract.MimeCodecs "video/mp4" = ("", []) ∧
    Video.Streams insertionAlgo bareMimeVideo = none := by
  refine ⟨rfl, by decide, rfl⟩

/-- C18 (the code departs from the claim): `Sort` returns the nil slice, whatever the
receiver holds; what it sorts, in place, is the receiver. -/
theorem Sort_returns_nil (big : SortAlgo) :
    Streams.Sort big [Stream.video video1080, Stream.video video720] lessByItag =
      ([], [Stream.video video720, Stream.video video1080]) :=
  rfl

/-- C19 (the code departs from the claim): of a 1080p and a 720p stream with equal
bitrate, in this order, `Best()` returns the 720p stream and `Worst()` the 1080p one. -/
theorem Best_video_not_highest (big : SortAlgo) :
    video1080.Height = 1080 ∧ video720.Height = 720 ∧
    VideoStreams.Best big [video1080, video720] = some video720 ∧
    VideoStreams.Worst big [video1080, video720] = some video1080 :=
  ⟨rfl, rfl, rfl, rfl⟩

/-- C20 (the code departs from the claim): of two audio streams with average bitrates
200 and 100 and equal bitrate, in this order, `Best()` returns the one with average
bitrate 100. -/
theorem Best_audio_not_highest (big : SortAlgo) :
    audio200.AverageBitrate = 200 ∧ audio100.AverageBitrate = 100 ∧
    audio200.Bitrate = audio100.Bitrate ∧
    AudioStreams.Best big [audio200, audio100] = some audio100 :=
  ⟨rfl, rfl, rfl, rfl⟩

end gotube
end Gotube

/-! ## The ranges requested by the workers; the Best/Worst comparators: claims -/

namespace Gotube
namespace download

/-- C25: for a total length `T ≥ 0` the range of the last worker ends at offset `T`, one
past the last valid offset `T-1`, so the ten inclusive ranges request `T + 1` bytes in
all, and the last range has length `T - 9*(T/10) + 1`. -/
theorem worker_ranges_request_one_more (T : Int) (hT : 0 ≤ T) :
    (workerRange T 9).2 = T ∧
    ((List.range 10).map
      (fun (i : Nat) => (workerRange T i).2 - (workerRange T i).1 + 1)).sum = T + 1 ∧
    (workerRange T 9).2 - (workerRange T 9).1 + 1 = T - 9 * goDiv T 10 + 1 := by
  have hd : goDiv T 10 = T / 10 := by
    unfold goDiv
    exact Int.tdiv_eq_ediv hT (by decide)
  have hr : ∀ i : Int, workerRange T i =
      (T / 10 * i, if i = 9 then T else T / 10 * (i + 1) - 1) :=
    workerRange_of_nonneg T hT
  refine ⟨?_, ?_, ?_⟩
  · rw [hr]; simp
  · simp only [List.range, List.range.loop, List.map_cons, List.map_nil, List.sum_cons,
      List.sum_nil, hr]
    norm_num
    ring
  · rw [hr, hd]; simp; ring

/-- C25 at `T = 25`: the ten ranges have the lengths 2, ..., 2, 8 and request 26 bytes. -/
theorem worker_ranges_request_one_more_witness :
    (workerRange 25 9).2 = 25 ∧
    ((List.range 10).map
      (fun (i : Nat) => (workerRange 25 i).2 - (workerRange 25 i).1 + 1)).sum = 25 + 1 ∧
    (workerRange 25 9).2 - (workerRange 25 9).1 + 1 = 25 - 9 * goDiv 25 10 + 1 :=
  worker_ranges_request_one_more 25 (by decide)

end download

namespace gotube

theorem lessByResolution_irrefl_trans :
    (∀ a, lessByResolution a a = false) ∧
    (∀ a b c, lessByResolution a b = true → lessByResolution b c = true →
      lessByResolution a c = true) := by
  constructor
  · intro a; simp [lessByResolution]
  · intro a b c h1 h2
    simp only [lessByResolution, Bool.and_eq_true, decide_eq_true_eq] at h1 h2 ⊢
    omega

theorem lessByBitrate_irrefl_trans :
    (∀ a, lessByBitrate a a = false) ∧
    (∀ a b c, lessByBitrate a b = true → lessByBitrate b c = true →
      lessByBitrate a c = true) := by
  constructor
  · intro a; simp [lessByBitrate]
  · intro a b c h1 h2
    simp only [lessByBitrate, Bool.and_eq_true, decide_eq_true_eq] at h1 h2 ⊢
    omega

end gotube
end Gotube

namespace Gotube
namespace gotube

/-- C21 (the code departs from the claim): both comparison functions are irreflexive
and transitive, but their incomparability is not transitive, so neither is a strict
weak ordering: the 1080p stream with bitrate 100 is incomparable with the 360p stream
of bitrate 100 and with the 720p stream of bitrate 200, while the 360p one is less than
the 720p one; likewise for the audio streams (200, 100), (100, 100), (150, 200). -/
theorem comparators_not_strict_weak :
    (lessByResolution video360 video1080 = false ∧ lessByResolution video1080 video360 = false ∧
      lessByResolution video1080 video720fast = false ∧
      lessByResolution video720fast video1080 = false ∧
      lessByResolution video360 video720fast = true) ∧
    ¬ IsStrictWeakOrder lessByResolution ∧
    (lessByBitrate audio100 audio200 = false ∧ lessByBitrate audio200 audio100 = false ∧
      lessByBitrate audio200 audio150 = false ∧ lessByBitrate audio150 audio200 = false ∧
      lessByBitrate audio100 audio150 = true) ∧
    ¬ IsStrictWeakOrder lessByBitrate := by
  have hv : lessByResolution video360 video1080 = false ∧
      lessByResolution video1080 video360 = false ∧
      lessByResolution video1080 video720fast = false ∧
      lessByResolution video720fast video1080 = false ∧
      lessByResolution video360 video720fast = true := by decide
  have ha : lessByBitrate audio100 audio200 = false ∧ lessByBitrate audio200 audio100 = false ∧
      lessByBitrate audio200 audio150 = false ∧ lessByBitrate audio150 audio200 = false ∧
      lessByBitrate audio100 audio150 = true := by decide
  refine ⟨hv, ?_, ha, ?_⟩
  · intro h
    have := (h.incomp_trans video360 video1080 video720fast hv.1 hv.2.1 hv.2.2.1 hv.2.2.2.1).1
    rw [hv.2.2.2.2] at this
    cases this
  · intro h
    have := (h.incomp_trans audio100 audio200 audio150 ha.1 ha.2.1 ha.2.2.1 ha.2.2.2.1).1
    rw [ha.2.2.2.2] at this
    cases this

end gotube

theorem splitChars_ne_nil (sep : Char) : ∀ cs : List Char, splitChars sep cs ≠ [] := by
  intro cs
  induction cs with
  | nil => simp [splitChars]
  | cons c rest ih =>
    unfold splitChars
    split
    · simp
    · split
      · simp
      · simp

theorem Split_ne_nil (s : String) (sep : Char) : Split s sep ≠ [] := by
  unfold Split
  intro h
  exact splitChars_ne_nil sep s.toList (List.map_eq_nil_iff.mp h)

namespace extract

theorem MimeCodecs_of_match (mime : String) (h : mimeCodecsRe.MatchString mime = true) :
    (MimeCodecs mime).2 ≠ [] := by
  unfold Regexp.MatchString at h
  unfold MimeCodecs Regexp.FindStringSubmatch
  cases hf : findMatch mimeCodecsRe.items mime.toList with
  | none => rw [hf] at h; cases h
  | some segs =>
    simp only [mimeCodecsRe, List.map_cons, List.map_nil]
    intro hnil
    exact Split_ne_nil _ _ (List.map_eq_nil_iff.mp hnil)

theorem MimeCodecs_of_no_match (mime : String) (h : mimeCodecsRe.MatchString mime = false) :
    MimeCodecs mime = ("", []) := by
  unfold Regexp.MatchString at h
  unfold MimeCodecs Regexp.FindStringSubmatch
  cases hf : findMatch mimeCodecsRe.items mime.toList with
  | none => rfl
  | some segs => rw [hf] at h; cases h

end extract

namespace gotube

theorem stream_of_no_codecs (video : Video) (format : StreamFormat)
    (h : (extract.MimeCodecs format.MimeType).2 = []) : video.stream format = none := by
  unfold Video.stream
  simp only [h]
  split
  · rfl
  · rfl

/-- C26: `Video.stream` builds a stream descriptor, without an index-out-of-range
failure, exactly when `MimeCodecs` returns a non-empty codec list for the MIME type of
the entry: when the MIME type does not match the pattern, `MimeCodecs` returns the
empty MIME type and no codecs and `stream` panics (the entry counts as video with
audio and `codecs[1]` is read); when it matches, `stream` succeeds. -/
theorem stream_succeeds_iff_codecs (video : Video) (format : StreamFormat) :
    ((video.stream format).isSome = true ↔ (extract.MimeCodecs format.MimeType).2 ≠ []) ∧
    (extract.mimeCodecsRe.MatchString format.MimeType = false →
      extract.MimeCodecs format.MimeType = ("", []) ∧
      (Split "" '/').head? ≠ some "audio" ∧ (([] : List String).length % 2 == 0) = true ∧
      video.stream format = none) ∧
    (extract.mimeCodecsRe.MatchString format.MimeType = true →
      (video.stream format).isSome = true) := by
  refine ⟨⟨?_, ?_⟩, ?_, ?_⟩
  · intro hs hnil
    rw [stream_of_no_codecs video format hnil] at hs
    cases hs
  · intro hne
    obtain ⟨st, hst, _⟩ := stream_of_codecs video format hne
    simp [hst]
  · intro hno
    have hm := extract.MimeCodecs_of_no_match _ hno
    exact ⟨hm, by decide, by decide, stream_of_no_codecs video format (by rw [hm])⟩
  · intro hyes
    obtain ⟨st, hst, _⟩ := stream_of_codecs video format (extract.MimeCodecs_of_match _ hyes)
    simp [hst]

end gotube
end Gotube

/-! ## MIME types of the expected shape: lemmas and claims -/

namespace Gotube

theorem splitChars_append_sep (sep : Char) : ∀ (l r : List Char), (∀ c ∈ l, c ≠ sep) →
    splitChars sep (l ++ sep :: r) = l :: splitChars sep r := by
  intro l
  induction l with
  | nil => intro r _; simp [splitChars]
  | cons a l ih =>
    intro r h
    have ha : a ≠ sep := h a (by simp)
    have := ih r (fun c hc => h c (by simp [hc]))
    simp [splitChars, ha, this]

namespace extract

theorem isWord_not_slash (c : Char) (h : isWord c = true) : c ≠ '/' ∧ c ≠ ';' := by
  constructor
  · rintro rfl; revert h; decide
  · rintro rfl; revert h; decide

theorem matchItems_mime (m : MimeShape) (h : m.WellFormed) :
    matchItems mimeCodecsRe.items m.text.toList =
      some [m.type, ['/'], m.subtype, [';'], [m.space], ['c'], ['o'], ['d'], ['e'], ['c'],
        ['s'], ['='], ['"'], m.list, ['"']] := by
  obtain ⟨ht, htw, hs, hsw, hsp, hl⟩ := h
  have len1 : ∀ l : List Char, l ≠ [] → 1 ≤ l.length := by
    intro l hl
    cases l with
    | nil => exact absurd rfl hl
    | cons a l => simp
  have hitems : mimeCodecsRe.items =
      [Item.many isWord 1, lit '/', Item.many isWord 1, lit ';', Item.one isSpace,
        lit 'c', lit 'o', lit 'd', lit 'e', lit 'c', lit 's', lit '=', lit '"',
        Item.many isCodecChar 0, lit '"'] := rfl
  have htext : m.text.toList = m.type ++ ('/' :: (m.subtype ++ (';' :: m.space :: 'c' :: 'o' ::
      'd' :: 'e' :: 'c' :: 's' :: '=' :: '"' :: (m.list ++ ['"'])))) := by
    simp [MimeShape.text, String.toList]
  rw [hitems, htext]
  apply matchItems_many _ _ _ _ _ _ htw (by simp [isWord]) (len1 _ ht)
  apply matchItems_lit
  apply matchItems_many _ _ _ _ _ _ hsw (by simp [isWord]) (len1 _ hs)
  apply matchItems_lit
  apply matchItems_one _ _ _ _ _ hsp
  repeat apply matchItems_lit
  apply matchItems_many _ _ _ _ _ _ hl (by simp [isCodecChar, isSpace]) (Nat.zero_le _)
  apply matchItems_lit
  rfl

/-- On a MIME type of the shape `type/subtype; codecs="list"`, `MimeCodecs` returns
`type/subtype` and the trimmed entries of the list. -/
theorem MimeCodecs_of_shape (m : MimeShape) (h : m.WellFormed) :
    MimeCodecs m.text = (String.mk (m.type ++ '/' :: m.subtype), m.codecs) := by
  have hm := findMatch_of_matchItems _ _ _ (matchItems_mime m h)
  unfold MimeCodecs Regexp.FindStringSubmatch
  rw [hm]
  simp [mimeCodecsRe, MimeShape.codecs]

end extract

namespace gotube

theorem Split_mime_head (m : extract.MimeShape) (h : m.WellFormed) :
    (Split (String.mk (m.type ++ '/' :: m.subtype)) '/').head? = some (String.mk m.type) := by
  unfold Split
  have := splitChars_append_sep '/' m.type m.subtype
    (fun c hc => (extract.isWord_not_slash c (h.2.1 c hc)).1)
  simp [String.toList, this]

/-- C22: for a format entry whose MIME type has the shape
`type/subtype; codecs="c1, c2, ..."`, `MimeCodecs` returns `type/subtype` and the list of
codecs, each trimmed; when the type is `audio` the entry becomes an audio stream with
`Codec = codecs[0]`, otherwise a video stream with `VideoCodec = codecs[0]`,
`HasAudio` true exactly when the number of codecs is even, and `AudioCodec = codecs[1]`
when `HasAudio`, the empty string otherwise. -/
theorem stream_of_mime_shape (video : Video) (format : StreamFormat) (m : extract.MimeShape)
    (hm : m.WellFormed) (hf : format.MimeType = m.text) :
    extract.MimeCodecs format.MimeType = (String.mk (m.type ++ '/' :: m.subtype), m.codecs) ∧
    (m.type = "audio".toList →
      ∃ a, video.stream format = some (Stream.audio a) ∧ m.codecs[0]? = some a.Codec) ∧
    (m.type ≠ "audio".toList →
      ∃ v, video.stream format = some (Stream.video v) ∧
        m.codecs[0]? = some v.VideoCodec ∧
        v.HasAudio = (m.codecs.length % 2 == 0) ∧
        (v.HasAudio = true → m.codecs[1]? = some v.AudioCodec) ∧
        (v.HasAudio = false → v.AudioCodec = "")) := by
  have hmc := extract.MimeCodecs_of_shape m hm
  have hhead := Split_mime_head m hm
  have hne : m.codecs ≠ [] := by
    unfold extract.MimeShape.codecs
    intro h0
    exact Split_ne_nil _ _ (List.map_eq_nil_iff.mp h0)
  rw [hf]
  refine ⟨hmc, ?_, ?_⟩
  · intro haudio
    have hh : ((Split (String.mk (m.type ++ '/' :: m.subtype)) '/').head? == some "audio")
        = true := by
      rw [hhead, haudio]; decide
    unfold Video.stream
    simp only [hf, hmc, hh, if_true]
    match hc : m.codecs, hne with
    | c :: rest, _ =>
      simp only [List.getElem?_cons_zero]
      exact ⟨_, rfl, rfl⟩
  · intro hvideo
    have hh : ((Split (String.mk (m.type ++ '/' :: m.subtype)) '/').head? == some "audio")
        = false := by
      rw [hhead]
      simp only [beq_eq_false_iff_ne, ne_eq, Option.some.injEq]
      intro he
      apply hvideo
      have := congrArg String.toList he
      simpa [String.toList] using this
    unfold Video.stream
    simp only [hf, hmc, hh, Bool.false_eq_true, if_false]
    match hc : m.codecs, hne with
    | [c], _ =>
      have hl1 : (([c] : List String).length % 2 == 0) = false := rfl
      simp only [hl1, Bool.false_eq_true, if_false, List.getElem?_cons_zero]
      refine ⟨_, rfl, rfl, rfl, ?_, ?_⟩
      · intro h; cases h
      · intro _; rfl
    | c1 :: c2 :: rest, _ =>
      cases hl : ((c1 :: c2 :: rest).length % 2 == 0)
      · simp only [Bool.false_eq_true, if_false, List.getElem?_cons_zero]
        refine ⟨_, rfl, rfl, rfl, ?_, ?_⟩
        · intro h; cases h
        · intro _; rfl
      · simp only [if_true, List.getElem?_cons_succ, List.getElem?_cons_zero]
        refine ⟨_, rfl, rfl, rfl, ?_, ?_⟩
        · intro _; rfl
        · intro h; cases h

/-- C22 at `video/mp4; codecs="avc1, mp4a"`: the codecs are `avc1` and `mp4a`, the
stream carries audio, and its audio codec is `mp4a`. -/
theorem stream_of_mime_shape_witness :
    extract.MimeCodecs "video/mp4; codecs=\"avc1, mp4a\"" = ("video/mp4", ["avc1", "mp4a"]) ∧
    ∃ v, exampleVideo.stream (exampleFormat 22 "video/mp4; codecs=\"avc1, mp4a\"") =
        some (Stream.video v) ∧
      v.VideoCodec = "avc1" ∧ v.HasAudio = true ∧ v.AudioCodec = "mp4a" := by
  have h := stream_of_mime_shape exampleVideo
    (exampleFormat 22 "video/mp4; codecs=\"avc1, mp4a\"") extract.exampleMime
    (by decide) (by decide)
  refine ⟨h.1, ?_⟩
  obtain ⟨v, hv, h0, hha, h1, _⟩ := h.2.2 (by decide)
  have hha2 : v.HasAudio = true := by rw [hha]; decide
  refine ⟨v, hv, ?_, hha2, ?_⟩
  · have : extract.exampleMime.codecs[0]? = some "avc1" := by decide
    rw [this] at h0
    exact (Option.some.inj h0).symm
  · have := h1 hha2
    have h2 : extract.exampleMime.codecs[1]? = some "mp4a" := by decide
    rw [h2] at this
    exact (Option.some.inj this).symm

end gotube
end Gotube

/-! ## Initializing a video: live content -/

namespace Gotube
namespace gotube

/-- The fields of a video that `fetchInfo` leaves as they are. -/
theorem fetchInfo_keeps (env : Site) (video : Video) (log : List Fetch) (el : String) :
    (fetchInfo env video log el).2.1.ID = video.ID ∧
    (fetchInfo env video log el).2.1.VideoInfo = video.VideoInfo ∧
    (fetchInfo env video log el).2.1.streams = video.streams ∧
    (fetchInfo env video log el).2.1.captions = video.captions ∧
    (fetchInfo env video log el).2.1.IsAgeRestricted = video.IsAgeRestricted ∧
    (fetchInfo env video log el).2.1.embedHTML = video.embedHTML := by
  unfold fetchInfo
  simp only
  split <;> exact ⟨rfl, rfl, rfl, rfl, rfl, rfl⟩

theorem fetchPages_keeps (env : Site) (video : Video) :
    (fetchPages env video).2.1.ID = video.ID ∧
    (fetchPages env video).2.1.VideoInfo = video.VideoInfo ∧
    (fetchPages env video).2.1.streams = video.streams ∧
    (fetchPages env video).2.1.captions = video.captions := by
  unfold fetchPages
  simp only
  repeat' split
  all_goals exact ⟨rfl, rfl, rfl, rfl⟩

theorem fetchInfos_keeps (env : Site) (video : Video) (log : List Fetch) :
    (fetchInfos env video log).2.1.ID = video.ID ∧
    (fetchInfos env video log).2.1.VideoInfo = video.VideoInfo ∧
    (fetchInfos env video log).2.1.streams = video.streams ∧
    (fetchInfos env video log).2.1.captions = video.captions := by
  have h1 := fetchInfo_keeps env video log "embedded"
  unfold fetchInfos
  rcases hf : fetchInfo env video log "embedded" with ⟨err, video1, log1⟩
  rw [hf] at h1
  simp only at h1
  obtain ⟨a, b, c, d, _, _⟩ := h1
  have h2 := fetchInfo_keeps env video1 log1 "detailpage"
  obtain ⟨a2, b2, c2, d2, _, _⟩ := h2
  cases err with
  | some e =>
    cases e <;> simp only <;>
      first
      | exact ⟨a, b, c, d⟩
      | exact ⟨a2.trans a, b2.trans b, c2.trans c, d2.trans d⟩
  | none =>
    simp only
    split
    · exact ⟨a, b, c, d⟩
    · split
      · exact ⟨a2.trans a, b2.trans b, c2.trans c, d2.trans d⟩
      · exact ⟨a, b, c, d⟩

theorem prefetch_keeps (env : Site) (video : Video) :
    (prefetch env video).2.1.ID = video.ID ∧
    (prefetch env video).2.1.VideoInfo = video.VideoInfo ∧
    (prefetch env video).2.1.streams = video.streams ∧
    (prefetch env video).2.1.captions = video.captions := by
  have h1 := fetchPages_keeps env video
  unfold prefetch
  rcases hf : fetchPages env video with ⟨err, video1, log1⟩
  rw [hf] at h1
  simp only at h1
  obtain ⟨a, b, c, d⟩ := h1
  cases err with
  | some e => exact ⟨a, b, c, d⟩
  | none =>
    obtain ⟨a2, b2, c2, d2⟩ := fetchInfos_keeps env video1 log1
    exact ⟨a2.trans a, b2.trans b, c2.trans c, d2.trans d⟩

theorem descramble_keeps (env : Site) (video : Video) :
    (descramble env video).2.ID = video.ID ∧
    (descramble env video).2.VideoInfo = video.VideoInfo ∧
    (descramble env video).2.streams = video.streams ∧
    (descramble env video).2.captions = video.captions := by
  unfold descramble
  simp only
  repeat' split
  all_goals exact ⟨rfl, rfl, rfl, rfl⟩

/-- C23: for a video whose metadata document marks it as live content, `obtainBasicInfo`
returns a `VideoUnsupportedError` carrying the identifier of the video and changes
nothing in the video; and when `prefetch` and `descramble` succeed and leave such a
video, `Initialize` returns that error, with `VideoInfo`, the stream catalog and the
caption catalog of the video as they were before the call (nil and empty for a video
just made by `NewVideo`). -/
theorem live_content_unsupported (video : Video) (playerResponse : PlayerResponse)
    (hpr : video.playerResponse = some playerResponse)
    (hlive : playerResponse.VideoDetails.IsLiveContent = true) :
    obtainBasicInfo video = (Res.error (GoError.unsupported video.ID), video) ∧
    ∀ (env : Site) (video0 video1 : Video) (log : List Fetch),
      prefetch env video0 = (none, video1, log) →
      descramble env video1 = (Res.ok (), video) →
      Initialize env video0 = (Res.error (GoError.unsupported video0.ID), video, log) ∧
      video.VideoInfo = video0.VideoInfo ∧ video.streams = video0.streams ∧
      video.captions = video0.captions := by
  have hob : obtainBasicInfo video = (Res.error (GoError.unsupported video.ID), video) := by
    unfold obtainBasicInfo
    rw [hpr]
    simp only [hlive, if_true]
  refine ⟨hob, ?_⟩
  intro env video0 video1 log hp hd
  have k1 := prefetch_keeps env video0
  rw [hp] at k1
  simp only at k1
  have k2 := descramble_keeps env video1
  rw [hd] at k2
  simp only at k2
  obtain ⟨a, b, c, d⟩ := k1
  obtain ⟨a2, b2, c2, d2⟩ := k2
  refine ⟨?_, b2.trans b, c2.trans c, d2.trans d⟩
  unfold Initialize
  rw [hp]
  simp only
  rw [hd]
  simp only
  rw [hob, a2, a]

set_option maxRecDepth 1000000 in
/-- C23 on a site serving a live video: the video made by `NewVideo` from
`ABCDEFGHIJK` fails to initialize with the error for unsupported content, and has no
`VideoInfo`, no streams and no captions afterwards. -/
theorem live_content_unsupported_witness :
    obtainBasicInfo liveVideo = (Res.error (GoError.unsupported "ABCDEFGHIJK"), liveVideo) ∧
    NewVideo liveSite "ABCDEFGHIJK" false = (some newVideo, Res.ok (), []) ∧
    Initialize liveSite newVideo = (Res.error (GoError.unsupported "ABCDEFGHIJK"), liveVideo,
      [Fetch.watch "https://youtube.com/watch?hl=en&v=ABCDEFGHIJK",
       Fetch.info (utils.MakeInfoURL "ABCDEFGHIJK" "embedded")]) ∧
    liveVideo.VideoInfo = none ∧ liveVideo.streams = [] ∧ liveVideo.captions = [] :=
  have h := live_content_unsupported liveVideo liveResponse rfl rfl
  have h2 := h.2 liveSite newVideo (prefetch liveSite newVideo).2.1
    [Fetch.watch "https://youtube.com/watch?hl=en&v=ABCDEFGHIJK",
     Fetch.info (utils.MakeInfoURL "ABCDEFGHIJK" "embedded")] rfl rfl
  ⟨h.1, rfl, h2.1, h2.2.1, h2.2.2.1, h2.2.2.2⟩

end gotube
end Gotube

/-! ## Initializing a video: the requests to the info endpoint -/

namespace Gotube

theorem matchItems_lits_isSome : ∀ (s cs : List Char),
    (matchItems (s.map lit) cs).isSome = s.isPrefixOf cs := by
  intro s
  induction s with
  | nil => intro cs; simp [matchItems]
  | cons a s ih =>
    intro cs
    cases cs with
    | nil => simp [lit, matchItems]
    | cons c rest =>
      have := ih rest
      by_cases hca : c = a
      · subst hca
        simp [lit, matchItems, List.isPrefixOf] at this ⊢
        exact this
      · have hac : ¬ a = c := fun h => hca h.symm
        simp [lit, matchItems, List.isPrefixOf, hca, hac]

theorem findMatch_lits_isSome (s : List Char) : ∀ cs : List Char,
    (findMatch (s.map lit) cs).isSome = (findSub s cs).isSome := by
  intro cs
  induction cs with
  | nil =>
    simp only [findMatch, findSub]
    rw [matchItems_lits_isSome]
    cases s <;> simp
  | cons c cs ih =>
    simp only [findMatch, findSub]
    have h := matchItems_lits_isSome s (c :: cs)
    cases hm : matchItems (s.map lit) (c :: cs) with
    | some r =>
      rw [hm] at h
      simp only [Option.isSome_some] at h
      simp [← h]
    | none =>
      rw [hm] at h
      simp only [Option.isSome_none] at h
      simp only [← h, Bool.false_eq_true, if_false]
      rw [ih]
      cases findSub s cs with
      | none => rfl
      | some ab => rfl

namespace gotube

/-- The pattern `UNPLAYABLE` matches a text exactly when the text contains that word. -/
theorem unplayableRe_MatchString (t : String) :
    unplayableRe.MatchString t = Contains t "UNPLAYABLE" := by
  unfold Regexp.MatchString Contains unplayableRe lits
  exact findMatch_lits_isSome _ _

theorem fetchPages_no_info (env : Site) (video : Video) :
    infoFetches (fetchPages env video).2.2 = [] := by
  unfold fetchPages
  simp only
  repeat' split
  all_goals rfl

theorem infoFetches_append_info (log : List Fetch) (u : String) :
    infoFetches (log ++ [Fetch.info u]) = infoFetches log ++ [u] := by
  simp [infoFetches, List.filterMap_append]

/-- What one call of `fetchInfo` does. -/
theorem fetchInfo_spec (env : Site) (video : Video) (log : List Fetch) (el : String) :
    (fetchInfo env video log el).1 = errorOf (env.HttpFetch log.length (infoURLOf video el)) ∧
    (fetchInfo env video log el).2.2 = log ++ [Fetch.info (infoURLOf video el)] ∧
    (∀ content, env.HttpFetch log.length (infoURLOf video el) = Except.ok content →
      (fetchInfo env video log el).2.1.infoRaw = content) ∧
    ∀ el2, infoURLOf (fetchInfo env video log el).2.1 el2 = infoURLOf video el2 := by
  unfold fetchInfo
  simp only
  split
  · next e he =>
    refine ⟨by rw [he]; rfl, rfl, ?_, fun _ => rfl⟩
    intro content hc; rw [he] at hc; cases hc
  · next c he =>
    refine ⟨by rw [he]; rfl, rfl, ?_, fun _ => rfl⟩
    intro content hc; rw [he] at hc; cases hc; rfl

/-- C24, amended: when the watch page (and, for an age-restricted video, the embed page)
is fetched without error, `prefetch` requests the info endpoint once with
`el = "embedded"` (for a video that is not age-restricted), and a second time, with
`el = "detailpage"`, exactly when the first request failed with an `HttpError`, or its
body parses as a query without error and the field `player_response` contains
`UNPLAYABLE`.  After a second request `prefetch` returns the error of that request;
otherwise it returns the error of the first request, or the parse error of its body, or
nil.  When a page cannot be fetched the info endpoint is not requested at all. -/
theorem prefetch_retries_once (env : Site) (video : Video) :
    (∀ err video1 log, fetchPages env video = (some err, video1, log) →
      prefetch env video = (some err, video1, log) ∧ infoFetches log = []) ∧
    (∀ video1 log, fetchPages env video = (none, video1, log) →
      (video1.IsAgeRestricted = false →
        infoURLOf video1 "embedded" = utils.MakeInfoURL video.ID "embedded" ∧
        infoURLOf video1 "detailpage" = utils.MakeInfoURL video.ID "detailpage") ∧
      (((∃ code, env.HttpFetch log.length (infoURLOf video1 "embedded") =
            Except.error (GoError.http code)) ∨
          (∃ body, env.HttpFetch log.length (infoURLOf video1 "embedded") = Except.ok body ∧
            (url.ParseQuery body).2 = false ∧
            Contains (url.Get (url.ParseQuery body).1 "player_response") "UNPLAYABLE" = true)) →
        infoFetches (prefetch env video).2.2 =
          [infoURLOf video1 "embedded", infoURLOf video1 "detailpage"] ∧
        (prefetch env video).1 =
          errorOf (env.HttpFetch (log.length + 1) (infoURLOf video1 "detailpage"))) ∧
      (¬ ((∃ code, env.HttpFetch log.length (infoURLOf video1 "embedded") =
            Except.error (GoError.http code)) ∨
          (∃ body, env.HttpFetch log.length (infoURLOf video1 "embedded") = Except.ok body ∧
            (url.ParseQuery body).2 = false ∧
            Contains (url.Get (url.ParseQuery body).1 "player_response") "UNPLAYABLE" = true)) →
        infoFetches (prefetch env video).2.2 = [infoURLOf video1 "embedded"] ∧
        (∀ err, env.HttpFetch log.length (infoURLOf video1 "embedded") = Except.error err →
          (prefetch env video).1 = some err) ∧
        (∀ body, env.HttpFetch log.length (infoURLOf video1 "embedded") = Except.ok body →
          (prefetch env video).1 =
            if (url.ParseQuery body).2 then some (GoError.sys "invalid query") else none))) ∧
    (infoFetches (prefetch env video).2.2).length ≤ 2 := by
  suffices main : (∀ err video1 log, fetchPages env video = (some err, video1, log) →
      prefetch env video = (some err, video1, log) ∧ infoFetches log = []) ∧
    (∀ video1 log, fetchPages env video = (none, video1, log) →
      (video1.IsAgeRestricted = false →
        infoURLOf video1 "embedded" = utils.MakeInfoURL video.ID "embedded" ∧
        infoURLOf video1 "detailpage" = utils.MakeInfoURL video.ID "detailpage") ∧
      (((∃ code, env.HttpFetch log.length (infoURLOf video1 "embedded") =
            Except.error (GoError.http code)) ∨
          (∃ body, env.HttpFetch log.length (infoURLOf video1 "embedded") = Except.ok body ∧
            (url.ParseQuery body).2 = false ∧
            Contains (url.Get (url.ParseQuery body).1 "player_response") "UNPLAYABLE" = true)) →
        infoFetches (prefetch env video).2.2 =
          [infoURLOf video1 "embedded", infoURLOf video1 "detailpage"] ∧
        (prefetch env video).1 =
          errorOf (env.HttpFetch (log.length + 1) (infoURLOf video1 "detailpage"))) ∧
      (¬ ((∃ code, env.HttpFetch log.length (infoURLOf video1 "embedded") =
            Except.error (GoError.http code)) ∨
          (∃ body, env.HttpFetch log.length (infoURLOf video1 "embedded") = Except.ok body ∧
            (url.ParseQuery body).2 = false ∧
            Contains (url.Get (url.ParseQuery body).1 "player_response") "UNPLAYABLE" = true)) →
        infoFetches (prefetch env video).2.2 = [infoURLOf video1 "embedded"] ∧
        (∀ err, env.HttpFetch log.length (infoURLOf video1 "embedded") = Except.error err →
          (prefetch env video).1 = some err) ∧
        (∀ body, env.HttpFetch log.length (infoURLOf video1 "embedded") = Except.ok body →
          (prefetch env video).1 =
            if (url.ParseQuery body).2 then some (GoError.sys "invalid query") else none))) by
    refine ⟨main.1, main.2, ?_⟩
    rcases hp : fetchPages env video with ⟨err, video1, log⟩
    cases err with
    | some e =>
      obtain ⟨h1, h2⟩ := main.1 e video1 log hp
      rw [h1]
      simp [h2]
    | none =>
      obtain ⟨_, hyes, hno⟩ := main.2 video1 log hp
      by_cases hr : ((∃ code, env.HttpFetch log.length (infoURLOf video1 "embedded") =
            Except.error (GoError.http code)) ∨
          (∃ body, env.HttpFetch log.length (infoURLOf video1 "embedded") = Except.ok body ∧
            (url.ParseQuery body).2 = false ∧
            Contains (url.Get (url.ParseQuery body).1 "player_response") "UNPLAYABLE" = true))
      · rw [(hyes hr).1]; simp
      · rw [(hno hr).1]; simp
  constructor
  · intro err video1 log hp
    have hn := fetchPages_no_info env video
    rw [hp] at hn
    refine ⟨?_, hn⟩
    unfold prefetch
    rw [hp]
  · intro video1 log hp
    have hn := fetchPages_no_info env video
    rw [hp] at hn
    simp only at hn
    have hid : video1.ID = video.ID := by
      have := (fetchPages_keeps env video).1
      rw [hp] at this
      exact this
    have hpre : prefetch env video = fetchInfos env video1 log := by
      unfold prefetch
      rw [hp]
    rw [hpre]
    obtain ⟨s1, s2, s3, s4⟩ := fetchInfo_spec env video1 log "embedded"
    refine ⟨?_, ?_, ?_⟩
    · intro hage
      unfold infoURLOf
      simp [hage, hid]
    · intro hretry
      unfold fetchInfos
      rcases hf : fetchInfo env video1 log "embedded" with ⟨err1, video2, log2⟩
      rw [hf] at s1 s2 s3 s4
      simp only at s1 s2 s3 s4
      obtain ⟨t1, t2, _, _⟩ := fetchInfo_spec env video2 log2 "detailpage"
      have hlen : log2.length = log.length + 1 := by rw [s2]; simp
      have hfin : infoFetches (fetchInfo env video2 log2 "detailpage").2.2 =
            [infoURLOf video1 "embedded", infoURLOf video1 "detailpage"] ∧
          (fetchInfo env video2 log2 "detailpage").1 =
            errorOf (env.HttpFetch (log.length + 1) (infoURLOf video1 "detailpage")) := by
        rw [t1, t2, s4, hlen, s2, infoFetches_append_info, infoFetches_append_info, hn]
        exact ⟨rfl, rfl⟩
      rcases hretry with ⟨code, hc⟩ | ⟨body, hb, hparse, hmark⟩
      · rw [hc] at s1
        have : err1 = some (GoError.http code) := s1
        subst this
        exact hfin
      · rw [hb] at s1
        have : err1 = none := s1
        subst this
        have hraw := s3 body hb
        simp only [hraw, hparse, Bool.false_eq_true, if_false, unplayableRe_MatchString, hmark,
          if_true]
        exact hfin
    · intro hno
      unfold fetchInfos
      rcases hf : fetchInfo env video1 log "embedded" with ⟨err1, video2, log2⟩
      rw [hf] at s1 s2 s3 s4
      simp only at s1 s2 s3 s4
      have hlog : infoFetches log2 = [infoURLOf video1 "embedded"] := by
        rw [s2, infoFetches_append_info, hn]; rfl
      cases hfirst : env.HttpFetch log.length (infoURLOf video1 "embedded") with
      | error e =>
        rw [hfirst] at s1
        have : err1 = some e := s1
        subst this
        have hnot : ∀ code, e ≠ GoError.http code := by
          intro code hc
          apply hno
          left
          exact ⟨code, by rw [hfirst, hc]⟩
        have hres : (match e with
            | GoError.http _ => fetchInfo env video2 log2 "detailpage"
            | _ => (some e, video2, log2)) = (some e, video2, log2) := by
          cases e <;> first | rfl | exact absurd rfl (hnot _)
        simp only [hres]
        refine ⟨hlog, ?_, ?_⟩
        · intro err he; cases he; rfl
        · intro body hb; cases hb
      | ok body =>
        rw [hfirst] at s1
        have : err1 = none := s1
        subst this
        have hraw := s3 body hfirst
        simp only [hraw]
        cases hparse : (url.ParseQuery body).2 with
        | true =>
          simp only [if_true]
          refine ⟨hlog, ?_, ?_⟩
          · intro err he; cases he
          · intro b hb; cases hb; simp [hparse]
        | false =>
          have hmark : Contains (url.Get (url.ParseQuery body).1 "player_response")
              "UNPLAYABLE" = false := by
            cases hm : Contains (url.Get (url.ParseQuery body).1 "player_response") "UNPLAYABLE"
            · rfl
            · exact absurd (Or.inr ⟨body, hfirst, hparse, hm⟩) hno
          simp only [Bool.false_eq_true, if_false, unplayableRe_MatchString, hmark]
          refine ⟨hlog, ?_, ?_⟩
          · intro err he; cases he
          · intro b hb; cases hb; simp [hparse]

set_option maxRecDepth 1000000 in
/-- C24, amended, on a site whose first info document carries the marker: the info
endpoint is requested with `el=embedded` and then with `el=detailpage`, and `prefetch`
returns nil. -/
theorem prefetch_retries_once_witness :
    infoFetches (prefetch unplayableSite newVideo).2.2 =
      [utils.MakeInfoURL "ABCDEFGHIJK" "embedded",
       utils.MakeInfoURL "ABCDEFGHIJK" "detailpage"] ∧
    (prefetch unplayableSite newVideo).1 = none :=
  ((prefetch_retries_once unplayableSite newVideo).2.1
      (fetchPages unplayableSite newVideo).2.1
      [Fetch.watch "https://youtube.com/watch?hl=en&v=ABCDEFGHIJK"] rfl).2.1
    (Or.inr ⟨"status=ok&player_response=%7B%22playabilityStatus%22%3A%7B%22status%22%3A%22UNPLAYABLE%22%7D%7D",
      rfl, by decide, by decide⟩)

set_option maxRecDepth 1000000 in
/-- C24 as stated fails: the first info document is
`player_response=UNPLAYABLE&x=%zz`, whose field `player_response` is the marker itself;
`url.ParseQuery` reports the malformed pair, `prefetch` returns that error, and the info
endpoint is requested once only. -/
theorem prefetch_parse_error_counterexample :
    malformedSite.HttpFetch 1 (utils.MakeInfoURL "ABCDEFGHIJK" "embedded") =
      Except.ok "player_response=UNPLAYABLE&x=%zz" ∧
    url.ParseQuery "player_response=UNPLAYABLE&x=%zz" =
      ([("player_response", "UNPLAYABLE")], true) ∧
    Contains (url.Get (url.ParseQuery "player_response=UNPLAYABLE&x=%zz").1 "player_response")
      "UNPLAYABLE" = true ∧
    (prefetch malformedSite newVideo).1 = some (GoError.sys "invalid query") ∧
    (prefetch malformedSite newVideo).2.2 =
      [Fetch.watch "https://youtube.com/watch?hl=en&v=ABCDEFGHIJK",
       Fetch.info (utils.MakeInfoURL "ABCDEFGHIJK" "embedded")] :=
  ⟨rfl, by decide, by decide, by decide, rfl⟩

end gotube
end Gotube
